import Mathlib

/-!
# vaTracer / vaTracerView (Source/Core/Misc/vaProfiler.cpp)

A shallow embedding of the execution tracer's aggregation view.

Conventions of the embedding
* `std::string` is a list of characters (`Str`).
* Times are `double` in the source. The embedding has the doubles whose value is an integer (a
  number of clock ticks): `==`, `<`, `std::min`, `std::max` are exact on them and `-0.0` is `0`.
  Where the code computes with times in `double` arithmetic (the duration of a span,
  `TimeTotal +=`, the `ts` and `dur` of a record) the result is the exact one rounded to the
  nearest double (`roundDouble`). The deadline `m_lastConnectedTime + connectionTimeout` and the
  bound `now - duration` of the exporter are only stored and compared with other times; they
  stay written as this sum and this difference.
* `int` counters are unbounded integers.
* `vaTracerView::Node*` held in `vector<Node*>` is a tree: a node owns its `ChildNodes`.
  A stack of node pointers (`currentDstStack`) is the list of child indices chosen at every
  level; the vectors only ever grow at the back while the stack is alive, so an index keeps
  naming the same node.
* Stacks are lists whose head is `back()`.
* `assert` is compiled out (release build).
* `vaCore::TimeFromAppStart()` is an argument of the operation that reads it.
* `vaProfiler.h` is not part of the sources: what it declares and the code here uses is either
  modelled (marked so) or taken as a parameter (`NodeDecl`).
-/

namespace Vanilla

/-- A `std::string`. -/
abbrev Str := List Char

/-- The recorded span `vaTracer::Entry`. -/
structure Entry where
  Name : Str
  Beginning : Int
  End : Int
  Depth : Int
deriving DecidableEq

/-- The call-tree node `vaTracerView::Node`, with the fields vaProfiler.cpp reads or writes. -/
structure Node where
  Name : Str
  SortOrder : Int
  RecursionDepth : Int
  TimeTotal : Int
  TimeTotalMax : Int
  TimeTotalMin : Int
  Instances : Int
  ChildNodes : List Node
  Opened : Bool
  Selected : Bool
  LastSeenAge : Int

/-- Modelled from the spec: `AllocateNode( )` followed by `Node::Reset( true )` (both declared in
vaProfiler.h) give a node with no children, empty name, zero statistics (the value the
`== -0.0` tests of `UpdateCallback` look for), `Instances == 0` and `LastSeenAge == 0`. -/
def Node.Reset : Node :=
  { Name := [], SortOrder := 0, RecursionDepth := 0, TimeTotal := 0, TimeTotalMax := 0,
    TimeTotalMin := 0, Instances := 0, ChildNodes := [], Opened := true, Selected := false,
    LastSeenAge := 0 }

/-- The parts of `vaTracerView::Node` that vaProfiler.h declares and vaProfiler.cpp only calls:
the keep-alive constant and the three recursive per-node passes, each seen as the function
from a node (subtree) before the call to the node after it. -/
structure NodeDecl where
  LastSeenAgeToKeepAlive : Int
  PreUpdateRecursive : Node → Node
  PostUpdateRecursive : Node → Node
  SyncUIRecursive : Node → Node → Node

/-- The Timeline `vaTracer::ThreadContext`: the fields the view code uses.
`AttachedViewer` is a weak pointer to a view, here the identity of the view. -/
structure ThreadContext where
  Name : Str
  AutomaticFrameIncrement : Bool
  AttachedViewer : Option Nat
deriving DecidableEq

/-- The static state of `vaTracer`: the live `ThreadContext` objects by handle (`none` once the
object is destroyed, so that a weak pointer to it is expired) and the registry
`s_threadContexts` of weak pointers (handles). -/
structure vaTracer where
  heap : List (Option ThreadContext)
  s_threadContexts : List Nat
deriving DecidableEq

/-- The call `weak_ptr<ThreadContext>::lock( )`. -/
def vaTracer.lock (t : vaTracer) (h : Nat) : Option ThreadContext :=
  t.heap[h]?.join

/-- The call `weak_ptr<ThreadContext>::lock( )` on a weak pointer that may be empty. -/
def vaTracer.lockWeak (t : vaTracer) : Option Nat → Option ThreadContext
  | none => none
  | some h => t.lock h

/-- The members of `vaTracerView` used by vaProfiler.cpp. -/
structure vaTracerView where
  m_rootNodes : List Node
  m_connectedThreadContext : Option Nat
  m_connectionName : Str
  m_nameChanged : Bool
  m_frameCountWhileConnected : Int
  m_frameSortCounter : Int
  m_lastConnectedTime : Int
  m_connectionTimeoutTime : Int

/-! ## Trees addressed by a stack of child indices -/

/-- The vector reached from `ns` by following the child indices `p` (outermost first):
`ns` itself for the empty path, else the `ChildNodes` of the last node on the path. -/
def listAt : List Nat → List Node → List Node
  | [], ns => ns
  | i :: p, ns =>
    match ns[i]? with
    | some n => listAt p n.ChildNodes
    | none => []

/-- The node reached by the non-empty path `p`. -/
def nodeAt : List Nat → List Node → Option Node
  | [], _ => none
  | [i], ns => ns[i]?
  | i :: j :: p, ns =>
    match ns[i]? with
    | some n => nodeAt (j :: p) n.ChildNodes
    | none => none

/-- The names of the nodes met along the path `p`, outermost first. -/
def namesAlong : List Nat → List Node → List Str
  | [], _ => []
  | i :: p, ns =>
    match ns[i]? with
    | some n => n.Name :: namesAlong p n.ChildNodes
    | none => []

/-- Apply `g` to the vector reached by the path `p`, in place. -/
def updateListAt (g : List Node → List Node) : List Nat → List Node → List Node
  | [], ns => g ns
  | i :: p, ns => ns.modify (fun n => { n with ChildNodes := updateListAt g p n.ChildNodes }) i

/-! ## vaTracerView::UpdateCallback -/

/-- The loop condition of the `while` that pops the stacks: the top source span ended before
the new one ends, or at the same instant with a depth not less than the new one. -/
def popCond (top srcNode : Entry) : Bool :=
  decide (top.End < srcNode.End) || (decide (top.End = srcNode.End) && decide (top.Depth ≥ srcNode.Depth))

/-- The `while` loop popping `currentSrcStack` and `currentDstStack` together. -/
def popStacks (srcNode : Entry) : List Entry → List Nat → List Entry × List Nat
  | [], dst => ([], dst)
  | top :: src, dst =>
    if popCond top srcNode then popStacks srcNode src dst.tail else (top :: src, dst)

/-- The spacing of the doubles around the natural number `n`: the least power of two `u`, from
`u` on, with `n / u < 2^53`; `fuel` bounds the number of doublings. -/
def ulpAbove (n : Nat) : Nat → Nat → Nat
  | 0, u => u
  | fuel + 1, u => if n / u < 9007199254740992 then u else ulpAbove n fuel (2 * u)

/-- The double nearest to the integer `x`, ties to the even significand: the result of a
`double` operation whose exact result is `x`. Below `2^53` every integer is a double; from
there on the doubles are the multiples of `ulp`, a power of two. Magnitudes of `2^1024` and
more, which `double` holds as infinity, are outside the embedding. -/
def roundDouble (x : Int) : Int :=
  if x.natAbs < 9007199254740992 then x
  else
    let ulp := ulpAbove x.natAbs x.natAbs 1
    let q := x.natAbs / ulp
    let r := x.natAbs % ulp
    let q' := if 2 * r > ulp ∨ (2 * r = ulp ∧ q % 2 = 1) then q + 1 else q
    Int.sign x * ((q' * ulp : Nat) : Int)

/-- The statistics update of `dstNode` for one span (vaProfiler.cpp lines 619-625);
`TimeTotal += spanTime` is an addition of doubles. -/
def foldNode (spanTime : Int) (stackSize : Nat) (sortOrder : Int) (dstNode : Node) : Node :=
  { dstNode with
    TimeTotal := roundDouble (dstNode.TimeTotal + spanTime)
    TimeTotalMax := if dstNode.TimeTotalMax = 0 then spanTime else max dstNode.TimeTotalMax spanTime
    TimeTotalMin := if dstNode.TimeTotalMin = 0 then spanTime else min dstNode.TimeTotalMin spanTime
    Instances := dstNode.Instances + 1
    RecursionDepth := (stackSize : Int) - 1
    LastSeenAge := 0
    SortOrder := sortOrder }

/-- The position `std::find_if` returns in `dstNodes` for `name` (`length` stands for `end()`). -/
def findByName (name : Str) (dstNodes : List Node) : Nat :=
  dstNodes.findIdx (fun node => name == node.Name)

/-- Find the node called `name` in `dstNodes`, or push a new one at the back. -/
def findOrCreate (name : Str) (dstNodes : List Node) : List Node :=
  if findByName name dstNodes = dstNodes.length then
    dstNodes ++ [{ Node.Reset with Name := name }]
  else dstNodes

/-- The search for the destination node in `dstNodes` and its update (lines 596-626):
find the node called `name` or push a new one, then fold the span into it. -/
def foldInto (name : Str) (spanTime : Int) (stackSize : Nat) (sortOrder : Int)
    (dstNodes : List Node) : List Node :=
  (findOrCreate name dstNodes).modify (foldNode spanTime stackSize sortOrder)
    (findByName name dstNodes)

/-- What the body of the `for` loop of `UpdateCallback` reads and writes. -/
structure FoldState where
  m_rootNodes : List Node
  m_frameSortCounter : Int
  currentSrcStack : List Entry
  currentDstStack : List Nat

/-- One iteration of the `for` loop of `UpdateCallback` (lines 580-627). -/
def foldSpan (st : FoldState) (srcNode : Entry) : FoldState :=
  let popped := popStacks srcNode st.currentSrcStack st.currentDstStack
  let path := popped.2.reverse
  { m_rootNodes :=
      updateListAt
        (foldInto srcNode.Name (roundDouble (srcNode.End - srcNode.Beginning))
          (popped.2.length + 1) st.m_frameSortCounter)
        path st.m_rootNodes
    m_frameSortCounter := st.m_frameSortCounter + 1
    currentSrcStack := srcNode :: popped.1
    currentDstStack := findByName srcNode.Name (listAt path st.m_rootNodes) :: popped.2 }

/-- The view after the `if( incrementFrameCounter )` of `UpdateCallback`. -/
def bumpFrame (incrementFrameCounter : Bool) (v : vaTracerView) : vaTracerView :=
  if incrementFrameCounter then
    { v with m_frameCountWhileConnected := v.m_frameCountWhileConnected + 1, m_frameSortCounter := 0 }
  else v

/-- The loop state at the entry of the `for` loop of `UpdateCallback`. -/
def loopInit (v : vaTracerView) : FoldState :=
  { m_rootNodes := v.m_rootNodes, m_frameSortCounter := v.m_frameSortCounter,
    currentSrcStack := [], currentDstStack := [] }

/-- The loop state of `UpdateCallback` at the entry of iteration `k` over `timelineChunk`. -/
def loopStateAt (v : vaTracerView) (incrementFrameCounter : Bool) (timelineChunk : List Entry)
    (k : Nat) : FoldState :=
  (timelineChunk.take k).foldl foldSpan (loopInit (bumpFrame incrementFrameCounter v))

/-- The loop state of `UpdateCallback` after the spans of `timelineChunk`. -/
def foldChunk (v : vaTracerView) (incrementFrameCounter : Bool) (timelineChunk : List Entry) :
    FoldState :=
  timelineChunk.foldl foldSpan (loopInit (bumpFrame incrementFrameCounter v))

/-- The method `vaTracerView::UpdateCallback( timelineChunk, timelineChunkCount, incrementFrameCounter )`
called at time `currentTime`. -/
def UpdateCallback (t : vaTracer) (currentTime : Int) (v : vaTracerView)
    (timelineChunk : List Entry) (incrementFrameCounter : Bool) : vaTracerView :=
  if currentTime > v.m_connectionTimeoutTime then v
  else if (t.lockWeak v.m_connectedThreadContext).isNone then v
  else
    let st := foldChunk v incrementFrameCounter timelineChunk
    { bumpFrame incrementFrameCounter v with
      m_rootNodes := st.m_rootNodes
      m_frameSortCounter := st.m_frameSortCounter }

/-- For each span of the chunk, in order, the destination node of the span: the path given by
`currentDstStack` (outermost first) right after the span's iteration. -/
def destinations (st : FoldState) : List Entry → List (List Nat)
  | [] => []
  | srcNode :: rest =>
    (foldSpan st srcNode).currentDstStack.reverse :: destinations (foldSpan st srcNode) rest

/-- For each span of the chunk, in order, the names from a root down to the node the span is
folded into: the names of the nodes on `currentDstStack` right after the span's iteration. -/
def foldedInto (st : FoldState) : List Entry → List (List Str)
  | [] => []
  | srcNode :: rest =>
    namesAlong (foldSpan st srcNode).currentDstStack.reverse (foldSpan st srcNode).m_rootNodes ::
      foldedInto (foldSpan st srcNode) rest

/-! ## Scopes of a producer thread -/

/-- A scope executed by a producer thread, with the scopes opened inside it in the order in
which they were opened. -/
structure Scope where
  Name : Str
  Beginning : Int
  End : Int
  Children : List Scope

mutual
/-- The spans a scope and the scopes inside it record, in the order the scopes began; `depth` is
the number of enclosing scopes. -/
def Scope.entries (depth : Int) : Scope → List Entry
  | ⟨name, b, e, cs⟩ => ⟨name, b, e, depth⟩ :: Scope.entriesList (depth + 1) cs
/-- The spans of a sequence of sibling scopes. -/
def Scope.entriesList (depth : Int) : List Scope → List Entry
  | [] => []
  | s :: rest => Scope.entries depth s ++ Scope.entriesList depth rest
end

mutual
/-- For each span of `Scope.entries`, the names of its enclosing scopes, outermost first
(starting with `outer`), followed by its own name. -/
def Scope.paths (outer : List Str) : Scope → List (List Str)
  | ⟨name, _, _, cs⟩ => (outer ++ [name]) :: Scope.pathsList (outer ++ [name]) cs
/-- The name paths of a sequence of sibling scopes. -/
def Scope.pathsList (outer : List Str) : List Scope → List (List Str)
  | [] => []
  | s :: rest => Scope.paths outer s ++ Scope.pathsList outer rest
end

mutual
/-- Proper nesting of one scope: its children lie inside its interval, one after the other. -/
def Scope.nested : Scope → Bool
  | ⟨_, b, e, cs⟩ => Scope.nestedList b e cs
/-- Proper nesting of sibling scopes inside `[lo, hi]`: each begins no earlier than the previous
one ended (`lo` for the first), ends no later than `hi`, and is properly nested itself. -/
def Scope.nestedList (lo hi : Int) : List Scope → Bool
  | [] => decide (lo ≤ hi)
  | ⟨name, b, e, cs⟩ :: rest =>
    decide (lo ≤ b) && decide (e ≤ hi) && Scope.nested ⟨name, b, e, cs⟩ && Scope.nestedList e hi rest
end

/-- The shape of the loop state between two sibling scopes at depth `d`: the stacks hold, below
some entries that the next span pops (`junk`), the enclosing spans (`anc`) together with the path
of their nodes, whose names are `pre`. -/
structure StackInv (d lo hi : Int) (st : FoldState) (junkS ancS : List Entry)
    (junkD ancD : List Nat) (pre : List Str) : Prop where
  src_eq : st.currentSrcStack = junkS ++ ancS
  dst_eq : st.currentDstStack = junkD ++ ancD
  junk_len : junkS.length = junkD.length
  junk : ∀ j ∈ junkS, j.End ≤ lo ∧ d ≤ j.Depth
  anc : ∀ a ∈ ancS, hi ≤ a.End ∧ a.Depth < d
  names : namesAlong ancD.reverse st.m_rootNodes = pre
  len : pre.length = ancD.length


/-! ## vaTracerView::PreUpdateRecursive, PostUpdateRecursive -/

/-- The method `vaTracerView::PreUpdateRecursive( )`: the per-node pass on every root. -/
def PreUpdateRecursive (H : NodeDecl) (m_rootNodes : List Node) : List Node :=
  m_rootNodes.map H.PreUpdateRecursive

/-- The `for` loop of `vaTracerView::PostUpdateRecursive( )` (lines 640-651) with `n` indices
still to visit: the next index is `i = n - 1`. The per-node pass runs on `m_rootNodes[i]`; a
root whose `LastSeenAge` then exceeds the threshold is overwritten by the last root (when it is
not the last itself) and the vector is shortened by one. -/
def postUpdateLoop (H : NodeDecl) : Nat → List Node → List Node
  | 0, m_rootNodes => m_rootNodes
  | i + 1, m_rootNodes =>
    let visited := m_rootNodes.modify H.PostUpdateRecursive i
    match visited[i]?, visited.getLast? with
    | some node, some last =>
      if node.LastSeenAge > H.LastSeenAgeToKeepAlive then
        postUpdateLoop H i
          (if visited.length - 1 > i then visited.set i last else visited).dropLast
      else postUpdateLoop H i visited
    | _, _ => postUpdateLoop H i visited

/-- The order of the comparator `a->SortOrder < b->SortOrder` handed to `std::sort`. -/
def sortOrderLE (a b : Node) : Prop := a.SortOrder ≤ b.SortOrder

instance sortOrderLE_decidable : DecidableRel sortOrderLE :=
  fun a b => inferInstanceAs (Decidable (a.SortOrder ≤ b.SortOrder))

/-- The method `vaTracerView::PostUpdateRecursive( )`: the eviction loop from the last root down to the
first, then `std::sort` by `SortOrder`. `std::sort` does not fix the order of roots of equal
`SortOrder`; the insertion sort used here keeps them in their order. -/
def PostUpdateRecursive (H : NodeDecl) (m_rootNodes : List Node) : List Node :=
  (postUpdateLoop H m_rootNodes.length m_rootNodes).insertionSort sortOrderLE

/-! ## vaTracerView::Disconnect -/

/-- The body of the loop over `syncReportUI->m_rootNodes` in `Disconnect` (lines 505-523) for the
root `src` of the sync target. -/
def syncRoot (H : NodeDecl) (m_rootNodes : List Node) (src : Node) : List Node :=
  if m_rootNodes.findIdx (fun node => node.Name == src.Name) = m_rootNodes.length then
    m_rootNodes ++
      [H.SyncUIRecursive { Node.Reset with Name := src.Name, RecursionDepth := src.RecursionDepth } src]
  else
    m_rootNodes.modify (fun node => H.SyncUIRecursive node src)
      (m_rootNodes.findIdx (fun node => node.Name == src.Name))

/-- The detaching part of `Disconnect` (lines 475-493). -/
def detach (t : vaTracer) (v : vaTracerView) : vaTracer × vaTracerView :=
  match v.m_connectedThreadContext with
  | none => (t, v)
  | some h =>
    match t.lock h with
    | none => (t, v)
    | some connectedContext =>
      ({ t with heap := t.heap.set h (some { connectedContext with AttachedViewer := none }) },
        { v with m_connectedThreadContext := none })

/-- The root list after the sync block of `Disconnect` (lines 498-526). -/
def syncedRoots (H : NodeDecl) (v : vaTracerView) : Option vaTracerView → List Node
  | none => v.m_rootNodes
  | some syncReportUI =>
    if !v.m_nameChanged then syncReportUI.m_rootNodes.foldl (syncRoot H) v.m_rootNodes
    else v.m_rootNodes

/-- The method `vaTracerView::Disconnect( syncReportUI )`: detach, sync with the other view,
run the aging pass, zero the frame counter. -/
def Disconnect (H : NodeDecl) (t : vaTracer) (v : vaTracerView)
    (syncReportUI : Option vaTracerView) : vaTracer × vaTracerView :=
  ((detach t v).1,
    { (detach t v).2 with
      m_rootNodes := PostUpdateRecursive H (syncedRoots H (detach t v).2 syncReportUI)
      m_frameCountWhileConnected := 0 })

/-! ## vaTracerView::ConnectToThreadContext -/

/-- Modelled from the spec: `vaTracerView::Reset( )` (defined in vaProfiler.h) discards the
existing call tree, so that it is rebuilt from empty. -/
def vaTracerView.Reset (v : vaTracerView) : vaTracerView :=
  { v with m_rootNodes := [] }

/-- The test of the registry loop (line 436) on a live context. -/
def nameMatches (nameToSearch : Str) (context : ThreadContext) : Bool :=
  decide (nameToSearch.length ≤ context.Name.length) &&
    (nameToSearch == context.Name.take nameToSearch.length)

/-- The loop over `s_threadContexts` (lines 432-443): the first weak pointer that is live and
whose context passes the test. -/
def findContext (t : vaTracer) (nameToSearch : Str) : List Nat → Option (Nat × ThreadContext)
  | [] => none
  | h :: rest =>
    match t.lock h with
    | some context =>
      if nameMatches nameToSearch context then some (h, context)
      else findContext t nameToSearch rest
    | none => findContext t nameToSearch rest

/-- The string searched for (lines 418-429): `name` without its last character when that is
the wildcard marker. -/
def nameToSearch (name : Str) : Str :=
  if name.getLast? = some '*' then name.dropLast else name

/-- The part of `ConnectToThreadContext` from line 415 on: look the Timeline up and attach to it. -/
def connectLookup (H : NodeDecl) (t : vaTracer) (self : Nat) (v : vaTracerView) (name : Str)
    (connectionTimeout now : Int) : vaTracer × vaTracerView :=
  if name.length = 0 then (t, v)
  else
    match findContext t (nameToSearch name) t.s_threadContexts with
    | none => (t, v)
    | some (h, captureContext) =>
      ({ t with heap := t.heap.set h (some { captureContext with AttachedViewer := some self }) },
        { v with
          m_connectionName := captureContext.Name
          m_connectedThreadContext := some h
          m_frameCountWhileConnected := 0
          m_lastConnectedTime := now
          m_connectionTimeoutTime := now + connectionTimeout
          m_rootNodes := PreUpdateRecursive H v.m_rootNodes })

/-- The method `vaTracerView::ConnectToThreadContext( name, connectionTimeout )` called at time `now` on the
view `self`. `Except.error` is the `std::system_error` thrown by the second `lock.unlock( )`
(line 408) when the first one (line 399) has already released the lock; it carries the state
reached by then. -/
def ConnectToThreadContext (H : NodeDecl) (t : vaTracer) (self : Nat) (v : vaTracerView)
    (name : Str) (connectionTimeout now : Int) :
    Except (vaTracer × vaTracerView) (vaTracer × vaTracerView) :=
  match t.lockWeak v.m_connectedThreadContext with
  | some _ =>
    if name ≠ (Disconnect H t v none).2.m_connectionName then
      Except.error ((Disconnect H t v none).1, { (Disconnect H t v none).2 with m_nameChanged := true })
    else
      Except.ok (connectLookup H (Disconnect H t v none).1 self
        { (Disconnect H t v none).2 with m_nameChanged := false } name connectionTimeout now)
  | none =>
    if name ≠ v.m_connectionName then
      Except.ok (connectLookup H t self { v with m_nameChanged := true }.Reset name
        connectionTimeout now)
    else
      Except.ok (connectLookup H t self { v with m_nameChanged := false } name connectionTimeout now)

/-! ## The registry walk of vaTracer::ListAllThreadNames and CreateChromeTracingReport -/

/-- The loop over `s_threadContexts` written twice in vaProfiler.cpp (lines 133-151 and 217-230),
with `std::vector` iterators taken as positions. `kept` are the entries before the iterator `it`
and the first argument the entries from `it` on; `live` collects the contexts found alive.
A live entry is recorded and `it` moves on. For a dead entry the code advances `it` first and
then erases the entry behind it: the entries after the dead one move down by one position, so
that the entry that followed the dead one is now behind `it` (it is kept but never looked at),
and if the dead entry was the last one `it` is beyond `end( )`: the loop condition
`it != end( )` still holds and the next iteration reads outside the vector (`none`). -/
def walkRegistry (t : vaTracer) :
    List Nat → List Nat → List (Nat × ThreadContext) → Option (List (Nat × ThreadContext) × List Nat)
  | [], kept, live => some (live, kept)
  | h :: rest, kept, live =>
    match t.lock h with
    | some context => walkRegistry t rest (kept ++ [h]) (live ++ [(h, context)])
    | none =>
      match rest with
      | [] => none
      | skipped :: rest' => walkRegistry t rest' (kept ++ [skipped]) live

/-- The method `vaTracer::ListAllThreadNames( outNames )`: the names found and the tracer
afterwards, or `none` when the walk leaves the vector. -/
def ListAllThreadNames (t : vaTracer) : Option (List Str × vaTracer) :=
  (walkRegistry t t.s_threadContexts [] []).map
    (fun r => (r.1.map (fun c => c.2.Name), { t with s_threadContexts := r.2 }))

/-! ## vaTracer::CreateChromeTracingReport -/

/-- The local `struct ThreadData` of `CreateChromeTracingReport`. -/
structure ThreadData where
  Name : Str
  Timeline : List Entry
deriving DecidableEq

/-- The collection step (lines 130-152): one `ThreadData` per context found alive by the walk.
`Capture h` is what `ThreadContext::Capture` (vaProfiler.h) copies out of the log of the context
with handle `h`. -/
def collectThreads (Capture : Nat → List Entry) (t : vaTracer) : Option (List ThreadData × vaTracer) :=
  (walkRegistry t t.s_threadContexts [] []).map
    (fun r => (r.1.map (fun c => { Name := c.2.Name, Timeline := Capture c.1 }),
      { t with s_threadContexts := r.2 }))

/-- The order of the comparator `a.Name < b.Name` handed to `std::list::sort`. -/
def threadNameLE (a b : ThreadData) : Prop := a.Name ≤ b.Name

instance threadNameLE_decidable : DecidableRel threadNameLE :=
  fun a b => inferInstanceAs (Decidable (a.Name ≤ b.Name))

/-- The call `threadsData.sort( ... )` (line 159): `std::list::sort` is stable, as is this
insertion sort. -/
def sortThreads (threadsData : List ThreadData) : List ThreadData :=
  threadsData.insertionSort threadNameLE

/-- The `while` loop of line 165: pop the front of the Timeline while it began before `oldest`. -/
def pruneOld (oldest : Int) : List Entry → List Entry
  | [] => []
  | e :: rest => if e.Beginning < oldest then pruneOld oldest rest else e :: rest

/-- The sort and prune step (lines 157-168). -/
def sortAndPrune (oldest : Int) (threadsData : List ThreadData) : List ThreadData :=
  (sortThreads threadsData).map (fun d => { d with Timeline := pruneOld oldest d.Timeline })

/-- The value written after `"ts":` (line 196): a subtraction and a multiplication of
doubles. -/
def entryTs (now : Int) (e : Entry) : Int :=
  roundDouble (roundDouble (e.Beginning - now) * 1000000)

/-- The value written after `"dur":` (line 198): a subtraction and a multiplication of
doubles. -/
def entryDur (e : Entry) : Int :=
  roundDouble (roundDouble (e.End - e.Beginning) * 1000000)

/-- What lines 188-198 write for one entry, up to but without the closing brace. `showNumber` is
the text `operator<<` gives a `double` at precision 12. -/
def entryText (showNumber : Int → Str) (now : Int) (threadName : Str) (e : Entry) : Str :=
  "\x7b\"cat\":\"va\",".toList ++ "\"name\":\"".toList ++ e.Name ++ "\",".toList ++
    "\"ph\":\"X\",".toList ++ "\"pid\":1,".toList ++
    "\"tid\":\"".toList ++ threadName ++ "\",".toList ++
    "\"ts\":".toList ++ showNumber (entryTs now e) ++ [','] ++
    "\"dur\":".toList ++ showNumber (entryDur e)

/-- The inner `for` loop (lines 186-205) over the entries of one thread, appending to `os`. -/
def dumpEntries (showNumber : Int → Str) (now : Int) (threadName : Str) (os : Str) :
    List Entry → Str
  | [] => os
  | [e] => os ++ entryText showNumber now threadName e ++ ['}']
  | e :: e' :: rest =>
    dumpEntries showNumber now threadName
      (os ++ entryText showNumber now threadName e ++ "\x7d,".toList) (e' :: rest)

/-- The body of the outer `for` loop (lines 176-206) on the pair of the stream `os` and the flag
`nextRequiresSeparator`. -/
def dumpThread (showNumber : Int → Str) (now : Int) (st : Str × Bool) (thread : ThreadData) :
    Str × Bool :=
  let separate := st.2 && decide (thread.Timeline.length > 0)
  let os := if separate then st.1 ++ [','] else st.1
  let nextRequiresSeparator := if separate then false else st.2
  (dumpEntries showNumber now thread.Name os thread.Timeline,
    nextRequiresSeparator || decide (thread.Timeline.length > 0))

/-- The dump step (lines 170-209): the text of the report for the sorted and pruned threads. -/
def dumpReport (showNumber : Int → Str) (now : Int) (threadsData : List ThreadData) : Str :=
  (threadsData.foldl (dumpThread showNumber now) (['['], false)).1 ++ "]\n".toList

/-- The method `vaTracer::CreateChromeTracingReport( duration, reset )`, with
`vaCore::TimeFromAppStart( )` returning `now`: the report and the tracer afterwards, or `none`
when the registry walk leaves the vector. -/
def CreateChromeTracingReport (showNumber : Int → Str) (Capture : Nat → List Entry) (t : vaTracer)
    (now duration : Int) : Option (Str × vaTracer) :=
  (collectThreads Capture t).map
    (fun r => (dumpReport showNumber now (sortAndPrune (now - duration) r.1), r.2))

/-- The records of the report, in order: the text of every entry of every thread, closing brace
included. -/
def reportRecords (showNumber : Int → Str) (now : Int) (threadsData : List ThreadData) :
    List Str :=
  threadsData.flatMap
    (fun d => d.Timeline.map (fun e => entryText showNumber now d.Name e ++ ['}']))

/-- The fields of the records of the report, in order: span name, thread id, `ts`, `dur`. -/
def reportFields (now : Int) (threadsData : List ThreadData) : List (Str × Str × Int × Int) :=
  threadsData.flatMap
    (fun d => d.Timeline.map (fun e => (e.Name, d.Name, entryTs now e, entryDur e)))

/-- One Timeline `b","ph":"X","pid":1,"tid":"c` with one span `a`. -/
def quotedThread : List ThreadData :=
  [⟨"b\",\"ph\":\"X\",\"pid\":1,\"tid\":\"c".toList, [⟨['a'], 0, 1, 0⟩]⟩]

/-- One Timeline `c` with one span `a","ph":"X","pid":1,"tid":"b`. -/
def quotedSpan : List ThreadData :=
  [⟨['c'], [⟨"a\",\"ph\":\"X\",\"pid\":1,\"tid\":\"b".toList, 0, 1, 0⟩]⟩]

/-! ## The per-node passes of vaProfiler.h, as far as eviction goes -/

/-- Whether the path `p` leads through nodes of the tree that all have `LastSeenAge == 0`, the
value `UpdateCallback` leaves in a node it folds a span into. -/
def touchedAlong : List Nat → List Node → Prop
  | [], _ => True
  | i :: p, ns =>
    match ns[i]? with
    | some n => n.LastSeenAge = 0 ∧ touchedAlong p n.ChildNodes
    | none => False

/-- Whether the tree holds a chain of nodes, from a root down, each a child of the one before,
with the names `names`. -/
def hasPath : List Str → List Node → Bool
  | [], _ => true
  | name :: rest, nodes => nodes.any (fun n => n.Name == name && hasPath rest n.ChildNodes)

/-- Whether the tree holds a chain of nodes with the names `names`, all with
`LastSeenAge == 0`. -/
def hasTouchedPath : List Str → List Node → Bool
  | [], _ => true
  | name :: rest, nodes =>
    nodes.any (fun n => n.Name == name && decide (n.LastSeenAge = 0) &&
      hasTouchedPath rest n.ChildNodes)

/-- Modelled from the spec: the aging pass on one node, `Node::PostUpdateRecursive` of
vaProfiler.h, as far as eviction goes. The pass walks the tree bottom-up; a node keeps its name;
a node touched since the last pass (`UpdateCallback` has left `LastSeenAge == 0` in it) does not
come out of the pass with a `LastSeenAge` above `LastSeenAgeToKeepAlive`; among the children of
a node, as the pass leaves them, only those whose `LastSeenAge` exceeds
`LastSeenAgeToKeepAlive` are evicted. -/
structure AgingPass (H : NodeDecl) : Prop where
  Name_kept : ∀ n : Node, (H.PostUpdateRecursive n).Name = n.Name
  touched_kept : ∀ n : Node, n.LastSeenAge = 0 →
    (H.PostUpdateRecursive n).LastSeenAge ≤ H.LastSeenAgeToKeepAlive
  children_kept : ∀ n : Node, ∀ c ∈ n.ChildNodes,
    (H.PostUpdateRecursive c).LastSeenAge ≤ H.LastSeenAgeToKeepAlive →
    H.PostUpdateRecursive c ∈ (H.PostUpdateRecursive n).ChildNodes

/-- Modelled from the spec: `Node::SyncUIRecursive` of vaProfiler.h copies display state from
the node of the other view, recursively, creating placeholder nodes where a name is absent.
It renames no node, leaves `LastSeenAge` alone and removes no child: every child is still
there, as it was or synced in its turn. -/
structure SyncPass (H : NodeDecl) : Prop where
  Name_kept : ∀ n src : Node, (H.SyncUIRecursive n src).Name = n.Name
  LastSeenAge_kept : ∀ n src : Node, (H.SyncUIRecursive n src).LastSeenAge = n.LastSeenAge
  children_kept : ∀ n src : Node, ∀ c ∈ n.ChildNodes,
    c ∈ (H.SyncUIRecursive n src).ChildNodes ∨
      ∃ s : Node, H.SyncUIRecursive c s ∈ (H.SyncUIRecursive n src).ChildNodes

mutual
/-- Modelled from the spec: an aging pass on one node with keep-alive threshold `keepAlive`:
the children are aged first, those whose `LastSeenAge` then exceeds `keepAlive` are evicted, the
remaining ones are sorted by `SortOrder`, and the node's own `LastSeenAge` goes up by one
(`UpdateCallback` puts it back to 0 whenever it touches the node). -/
def Node.PostUpdateRecursive (keepAlive : Int) : Node → Node
  | ⟨name, sortOrder, depth, total, tmax, tmin, instances, children, opened, selected, age⟩ =>
    ⟨name, sortOrder, depth, total, tmax, tmin, instances,
      ((Node.PostUpdateRecursiveList keepAlive children).filter
        (fun c => decide (¬ c.LastSeenAge > keepAlive))).insertionSort sortOrderLE,
      opened, selected, age + 1⟩
/-- The aging pass on every node of a list. -/
def Node.PostUpdateRecursiveList (keepAlive : Int) : List Node → List Node
  | [] => []
  | c :: rest => Node.PostUpdateRecursive keepAlive c :: Node.PostUpdateRecursiveList keepAlive rest
end

/-- Modelled from the spec: a declaration of vaProfiler.h with keep-alive threshold 1, the aging
pass `Node.PostUpdateRecursive 1` and a sync pass that copies the display state (`Opened`,
`Selected`) of the other view's node. -/
def agingDecl : NodeDecl :=
  { LastSeenAgeToKeepAlive := 1, PreUpdateRecursive := id,
    PostUpdateRecursive := Node.PostUpdateRecursive 1,
    SyncUIRecursive := fun node src => { node with Opened := src.Opened, Selected := src.Selected } }

/-! ## vaTracer::TickImGui -/

/-- What vaProfiler.h and vaMath.h declare and `vaTracer::TickImGui` uses: the constant
`c_UI_ProfilingUpdateFrequency`, the function `vaMath::Clamp( v, min, max )` and the values the
members of a `vaTracerView` have when it is constructed. -/
structure UIDecl where
  c_UI_ProfilingUpdateFrequency : Int
  Clamp : Int → Int → Int → Int
  constructed : vaTracerView

/-- The static members of `vaTracer` that `TickImGui` reads and writes. A `shared_ptr` to a view
is the identity of the view (what `AttachedViewer` refers to) with the view, or `none` for
`nullptr`. -/
structure UIState where
  tracer : vaTracer
  m_UI_TracerViewActiveCollect : Option (Nat × vaTracerView)
  m_UI_TracerViewDisplay : Option (Nat × vaTracerView)
  m_UI_ProfilingTimeToNextUpdate : Int
  m_UI_ProfilingThreadNames : List Str
  m_UI_ProfilingSelectedThreadIndex : Int
  m_UI_TracerViewingEnabled : Bool

/-- What one call of `vaTracer::TickImGui` takes from outside: `deltaTime`, the clock read by
`ConnectToThreadContext`, whether the dump button was pressed, what `ImGuiEx_Combo` does to the
selected index (the new index, and whether it reports a change), the identities of the two
views `make_shared` would create, and what the clicks of the frame do to the `Opened` and
`Selected` marks of the tree `TickImGuiRecursive` traverses. -/
structure TickInput where
  deltaTime : Int
  now : Int
  dumpPressed : Bool
  ImGuiEx_Combo : Int → List Str → Int × Bool
  allocated : Nat × Nat
  clicks : List Node → List Node

/-- How a call of `vaTracer::TickImGui` can fail to return: undefined behaviour (an iterator or
index outside its vector, a null view pointer dereferenced) or the `std::system_error` thrown
by `ConnectToThreadContext`. -/
inductive TickFault where
  | undefinedBehaviour
  | systemError
deriving DecidableEq

/-- The static members as initialised at lines 233-238, over the tracer `t`. -/
def UIState.initial (t : vaTracer) : UIState :=
  { tracer := t, m_UI_TracerViewActiveCollect := none, m_UI_TracerViewDisplay := none,
    m_UI_ProfilingTimeToNextUpdate := 0, m_UI_ProfilingThreadNames := [],
    m_UI_ProfilingSelectedThreadIndex := -1, m_UI_TracerViewingEnabled := true }

/-- The method `vaTracerView::TickImGui( )` (lines 697-738): `none` when the error branch of
lines 702-708 is taken, else the view after its tree was traversed. -/
def vaTracerView.TickImGui (t : vaTracer) (v : vaTracerView) (clicks : List Node → List Node) :
    Option vaTracerView :=
  if (t.lockWeak v.m_connectedThreadContext).isSome then none
  else some { v with m_rootNodes := clicks v.m_rootNodes }

/-- The dump button (lines 273-274): `DumpChromeTracingReportToFile` walks the registry in
`CreateChromeTracingReport`; the file it writes is outside the model. -/
def dumpButton (s : UIState) (i : TickInput) : Except TickFault UIState :=
  if i.dumpPressed then
    match walkRegistry s.tracer s.tracer.s_threadContexts [] [] with
    | none => Except.error TickFault.undefinedBehaviour
    | some r => Except.ok { s with tracer := { s.tracer with s_threadContexts := r.2 } }
  else Except.ok s

/-- The first-time initialisation (lines 280-298). The `weak_ptr` member of a view just
constructed is empty. -/
def firstTimeInitialize (D : UIDecl) (s : UIState) (i : TickInput) : UIState :=
  match s.m_UI_TracerViewActiveCollect with
  | none =>
    { s with
      m_UI_TracerViewActiveCollect :=
        some (i.allocated.1, { D.constructed with m_connectedThreadContext := none })
      m_UI_TracerViewDisplay :=
        some (i.allocated.2, { D.constructed with m_connectedThreadContext := none })
      m_UI_ProfilingTimeToNextUpdate := 0
      m_UI_ProfilingThreadNames := []
      m_UI_ProfilingSelectedThreadIndex := -1 }
  | some _ => s

/-- The string `prevName` of lines 306-308 and 358-360. -/
def prevName (names : List Str) (index : Int) : Str :=
  if 0 ≤ index ∧ index < names.length then names.getD index.toNat [] else []

/-- The loop of lines 313-315: the index of the last name equal to `prevName`, if any. -/
def selectByName (prevName : Str) (names : List Str) (index : Int) : Int :=
  (List.range names.length).foldl
    (fun (selected : Int) (k : Nat) => if names[k]? = some prevName then (k : Int) else selected)
    index

/-- The order of the comparator `l < r` handed to `std::sort` at line 311. -/
def stringLE (l r : Str) : Prop := l ≤ r

instance stringLE_decidable : DecidableRel stringLE :=
  fun l r => inferInstanceAs (Decidable (l ≤ r))

/-- The refresh of the list of thread names when it is empty (lines 300-327). -/
def refreshThreadNames (s : UIState) : Except TickFault UIState :=
  if s.m_UI_ProfilingThreadNames.length = 0 then
    match ListAllThreadNames s.tracer with
    | none => Except.error TickFault.undefinedBehaviour
    | some (outNames, tracer) =>
      let names := outNames.insertionSort stringLE
      let index := selectByName
        (prevName s.m_UI_ProfilingThreadNames s.m_UI_ProfilingSelectedThreadIndex) names
        s.m_UI_ProfilingSelectedThreadIndex
      Except.ok { s with
        tracer := tracer
        m_UI_ProfilingThreadNames := names
        m_UI_ProfilingSelectedThreadIndex := if index = -1 then 0 else index }
  else Except.ok s

/-- The block "Do we need to disconnect/connect/swap?" (lines 329-352), with the value of
`updateTriggered`. The timeout `c_UI_ProfilingUpdateFrequency * 1.5f` is rounded down to a
clock tick. -/
def swapAndConnect (H : NodeDecl) (D : UIDecl) (s : UIState) (i : TickInput) :
    Except TickFault (UIState × Bool) :=
  if s.m_UI_ProfilingTimeToNextUpdate - i.deltaTime < 0 then
    match s.m_UI_TracerViewActiveCollect, s.m_UI_TracerViewDisplay with
    | some collect, some display =>
      let disconnected := Disconnect H s.tracer collect.2 (some display.2)
      let swapped : UIState :=
        { s with
          tracer := disconnected.1
          m_UI_ProfilingTimeToNextUpdate :=
            max 0 (s.m_UI_ProfilingTimeToNextUpdate - i.deltaTime + D.c_UI_ProfilingUpdateFrequency)
          m_UI_TracerViewActiveCollect := some display
          m_UI_TracerViewDisplay := some (collect.1, disconnected.2) }
      if s.m_UI_ProfilingThreadNames.length ≠ 0 then
        let index := D.Clamp s.m_UI_ProfilingSelectedThreadIndex 0
          ((s.m_UI_ProfilingThreadNames.length : Int) - 1)
        if index < 0 then Except.error TickFault.undefinedBehaviour
        else
          match s.m_UI_ProfilingThreadNames[index.toNat]? with
          | none => Except.error TickFault.undefinedBehaviour
          | some name =>
            match ConnectToThreadContext H disconnected.1 display.1 display.2 name
                (D.c_UI_ProfilingUpdateFrequency * 3 / 2) i.now with
            | Except.error _ => Except.error TickFault.systemError
            | Except.ok connected =>
              Except.ok ({ swapped with
                tracer := connected.1
                m_UI_TracerViewActiveCollect := some (display.1, connected.2)
                m_UI_ProfilingSelectedThreadIndex := index }, true)
      else Except.ok (swapped, true)
    | _, _ => Except.error TickFault.undefinedBehaviour
  else
    Except.ok ({ s with
      m_UI_ProfilingTimeToNextUpdate := s.m_UI_ProfilingTimeToNextUpdate - i.deltaTime }, false)

/-- The block "Display UI" (lines 354-370), with whether `vaTracerView::TickImGui` took its
error branch on the display view. -/
def displayUI (D : UIDecl) (s : UIState) (i : TickInput) : Except TickFault (UIState × Bool) :=
  if s.m_UI_ProfilingThreadNames.length ≠ 0 then
    let previous := prevName s.m_UI_ProfilingThreadNames s.m_UI_ProfilingSelectedThreadIndex
    let combo := i.ImGuiEx_Combo
      (D.Clamp s.m_UI_ProfilingSelectedThreadIndex 0 ((s.m_UI_ProfilingThreadNames.length : Int) - 1))
      s.m_UI_ProfilingThreadNames
    let restart := combo.2 && decide (0 ≤ combo.1 ∧ combo.1 < s.m_UI_ProfilingThreadNames.length) &&
      decide (s.m_UI_ProfilingThreadNames.getD combo.1.toNat [] ≠ previous)
    let chosen : UIState :=
      { s with
        m_UI_ProfilingSelectedThreadIndex := combo.1
        m_UI_ProfilingTimeToNextUpdate := if restart then 0 else s.m_UI_ProfilingTimeToNextUpdate }
    match s.m_UI_TracerViewDisplay with
    | none => Except.error TickFault.undefinedBehaviour
    | some display =>
      match display.2.TickImGui s.tracer i.clicks with
      | none => Except.ok (chosen, true)
      | some traversed =>
        Except.ok ({ chosen with m_UI_TracerViewDisplay := some (display.1, traversed) }, false)
  else Except.ok (s, false)

/-- The method `vaTracer::TickImGui( application, deltaTime )` (lines 262-375): the statics
afterwards and whether the display view took the error branch of `vaTracerView::TickImGui`. -/
def vaTracer.TickImGui (H : NodeDecl) (D : UIDecl) (s : UIState) (i : TickInput) :
    Except TickFault (UIState × Bool) :=
  if !s.m_UI_TracerViewingEnabled then Except.ok (s, false)
  else
    match dumpButton s i with
    | Except.error fault => Except.error fault
    | Except.ok dumped =>
      match refreshThreadNames (firstTimeInitialize D dumped i) with
      | Except.error fault => Except.error fault
      | Except.ok refreshed =>
        match swapAndConnect H D refreshed i with
        | Except.error fault => Except.error fault
        | Except.ok (swapped, updateTriggered) =>
          match displayUI D swapped i with
          | Except.error fault => Except.error fault
          | Except.ok (shown, displayError) =>
            Except.ok (if updateTriggered then { shown with m_UI_ProfilingThreadNames := [] }
              else shown, displayError)

/-- What may happen between two calls of `TickImGui`: threads create, register and destroy
Timelines, a Timeline hands batches to its viewer (`UpdateCallback`), the application ticks
the views (`TickFrame`). A destroyed Timeline does not come back, no handle is given up, and
each view pointer keeps its view, whose Timeline reference nothing but `ConnectToThreadContext`
and `Disconnect` writes; everything else may change. -/
structure EnvStep (s s' : UIState) : Prop where
  heap_grows : s.tracer.heap.length ≤ s'.tracer.heap.length
  destroyed_stays : ∀ h : Nat, s.tracer.heap[h]? = some none → s'.tracer.heap[h]? = some none
  collect_ref : s'.m_UI_TracerViewActiveCollect.map (fun view => view.2.m_connectedThreadContext) =
    s.m_UI_TracerViewActiveCollect.map (fun view => view.2.m_connectedThreadContext)
  display_ref : s'.m_UI_TracerViewDisplay.map (fun view => view.2.m_connectedThreadContext) =
    s.m_UI_TracerViewDisplay.map (fun view => view.2.m_connectedThreadContext)

/-- The states reached from the initial statics by calls of `TickImGui` that return, with any
inputs, and by what happens in between. -/
inductive Reachable (H : NodeDecl) (D : UIDecl) : UIState → Prop where
  | initial (t : vaTracer) : Reachable H D (UIState.initial t)
  | tick (s s' : UIState) (i : TickInput) (displayError : Bool) :
      Reachable H D s → vaTracer.TickImGui H D s i = Except.ok (s', displayError) →
      Reachable H D s'
  | between (s s' : UIState) : Reachable H D s → EnvStep s s' → Reachable H D s'

/-- The view holds no Timeline reference, or one to a destroyed Timeline: it is Disconnected and
stays so until it connects. -/
def vaTracerView.expired (t : vaTracer) (v : vaTracerView) : Prop :=
  ∀ h : Nat, v.m_connectedThreadContext = some h → t.heap[h]? = some none

/-- The Timeline reference of the view, if any, is to a Timeline that exists or existed. -/
def vaTracerView.refValid (t : vaTracer) (v : vaTracerView) : Prop :=
  ∀ h : Nat, v.m_connectedThreadContext = some h → h < t.heap.length

/-- The invariant of the view pair between two calls of `TickImGui`. -/
structure PairInv (s : UIState) : Prop where
  collect : ∀ view, s.m_UI_TracerViewActiveCollect = some view → view.2.refValid s.tracer
  display : ∀ view, s.m_UI_TracerViewDisplay = some view → view.2.expired s.tracer

/-! ## vaTracerView::TickFrame -/

/-- The method `vaTracerView::TickFrame( )` (lines 533-550) called at time `now`. -/
def TickFrame (t : vaTracer) (now : Int) (v : vaTracerView) : vaTracerView :=
  match t.lockWeak v.m_connectedThreadContext with
  | some connectedContext =>
    if connectedContext.AutomaticFrameIncrement then
      if now ≤ v.m_connectionTimeoutTime then
        { v with
          m_frameCountWhileConnected := v.m_frameCountWhileConnected + 1
          m_frameSortCounter := 0 }
      else v
    else v
  | none => v

/-! ## vaFileTools::CleanupPath (Source/Core/System/vaFileTools.cpp) -/

/-- The call `ret.find( needle )` of `std::wstring`: the first position at which `needle`
occurs in `ret`, or `none` for `npos`. -/
def find (needle : Str) : Str → Option Nat
  | [] => if needle.isEmpty then some 0 else none
  | c :: rest =>
    if needle.isPrefixOf (c :: rest) then some 0 else (find needle rest).map (fun pos => pos + 1)

/-- The call `ret.replace( pos, len, str )` of `std::wstring`. -/
def replace (ret : Str) (pos len : Nat) (str : Str) : Str :=
  ret.take pos ++ str ++ ret.drop (pos + len)

/-- The loop `while( ( foundPos = ret.find( needle ) ) != npos ) ret.replace( foundPos, n, str )`
with `n` the length of `needle`, run for at most `fuel` rounds. In `CleanupPath` every round
removes one occurrence of a character or makes the string shorter, so the length of the
string is fuel enough. -/
def replaceLoop (needle str : Str) : Nat → Str → Str
  | 0, ret => ret
  | fuel + 1, ret =>
    match find needle ret with
    | none => ret
    | some foundPos => replaceLoop needle str fuel (replace ret foundPos needle.length str)

/-- The function `vaFileTools::CleanupPath( inputPath, convertToLowercase, useBackslash )`
(lines 93-114). `ToLower` is `vaStringTools::ToLower`, which is not part of the sources. -/
def CleanupPath (ToLower : Str → Str) (inputPath : Str) (convertToLowercase : Bool)
    (useBackslash : Bool) : Str :=
  let lowered := if convertToLowercase then ToLower inputPath else inputPath
  let slashed := replaceLoop ['/'] ['\\'] lowered.length lowered
  let collapsed := replaceLoop ['\\', '\\'] ['\\'] slashed.length slashed
  let restored := if collapsed.length > 0 ∧ collapsed.head? = some '\\' then '\\' :: collapsed
    else collapsed
  if !useBackslash then replaceLoop ['\\'] ['/'] restored.length restored else restored

/-! ## Unique names among siblings -/

mutual
/-- Whether below the node every sibling list has pairwise distinct names. -/
def Node.uniqueNames : Node → Bool
  | ⟨_, _, _, _, _, _, _, children, _, _, _⟩ =>
    decide ((children.map (fun c => c.Name)).Nodup) && Node.uniqueNamesList children
/-- Whether below every node of the list every sibling list has pairwise distinct names. -/
def Node.uniqueNamesList : List Node → Bool
  | [] => true
  | c :: rest => Node.uniqueNames c && Node.uniqueNamesList rest
end

/-- Whether every sibling list of the tree, the root list and the children of every node, has
pairwise distinct names. -/
def siblingNamesUnique (m_rootNodes : List Node) : Bool :=
  decide ((m_rootNodes.map (fun c => c.Name)).Nodup) && Node.uniqueNamesList m_rootNodes

/-! ## Exact and rounded sums of `TimeTotal` -/

/-- The `TimeTotal`, before the iteration for `srcNode`, of the node the iteration folds
`srcNode` into (0 for a node that the iteration creates). -/
def totalBefore (st : FoldState) (srcNode : Entry) : Int :=
  ((nodeAt (foldSpan st srcNode).currentDstStack.reverse st.m_rootNodes).map
    (fun n => n.TimeTotal)).getD 0

/-- Whether, folding the batch from the loop state `st`, every iteration raises the `TimeTotal`
of its node by the exact duration `End - Beginning` of its span: neither the subtraction nor the
addition loses anything to rounding. -/
def addsExactly (st : FoldState) : List Entry → Bool
  | [] => true
  | srcNode :: rest =>
    decide (roundDouble (totalBefore st srcNode + roundDouble (srcNode.End - srcNode.Beginning)) =
      totalBefore st srcNode + (srcNode.End - srcNode.Beginning)) &&
    addsExactly (foldSpan st srcNode) rest

/-! ## Sums over the call tree -/

mutual
/-- The sum of `f` over a node and every node below it. -/
def Node.sumOver (f : Node → Int) : Node → Int
  | ⟨name, so, rd, tt, tmax, tmin, inst, cs, op, sel, age⟩ =>
    f ⟨name, so, rd, tt, tmax, tmin, inst, cs, op, sel, age⟩ + Node.sumOverList f cs
/-- The sum of `f` over every node of a forest. -/
def Node.sumOverList (f : Node → Int) : List Node → Int
  | [] => 0
  | n :: ns => Node.sumOver f n + Node.sumOverList f ns
end

/-! ## Example data -/

/-- The scopes `A[0,10) { B[1,4), C[5,9) { D[6,8) } }`. -/
def exampleScopes : List Scope :=
  [⟨['A'], 0, 10, [⟨['B'], 1, 4, []⟩, ⟨['C'], 5, 9, [⟨['D'], 6, 8, []⟩]⟩]⟩]

/-- The call tree expected for `exampleScopes` when the sort counter starts at `c`. -/
def exampleTree (c : Int) : List Node :=
  [{ Name := ['A'], SortOrder := c, RecursionDepth := 0, TimeTotal := 10, TimeTotalMax := 10,
     TimeTotalMin := 10, Instances := 1, Opened := true, Selected := false, LastSeenAge := 0,
     ChildNodes :=
      [{ Name := ['B'], SortOrder := c + 1, RecursionDepth := 1, TimeTotal := 3, TimeTotalMax := 3,
         TimeTotalMin := 3, Instances := 1, Opened := true, Selected := false, LastSeenAge := 0,
         ChildNodes := [] },
       { Name := ['C'], SortOrder := c + 2, RecursionDepth := 1, TimeTotal := 4, TimeTotalMax := 4,
         TimeTotalMin := 4, Instances := 1, Opened := true, Selected := false, LastSeenAge := 0,
         ChildNodes :=
          [{ Name := ['D'], SortOrder := c + 3, RecursionDepth := 2, TimeTotal := 2,
             TimeTotalMax := 2, TimeTotalMin := 2, Instances := 1, Opened := true,
             Selected := false, LastSeenAge := 0, ChildNodes := [] }] }] }]

/-- The tracer with the single live Timeline `Main`, to which view 0 is attached. -/
def exampleTracer : vaTracer :=
  { heap := [some ⟨['M', 'a', 'i', 'n'], true, some 0⟩], s_threadContexts := [0] }

/-- A view with an empty tree, connected to Timeline 0 until time 100. -/
def exampleView : vaTracerView :=
  { m_rootNodes := [], m_connectedThreadContext := some 0, m_connectionName := ['M', 'a', 'i', 'n'],
    m_nameChanged := false, m_frameCountWhileConnected := 0, m_frameSortCounter := 0,
    m_lastConnectedTime := 0, m_connectionTimeoutTime := 100 }

/-- A batch whose spans are in no particular order. -/
def unorderedChunk : List Entry :=
  [⟨['B'], 7, 9, 3⟩, ⟨['A'], 0, 10, 0⟩, ⟨['B'], 1, 4, 1⟩]

/-- Two spans of the same name, the first of duration 0, the second of duration 5. -/
def zeroDurationChunk : List Entry :=
  [⟨['X'], 0, 0, 0⟩, ⟨['X'], 1, 6, 0⟩]

/-- A sample of what vaProfiler.h declares: keep-alive threshold 1 and per-node passes that
leave a node as it is. -/
def exampleDecl : NodeDecl :=
  { LastSeenAgeToKeepAlive := 1, PreUpdateRecursive := id, PostUpdateRecursive := id,
    SyncUIRecursive := fun node _ => node }

/-- A view that was never connected. -/
def freshView : vaTracerView :=
  { m_rootNodes := [], m_connectedThreadContext := none, m_connectionName := [],
    m_nameChanged := false, m_frameCountWhileConnected := 0, m_frameSortCounter := 0,
    m_lastConnectedTime := 0, m_connectionTimeoutTime := 0 }

/-- The tracer with the single live Timeline `MainThread`, no viewer attached. -/
def mainThreadTracer : vaTracer :=
  { heap := [some ⟨['M', 'a', 'i', 'n', 'T', 'h', 'r', 'e', 'a', 'd'], true, none⟩],
    s_threadContexts := [0] }

/-- The tracer with the single live Timeline `Main`, no viewer attached. -/
def mainTracer : vaTracer :=
  { heap := [some ⟨['M', 'a', 'i', 'n'], true, none⟩], s_threadContexts := [0] }

/-- A tracer without any Timeline. -/
def emptyTracer : vaTracer :=
  { heap := [], s_threadContexts := [] }

/-- A Disconnected view that holds the tree of `exampleScopes` and was last connected under the
name `Main`. -/
def disconnectedView : vaTracerView :=
  { m_rootNodes := exampleTree 0, m_connectedThreadContext := none,
    m_connectionName := ['M', 'a', 'i', 'n'], m_nameChanged := false,
    m_frameCountWhileConnected := 0, m_frameSortCounter := 4, m_lastConnectedTime := 0,
    m_connectionTimeoutTime := 10 }

/-- The tracer after the Timeline `Main` with handle 0 was destroyed and another Timeline called
`Main` (handle 1) was registered. -/
def restartedTracer : vaTracer :=
  { heap := [none, some ⟨['M', 'a', 'i', 'n'], true, none⟩], s_threadContexts := [0, 1] }

/-- A view holding the tree of `exampleScopes` whose Timeline (handle 0, called `Main`) is the
one destroyed in `restartedTracer`: its weak pointer is expired, so the view is Disconnected. -/
def orphanedView : vaTracerView :=
  { m_rootNodes := exampleTree 0, m_connectedThreadContext := some 0,
    m_connectionName := ['M', 'a', 'i', 'n'], m_nameChanged := false,
    m_frameCountWhileConnected := 1, m_frameSortCounter := 4, m_lastConnectedTime := 0,
    m_connectionTimeoutTime := 10 }

/-- A root called `name` with the given `SortOrder` and `LastSeenAge`. -/
def leaf (name : Str) (sortOrder lastSeenAge : Int) : Node :=
  { Node.Reset with Name := name, SortOrder := sortOrder, LastSeenAge := lastSeenAge, Instances := 1 }

/-- A Disconnected view whose roots `A`, `B` were last seen in the order `B`, `A`. -/
def unsortedView : vaTracerView :=
  { m_rootNodes := [leaf ['A'] 1 0, leaf ['B'] 0 0], m_connectedThreadContext := none,
    m_connectionName := ['M', 'a', 'i', 'n'], m_nameChanged := false,
    m_frameCountWhileConnected := 2, m_frameSortCounter := 2, m_lastConnectedTime := 0,
    m_connectionTimeoutTime := 10 }

/-- A connected view whose tree holds the branch `A / B`, not seen in the last pass, and the
root `Z`, not seen in the last two passes. -/
def agedView : vaTracerView :=
  { exampleView with
    m_rootNodes := [{ leaf ['A'] 0 1 with ChildNodes := [leaf ['B'] 1 1] }, leaf ['Z'] 1 2] }

/-- A sample of what vaProfiler.h and vaMath.h declare: an update every 10 ticks, the usual
clamp, and a view constructed with an empty tree. -/
def exampleUIDecl : UIDecl :=
  { c_UI_ProfilingUpdateFrequency := 10,
    Clamp := fun v lo hi => if v < lo then lo else if v > hi then hi else v,
    constructed := freshView }

/-- A frame of 16 ticks at time 50 with no button pressed and no click. -/
def exampleInput : TickInput :=
  { deltaTime := 16, now := 50, dumpPressed := false, ImGuiEx_Combo := fun index _ => (index, false),
    allocated := (1, 2), clicks := id }

/-- The statics after the first call of `TickImGui` with `exampleInput` over `mainTracer`: the
view pair exists, the collecting view (identity 2) is connected to the Timeline `Main`, the
display view (identity 1) is not connected. -/
def afterFirstTick : UIState :=
  { tracer := { heap := [some ⟨['M', 'a', 'i', 'n'], true, some 2⟩], s_threadContexts := [0] },
    m_UI_TracerViewActiveCollect :=
      some (2, { m_rootNodes := [], m_connectedThreadContext := some 0,
                 m_connectionName := ['M', 'a', 'i', 'n'], m_nameChanged := true,
                 m_frameCountWhileConnected := 0, m_frameSortCounter := 0,
                 m_lastConnectedTime := 50, m_connectionTimeoutTime := 65 }),
    m_UI_TracerViewDisplay := some (1, freshView),
    m_UI_ProfilingTimeToNextUpdate := 0,
    m_UI_ProfilingThreadNames := [],
    m_UI_ProfilingSelectedThreadIndex := 0,
    m_UI_TracerViewingEnabled := true }

/-- A view whose root list holds the name `X` twice and the name `A` once. -/
def twiceView : vaTracerView :=
  { freshView with m_rootNodes := [leaf ['X'] 0 0, leaf ['A'] 1 0, leaf ['X'] 2 0] }

/-- A connected view, its connection name unchanged, whose only root `X` was not seen in the
last pass (`LastSeenAge` 1). -/
def staleView : vaTracerView :=
  { exampleView with m_rootNodes := [leaf ['X'] 0 1] }

/-- A Disconnected view whose only root `X` was seen in its last pass. -/
def seenView : vaTracerView :=
  { freshView with m_rootNodes := [leaf ['X'] 0 0] }

/-- The scope `P[0,10)` with the scope `C[0,5)` inside it, begun at the same instant. -/
def tieScopes : List Scope :=
  [⟨['P'], 0, 10, [⟨['C'], 0, 5, []⟩]⟩]

/-- The spans of `tieScopes` with the child listed first: a listing in order of `Beginning`,
both spans beginning at 0. -/
def tieChunk : List Entry :=
  [⟨['C'], 0, 5, 1⟩, ⟨['P'], 0, 10, 0⟩]

/-- The top-level scope `S[0,0)` followed by the top-level scope `T[0,5)`, which begins when
the first one ends. -/
def siblingScopes : List Scope :=
  [⟨['S'], 0, 0, []⟩, ⟨['T'], 0, 5, []⟩]

/-- The spans of `siblingScopes` with the second scope listed first: a listing in order of
`Beginning`, both spans beginning at 0. -/
def siblingChunk : List Entry :=
  [⟨['T'], 0, 5, 0⟩, ⟨['S'], 0, 0, 0⟩]

/-- Two top-level spans named `X`, of duration 1 and `2^53`; all the times are doubles. -/
def roundingChunk : List Entry :=
  [⟨['X'], 0, 1, 0⟩, ⟨['X'], 2, 9007199254740994, 0⟩]

/-! # Theorems -/

/-! ## Rounding to the nearest double -/

theorem roundDouble_of_lt (x : Int) (h : x.natAbs < 9007199254740992) : roundDouble x = x := by
  simp [roundDouble, h]

theorem ulpAbove_bounds (n : Nat) : ∀ (fuel u : Nat), 0 < u → u ≤ n →
    n / u < 9007199254740992 * 2 ^ fuel →
    0 < ulpAbove n fuel u ∧ ulpAbove n fuel u ≤ n ∧ n / ulpAbove n fuel u < 9007199254740992
  | 0, u, hu, hle, h => by
    simp only [ulpAbove]
    exact ⟨hu, hle, by simpa using h⟩
  | fuel + 1, u, hu, hle, h => by
    simp only [ulpAbove]
    split
    · rename_i hlt
      exact ⟨hu, hle, hlt⟩
    · rename_i hge
      have hge' : 9007199254740992 ≤ n / u := not_lt.mp hge
      have h2 : 2 ≤ n / u := le_trans (by decide) hge'
      have hmul : 2 * u ≤ n := by
        have := (Nat.le_div_iff_mul_le hu).mp h2
        omega
      apply ulpAbove_bounds n fuel (2 * u) (by omega) hmul
      rw [Nat.mul_comm 2 u, ← Nat.div_div_eq_div_mul]
      rw [pow_succ] at h
      omega

/-- The spacing found has the defining property: the quotient is below `2^53`. -/
theorem ulpAbove_spec (n : Nat) (hn : ¬ n < 9007199254740992) :
    0 < ulpAbove n n 1 ∧ ulpAbove n n 1 ≤ n ∧ n / ulpAbove n n 1 < 9007199254740992 := by
  apply ulpAbove_bounds n n 1 (by decide) (by omega)
  rw [Nat.div_one]
  exact lt_of_lt_of_le (Nat.lt_two_pow n) (Nat.le_mul_of_pos_left _ (by decide))

/-- Values of the rounding around `2^53` and `2^54`: a tie goes to the even significand. -/
theorem roundDouble_values :
    roundDouble 9007199254740991 = 9007199254740991 ∧
    roundDouble 9007199254740993 = 9007199254740992 ∧
    roundDouble 9007199254740994 = 9007199254740994 ∧
    roundDouble 9007199254740995 = 9007199254740996 ∧
    roundDouble (-9007199254740993) = -9007199254740992 ∧
    roundDouble 18014398509481985 = 18014398509481984 ∧
    roundDouble 18014398509481986 = 18014398509481984 ∧
    roundDouble 18014398509481987 = 18014398509481988 ∧
    roundDouble 18014398509481990 = 18014398509481992 := by
  decide

theorem roundDouble_large_pos (n : Nat) (hn : ¬ n < 9007199254740992) :
    0 < (if 2 * (n % ulpAbove n n 1) > ulpAbove n n 1 ∨
          (2 * (n % ulpAbove n n 1) = ulpAbove n n 1 ∧ n / ulpAbove n n 1 % 2 = 1)
        then n / ulpAbove n n 1 + 1 else n / ulpAbove n n 1) * ulpAbove n n 1 := by
  obtain ⟨hpow, hle, _⟩ := ulpAbove_spec n hn
  have hq : 0 < n / ulpAbove n n 1 := Nat.div_pos hle hpow
  apply Nat.mul_pos _ hpow
  split <;> omega

/-- Rounding keeps the sign: a double operation gives 0 only when the exact result is 0, and a
negative value exactly when the exact result is negative. -/
theorem roundDouble_sign (x : Int) :
    (roundDouble x = 0 ↔ x = 0) ∧ (roundDouble x < 0 ↔ x < 0) := by
  by_cases h : x.natAbs < 9007199254740992
  · rw [roundDouble_of_lt x h]
    exact ⟨Iff.rfl, Iff.rfl⟩
  · have hpos := roundDouble_large_pos x.natAbs h
    have hx0 : x ≠ 0 := by
      rintro rfl
      simp at h
    simp only [roundDouble, h, if_false]
    generalize (if 2 * (x.natAbs % ulpAbove x.natAbs x.natAbs 1) > ulpAbove x.natAbs x.natAbs 1 ∨
          (2 * (x.natAbs % ulpAbove x.natAbs x.natAbs 1) = ulpAbove x.natAbs x.natAbs 1 ∧
            x.natAbs / ulpAbove x.natAbs x.natAbs 1 % 2 = 1)
        then x.natAbs / ulpAbove x.natAbs x.natAbs 1 + 1
        else x.natAbs / ulpAbove x.natAbs x.natAbs 1) * ulpAbove x.natAbs x.natAbs 1 = P at hpos ⊢
    have hP : (0 : Int) < (P : Int) := by exact_mod_cast hpos
    rcases lt_trichotomy x 0 with hneg | hzero | hposx
    · rw [Int.sign_eq_neg_one_of_neg hneg]
      refine ⟨⟨fun h0 => by omega, fun h0 => absurd h0 hx0⟩, ⟨fun _ => hneg, fun _ => by omega⟩⟩
    · exact absurd hzero hx0
    · rw [Int.sign_eq_one_of_pos hposx]
      refine ⟨⟨fun h0 => by omega, fun h0 => absurd h0 hx0⟩,
        ⟨fun h0 => by omega, fun h0 => by omega⟩⟩

/-! ## Lemmas on paths -/

theorem namesAlong_updateListAt (g : List Node → List Node) :
    ∀ (p : List Nat) (R : List Node), namesAlong p (updateListAt g p R) = namesAlong p R
  | [], _ => rfl
  | i :: p, R => by
    simp only [namesAlong, updateListAt, List.getElem?_modify]
    cases h : R[i]? with
    | none => simp
    | some n => simp [namesAlong_updateListAt g p]

theorem namesAlong_snoc_updateListAt (g : List Node → List Node) (i : Nat) (m : Node) :
    ∀ (p : List Nat) (R : List Node), (namesAlong p R).length = p.length →
      (g (listAt p R))[i]? = some m →
      namesAlong (p ++ [i]) (updateListAt g p R) = namesAlong p R ++ [m.Name]
  | [], R, _, hm => by
    simp only [listAt] at hm
    simp [namesAlong, updateListAt, hm]
  | j :: p, R, hlen, hm => by
    simp only [namesAlong, listAt] at hlen hm
    simp only [List.cons_append, namesAlong, updateListAt, List.getElem?_modify]
    cases h : R[j]? with
    | none => simp [h] at hlen
    | some n =>
      simp only [h, List.length_cons, add_left_inj] at hlen hm
      simp [namesAlong_snoc_updateListAt g i m p n.ChildNodes hlen hm]

theorem namesAlong_of_snoc (i : Nat) (nm : Str) :
    ∀ (p : List Nat) (R : List Node) (pre : List Str), pre.length = p.length →
      namesAlong (p ++ [i]) R = pre ++ [nm] → namesAlong p R = pre
  | [], _, pre, hlen, _ => by
    simp only [List.length_nil, List.length_eq_zero] at hlen
    simp [namesAlong, hlen]
  | j :: p, R, pre, hlen, h => by
    simp only [List.cons_append, namesAlong] at h ⊢
    cases hj : R[j]? with
    | none => simp [hj] at h
    | some n =>
      simp only [hj] at h
      cases pre with
      | nil => simp at hlen
      | cons a pre =>
        simp only [List.cons_append, List.cons.injEq] at h
        simp only [List.length_cons, add_left_inj] at hlen
        simp [h.1, namesAlong_of_snoc i nm p n.ChildNodes pre hlen h.2]

theorem foldNode_Name (d : Int) (k : Nat) (c : Int) (n : Node) : (foldNode d k c n).Name = n.Name := rfl

theorem foldNode_ChildNodes (d : Int) (k : Nat) (c : Int) (n : Node) :
    (foldNode d k c n).ChildNodes = n.ChildNodes := rfl

theorem findByName_le (name : Str) (ns : List Node) : findByName name ns ≤ ns.length :=
  List.findIdx_le_length _

/-- The node `foldInto` folds the span into sits at the position `find_if` returned and bears
the span's name. -/
theorem foldInto_getElem?_found (name : Str) (d : Int) (k : Nat) (c : Int) (ns : List Node) :
    ∃ m, (foldInto name d k c ns)[findByName name ns]? = some m ∧ m.Name = name := by
  unfold foldInto findOrCreate
  by_cases h : findByName name ns = ns.length
  · simp [h, List.getElem?_modify, foldNode_Name]
  · have hlt : findByName name ns < ns.length := lt_of_le_of_ne (findByName_le name ns) h
    have hp : (name == (ns[findByName name ns]).Name) = true :=
      List.findIdx_getElem (p := fun node : Node => name == node.Name) (w := hlt)
    simp only [h, if_false, List.getElem?_modify, if_true]
    refine ⟨foldNode d k c ns[findByName name ns], ?_, ?_⟩
    · simp [List.getElem?_eq_getElem hlt]
    · exact (eq_of_beq hp).symm


/-! ## Which nodes one span touches -/

theorem nodeAt_nil : ∀ (q : List Nat), nodeAt q [] = none
  | [] => rfl
  | [_] => rfl
  | _ :: _ :: _ => rfl

theorem nodeAt_snoc (i : Nat) : ∀ (p : List Nat) (R : List Node),
    nodeAt (p ++ [i]) R = (listAt p R)[i]?
  | [], _ => rfl
  | [j], R => by
    simp only [List.singleton_append, nodeAt, listAt]
    cases R[j]? <;> simp
  | j :: k :: p, R => by
    have ih := fun n : Node => nodeAt_snoc i (k :: p) n.ChildNodes
    simp only [List.cons_append, nodeAt, listAt] at ih ⊢
    cases R[j]? with
    | none => simp
    | some n => simpa using ih n

theorem listAt_updateListAt (g : List Node → List Node) : ∀ (p : List Nat) (R : List Node),
    (namesAlong p R).length = p.length → listAt p (updateListAt g p R) = g (listAt p R)
  | [], _, _ => rfl
  | i :: p, R, h => by
    simp only [namesAlong, listAt, updateListAt, List.getElem?_modify] at h ⊢
    cases hi : R[i]? with
    | none => simp [hi] at h
    | some n =>
      simp only [hi, List.length_cons, add_left_inj] at h
      simp [listAt_updateListAt g p n.ChildNodes h]

/-- Away from the position `find_if` returned, `foldInto` leaves the vector as it was. -/
theorem foldInto_getElem?_ne (name : Str) (d : Int) (k : Nat) (c : Int) (ns : List Node) (j : Nat)
    (hj : j ≠ findByName name ns) : (foldInto name d k c ns)[j]? = ns[j]? := by
  unfold foldInto findOrCreate
  rw [List.getElem?_modify]
  simp only [Ne.symm hj, if_false]
  by_cases h : findByName name ns = ns.length
  · simp only [h, if_true]
    have hne : j ≠ ns.length := h ▸ hj
    rcases Nat.lt_or_gt_of_ne hne with hlt | hgt
    · simp [List.getElem?_append_left hlt]
    · have h1 : (ns ++ [{ Node.Reset with Name := name }])[j]? = none :=
        List.getElem?_eq_none (by simp; omega)
      have h2 : ns[j]? = none := List.getElem?_eq_none (by omega)
      simp [h1, h2]
  · simp [h]

/-- At the position `find_if` returned, `foldInto` leaves the found node, or else the new node,
with the span folded in. -/
theorem foldInto_getElem?_eq (name : Str) (d : Int) (k : Nat) (c : Int) (ns : List Node) :
    (foldInto name d k c ns)[findByName name ns]? =
      some (foldNode d k c ((ns[findByName name ns]?).getD { Node.Reset with Name := name })) := by
  unfold foldInto findOrCreate
  rw [List.getElem?_modify]
  by_cases h : findByName name ns = ns.length
  · simp [h]
  · have hlt : findByName name ns < ns.length := lt_of_le_of_ne (findByName_le name ns) h
    simp [h, List.getElem?_eq_getElem hlt]

/-- A span leaves `Instances` and `TimeTotal` of every node but its destination as they were. -/
theorem nodeAt_foldSpan_other (name : Str) (d : Int) (k : Nat) (c : Int) :
    ∀ (p : List Nat) (R : List Node) (q : List Nat),
      q ≠ p ++ [findByName name (listAt p R)] →
      (nodeAt q (updateListAt (foldInto name d k c) p R)).map (fun n => (n.Instances, n.TimeTotal)) =
        (nodeAt q R).map (fun n => (n.Instances, n.TimeTotal))
  | [], R, [], _ => rfl
  | [], R, [j], hq => by
    have hj : j ≠ findByName name R := by simpa [listAt] using hq
    simp only [updateListAt, nodeAt, foldInto_getElem?_ne name d k c R j hj]
  | [], R, j :: k' :: q, _ => by
    simp only [updateListAt, nodeAt]
    by_cases hj : j = findByName name R
    · subst hj
      rw [foldInto_getElem?_eq]
      cases h : R[findByName name R]? with
      | none => simp [foldNode_ChildNodes, Node.Reset, nodeAt_nil]
      | some n => simp [foldNode_ChildNodes]
    · rw [foldInto_getElem?_ne name d k c R j hj]
  | i :: p, R, [], _ => rfl
  | i :: p, R, [j], _ => by
    simp only [updateListAt, nodeAt, List.getElem?_modify]
    cases R[j]? with
    | none => rfl
    | some n => by_cases hij : i = j <;> simp [hij]
  | i :: p, R, j :: k' :: q, hq => by
    simp only [updateListAt, nodeAt, List.getElem?_modify]
    by_cases hij : i = j
    · subst hij
      cases hi : R[i]? with
      | none => simp
      | some n =>
        have hq' : k' :: q ≠ p ++ [findByName name (listAt p n.ChildNodes)] := by
          intro hc
          apply hq
          simp [listAt, hi, hc]
        simpa using nodeAt_foldSpan_other name d k c p n.ChildNodes (k' :: q) hq'
    · cases R[j]? with
      | none => simp
      | some n => simp [hij]
/-! ## The destination stack names nodes of the tree -/

theorem namesAlong_valid_prefix : ∀ (p q : List Nat) (R : List Node),
    (namesAlong (p ++ q) R).length = (p ++ q).length → (namesAlong p R).length = p.length
  | [], _, _, _ => by simp [namesAlong]
  | i :: p, q, R, h => by
    simp only [List.cons_append, namesAlong] at h ⊢
    cases hi : R[i]? with
    | none => simp [hi] at h
    | some n =>
      simp only [hi, List.length_cons, add_left_inj] at h
      simpa using namesAlong_valid_prefix p q n.ChildNodes h

theorem popStacks_suffix (e : Entry) : ∀ (src : List Entry) (dst : List Nat),
    ∃ t, t ++ (popStacks e src dst).2 = dst
  | [], dst => ⟨[], rfl⟩
  | top :: src, dst => by
    simp only [popStacks]
    by_cases h : popCond top e = true
    · simp only [h, if_true]
      obtain ⟨t, ht⟩ := popStacks_suffix e src dst.tail
      cases dst with
      | nil => exact ⟨[], by simp at ht; simpa using ht.2⟩
      | cons x dst => exact ⟨x :: t, by simpa using ht⟩
    · simp only [h]
      exact ⟨[], rfl⟩

theorem foldSpan_valid (st : FoldState) (e : Entry)
    (h : (namesAlong st.currentDstStack.reverse st.m_rootNodes).length = st.currentDstStack.length) :
    (namesAlong (popStacks e st.currentSrcStack st.currentDstStack).2.reverse st.m_rootNodes).length =
        (popStacks e st.currentSrcStack st.currentDstStack).2.reverse.length ∧
      (namesAlong (foldSpan st e).currentDstStack.reverse (foldSpan st e).m_rootNodes).length =
        (foldSpan st e).currentDstStack.length := by
  obtain ⟨t, ht⟩ := popStacks_suffix e st.currentSrcStack st.currentDstStack
  have hp : (namesAlong (popStacks e st.currentSrcStack st.currentDstStack).2.reverse
      st.m_rootNodes).length = (popStacks e st.currentSrcStack st.currentDstStack).2.reverse.length := by
    apply namesAlong_valid_prefix _ t.reverse
    rw [← List.reverse_append, ht, List.length_reverse]
    exact h
  refine ⟨hp, ?_⟩
  simp only [foldSpan, List.reverse_cons]
  rw [namesAlong_snoc_updateListAt _ _ _ _ _ hp (foldInto_getElem?_eq _ _ _ _ _)]
  simp only [List.length_append, List.length_singleton, List.length_cons, add_left_inj]
  rw [hp, List.length_reverse]
  simp

theorem foldl_foldSpan_valid (chunk : List Entry) : ∀ (st : FoldState),
    (namesAlong st.currentDstStack.reverse st.m_rootNodes).length = st.currentDstStack.length →
    (namesAlong (chunk.foldl foldSpan st).currentDstStack.reverse
        (chunk.foldl foldSpan st).m_rootNodes).length =
      (chunk.foldl foldSpan st).currentDstStack.length := by
  induction chunk with
  | nil => exact fun _ h => h
  | cons e chunk ih => exact fun st h => ih _ (foldSpan_valid st e h).2

/-! ## Names of existing nodes never change -/

theorem namesAlong_foldInto_stable (name : Str) (d : Int) (k : Nat) (c : Int) :
    ∀ (p : List Nat) (R : List Node) (q : List Nat), (namesAlong q R).length = q.length →
      namesAlong q (updateListAt (foldInto name d k c) p R) = namesAlong q R
  | _, _, [], _ => rfl
  | [], R, j :: q, hq => by
    simp only [namesAlong] at hq ⊢
    simp only [updateListAt]
    cases hj : R[j]? with
    | none => simp [hj] at hq
    | some n =>
      by_cases hji : j = findByName name R
      · subst hji
        rw [foldInto_getElem?_eq, hj]
        simp [foldNode_Name, foldNode_ChildNodes]
      · rw [foldInto_getElem?_ne name d k c R j hji, hj]
  | i :: p, R, j :: q, hq => by
    simp only [namesAlong] at hq ⊢
    simp only [updateListAt, List.getElem?_modify]
    cases hj : R[j]? with
    | none => simp [hj] at hq
    | some n =>
      simp only [hj, List.length_cons, add_left_inj] at hq
      by_cases hij : i = j
      · simp [hij, namesAlong_foldInto_stable name d k c p n.ChildNodes q hq]
      · simp [hij]

theorem namesAlong_foldSpan_stable (st : FoldState) (e : Entry) (q : List Nat)
    (hq : (namesAlong q st.m_rootNodes).length = q.length) :
    namesAlong q (foldSpan st e).m_rootNodes = namesAlong q st.m_rootNodes := by
  simp only [foldSpan]
  exact namesAlong_foldInto_stable _ _ _ _ _ _ q hq

theorem namesAlong_foldl_stable (chunk : List Entry) : ∀ (st : FoldState) (q : List Nat),
    (namesAlong q st.m_rootNodes).length = q.length →
    namesAlong q (chunk.foldl foldSpan st).m_rootNodes = namesAlong q st.m_rootNodes := by
  induction chunk with
  | nil => intro st q _; rfl
  | cons e chunk ih =>
    intro st q hq
    have h1 := namesAlong_foldSpan_stable st e q hq
    rw [List.foldl_cons, ih (foldSpan st e) q (by rw [h1]; exact hq), h1]

/-- The names read in the final tree along the destinations are those read right after each
iteration. -/
theorem destinations_names_final (chunk : List Entry) : ∀ (st : FoldState),
    (namesAlong st.currentDstStack.reverse st.m_rootNodes).length = st.currentDstStack.length →
    (destinations st chunk).map (fun p => namesAlong p (chunk.foldl foldSpan st).m_rootNodes) =
      foldedInto st chunk := by
  induction chunk with
  | nil => intro st _; rfl
  | cons e chunk ih =>
    intro st hv
    have hv1 := (foldSpan_valid st e hv).2
    simp only [destinations, foldedInto, List.map_cons, List.foldl_cons, ih (foldSpan st e) hv1]
    rw [namesAlong_foldl_stable chunk (foldSpan st e) _ (by rw [hv1, List.length_reverse])]

/-! ## The stack discipline of `UpdateCallback` on properly nested scopes -/

theorem popStacks_junk (e : Entry) (ancS : List Entry) (ancD : List Nat)
    (hanc : ∀ a ∈ ancS, popCond a e = false) :
    ∀ (junkS : List Entry) (junkD : List Nat), junkS.length = junkD.length →
      (∀ j ∈ junkS, popCond j e = true) →
      popStacks e (junkS ++ ancS) (junkD ++ ancD) = (ancS, ancD)
  | [], junkD, hlen, _ => by
    have hD : junkD = [] := List.length_eq_zero.mp hlen.symm
    subst hD
    cases ancS with
    | nil => rfl
    | cons a as => simp [popStacks, hanc a (List.mem_cons_self _ _)]
  | j :: junkS, junkD, hlen, hj => by
    cases junkD with
    | nil => simp at hlen
    | cons x junkD =>
      simp only [List.length_cons, add_left_inj] at hlen
      simp only [List.cons_append, popStacks, hj j (List.mem_cons_self _ _), if_true, List.tail_cons]
      exact popStacks_junk e ancS ancD hanc junkS junkD hlen
        (fun y hy => hj y (List.mem_cons_of_mem _ hy))

theorem Scope.nestedList_le : ∀ (cs : List Scope) (lo hi : Int),
    Scope.nestedList lo hi cs = true → lo ≤ hi
  | [], lo, hi, h => by simpa [Scope.nestedList] using h
  | ⟨name, b, e, cs'⟩ :: rest, lo, hi, h => by
    simp only [Scope.nestedList, Scope.nested, Bool.and_eq_true, decide_eq_true_eq] at h
    have h1 := Scope.nestedList_le cs' b e h.1.2
    have h2 := Scope.nestedList_le rest e hi h.2
    omega

theorem foldSpan_of_inv {d lo hi : Int} {st : FoldState} {junkS ancS : List Entry}
    {junkD ancD : List Nat} {pre : List Str} (inv : StackInv d lo hi st junkS ancS junkD ancD pre)
    (name : Str) (b e : Int) (hlo : lo ≤ b) (hbe : b ≤ e) (hhi : e ≤ hi) :
    StackInv (d + 1) b e (foldSpan st ⟨name, b, e, d⟩) [] (⟨name, b, e, d⟩ :: ancS) []
      (findByName name (listAt ancD.reverse st.m_rootNodes) :: ancD) (pre ++ [name]) := by
  have hpop : popStacks ⟨name, b, e, d⟩ st.currentSrcStack st.currentDstStack = (ancS, ancD) := by
    rw [inv.src_eq, inv.dst_eq]
    apply popStacks_junk _ _ _ _ _ _ inv.junk_len
    · intro j hj
      have := inv.junk j hj
      simp only [popCond, Bool.or_eq_true, Bool.and_eq_true, decide_eq_true_eq]
      omega
    · intro a ha
      have := inv.anc a ha
      simp only [popCond, Bool.or_eq_false_iff, Bool.and_eq_false_imp, decide_eq_false_iff_not,
        decide_eq_true_eq]
      omega
  obtain ⟨m, hm, hmn⟩ := foldInto_getElem?_found name (roundDouble (e - b)) (ancD.length + 1)
    st.m_frameSortCounter (listAt ancD.reverse st.m_rootNodes)
  have hvalid : (namesAlong ancD.reverse st.m_rootNodes).length = ancD.reverse.length := by
    rw [inv.names, inv.len, List.length_reverse]
  refine ⟨by simp [foldSpan, hpop], by simp [foldSpan, hpop], rfl, by simp, ?_, ?_, by simp [inv.len]⟩
  · intro a ha
    rcases List.mem_cons.mp ha with rfl | ha
    · simp
    · have := inv.anc a ha
      omega
  · simp only [foldSpan, hpop, List.reverse_cons]
    rw [namesAlong_snoc_updateListAt _ _ m _ _ hvalid hm, inv.names, hmn]


theorem foldedInto_append (st : FoldState) (xs ys : List Entry) :
    foldedInto st (xs ++ ys) = foldedInto st xs ++ foldedInto (xs.foldl foldSpan st) ys := by
  induction xs generalizing st with
  | nil => rfl
  | cons x xs ih => simp [foldedInto, ih]

mutual
theorem foldedInto_scope : ∀ (s : Scope) (d lo hi : Int) (st : FoldState) (junkS ancS : List Entry)
    (junkD ancD : List Nat) (pre : List Str),
    s.nested = true → lo ≤ s.Beginning → s.End ≤ hi →
    StackInv d lo hi st junkS ancS junkD ancD pre →
    (∃ junkS' junkD', StackInv d s.End hi ((Scope.entries d s).foldl foldSpan st)
        junkS' ancS junkD' ancD pre) ∧
      foldedInto st (Scope.entries d s) = Scope.paths pre s
  | ⟨name, b, e, cs⟩, d, lo, hi, st, junkS, ancS, junkD, ancD, pre, hn, hlo, hhi, inv => by
    simp only [Scope.nested] at hn
    have hbe : b ≤ e := Scope.nestedList_le cs b e hn
    have inv1 := foldSpan_of_inv inv name b e hlo hbe hhi
    obtain ⟨⟨jS, jD, inv2⟩, hfold⟩ := foldedInto_list cs (d + 1) b e _ _ _ _ _ _ hn inv1
    constructor
    · refine ⟨jS ++ [⟨name, b, e, d⟩], jD ++ [findByName name (listAt ancD.reverse st.m_rootNodes)], ?_⟩
      simp only [Scope.entries, List.foldl_cons]
      refine ⟨by simp [inv2.src_eq], by simp [inv2.dst_eq], by simp [inv2.junk_len], ?_, inv.anc, ?_,
        inv.len⟩
      · intro j hj
        rcases List.mem_append.mp hj with hj | hj
        · have := inv2.junk j hj
          omega
        · simp only [List.mem_singleton] at hj
          subst hj
          simp
      · have h := inv2.names
        simp only [List.reverse_cons] at h
        exact namesAlong_of_snoc _ name _ _ pre (by simp [inv.len]) h
    · have hd := inv1.dst_eq
      simp only [List.nil_append] at hd
      have h := inv1.names
      rw [← hd] at h
      simp only [Scope.entries, Scope.paths, foldedInto, hfold, h]
theorem foldedInto_list : ∀ (cs : List Scope) (d lo hi : Int) (st : FoldState)
    (junkS ancS : List Entry) (junkD ancD : List Nat) (pre : List Str),
    Scope.nestedList lo hi cs = true →
    StackInv d lo hi st junkS ancS junkD ancD pre →
    (∃ junkS' junkD', StackInv d hi hi ((Scope.entriesList d cs).foldl foldSpan st)
        junkS' ancS junkD' ancD pre) ∧
      foldedInto st (Scope.entriesList d cs) = Scope.pathsList pre cs
  | [], d, lo, hi, st, junkS, ancS, junkD, ancD, pre, hn, inv => by
    have hle : lo ≤ hi := Scope.nestedList_le [] lo hi hn
    refine ⟨⟨junkS, junkD, inv.src_eq, inv.dst_eq, inv.junk_len, ?_, inv.anc, inv.names, inv.len⟩, rfl⟩
    intro j hj
    have := inv.junk j hj
    omega
  | ⟨name, b, e, cs'⟩ :: rest, d, lo, hi, st, junkS, ancS, junkD, ancD, pre, hn, inv => by
    simp only [Scope.nestedList, Bool.and_eq_true, decide_eq_true_eq] at hn
    obtain ⟨⟨jS, jD, inv1⟩, h1⟩ :=
      foldedInto_scope ⟨name, b, e, cs'⟩ d lo hi st junkS ancS junkD ancD pre hn.1.2 hn.1.1.1
        hn.1.1.2 inv
    obtain ⟨hinv2, h2⟩ := foldedInto_list rest d e hi _ jS ancS jD ancD pre hn.2 inv1
    refine ⟨?_, ?_⟩
    · simpa only [Scope.entriesList, List.foldl_append] using hinv2
    · simp only [Scope.entriesList, Scope.pathsList, foldedInto_append, h1, h2]
end


/-! ## The batch of properly nested scopes is in order of `Beginning` -/

mutual
theorem Scope.entries_ordered : ∀ (s : Scope) (d : Int), s.nested = true →
    (∀ x ∈ Scope.entries d s, s.Beginning ≤ x.Beginning ∧ x.Beginning ≤ s.End) ∧
      (Scope.entries d s).Pairwise (fun a b => a.Beginning ≤ b.Beginning)
  | ⟨name, b, e, cs⟩, d, hn => by
    simp only [Scope.nested] at hn
    have hbe : b ≤ e := Scope.nestedList_le cs b e hn
    obtain ⟨h1, h2⟩ := Scope.entriesList_ordered cs (d + 1) b e hn
    simp only [Scope.entries, List.mem_cons, List.pairwise_cons]
    refine ⟨?_, fun x hx => (h1 x hx).1, h2⟩
    rintro x (rfl | hx)
    · exact ⟨le_refl _, hbe⟩
    · exact h1 x hx
theorem Scope.entriesList_ordered : ∀ (cs : List Scope) (d lo hi : Int),
    Scope.nestedList lo hi cs = true →
    (∀ x ∈ Scope.entriesList d cs, lo ≤ x.Beginning ∧ x.Beginning ≤ hi) ∧
      (Scope.entriesList d cs).Pairwise (fun a b => a.Beginning ≤ b.Beginning)
  | [], _, _, _, _ => by simp [Scope.entriesList]
  | ⟨name, b, e, cs'⟩ :: rest, d, lo, hi, hn => by
    simp only [Scope.nestedList, Bool.and_eq_true, decide_eq_true_eq] at hn
    obtain ⟨h1', h2⟩ := Scope.entries_ordered ⟨name, b, e, cs'⟩ d hn.1.2
    have h1 : ∀ x ∈ Scope.entries d ⟨name, b, e, cs'⟩, b ≤ x.Beginning ∧ x.Beginning ≤ e := h1'
    obtain ⟨h3, h4⟩ := Scope.entriesList_ordered rest d e hi hn.2
    have hbe : b ≤ e := Scope.nestedList_le cs' b e (by simpa [Scope.nested] using hn.1.2)
    simp only [Scope.entriesList, List.mem_append, List.pairwise_append]
    refine ⟨?_, h2, h4, ?_⟩
    · rintro x (hx | hx)
      · have := h1 x hx
        constructor <;> omega
      · have := h3 x hx
        have := Scope.nestedList_le rest e hi hn.2
        constructor <;> omega
    · intro x hx y hy
      have := h1 x hx
      have := h3 y hy
      omega
end

theorem loopInit_valid (v : vaTracerView) :
    (namesAlong (loopInit v).currentDstStack.reverse (loopInit v).m_rootNodes).length =
      (loopInit v).currentDstStack.length := rfl

theorem stackInv_loopInit (v : vaTracerView) (lo hi : Int) :
    StackInv 0 lo hi (loopInit v) [] [] [] [] [] :=
  ⟨rfl, rfl, rfl, by simp, by simp, rfl, rfl⟩

theorem UpdateCallback_rootNodes (t : vaTracer) (now : Int) (v : vaTracerView)
    (chunk : List Entry) (inc : Bool)
    (hconn : (t.lockWeak v.m_connectedThreadContext).isSome = true)
    (htime : now ≤ v.m_connectionTimeoutTime) :
    UpdateCallback t now v chunk inc =
      { bumpFrame inc v with
        m_rootNodes := (foldChunk v inc chunk).m_rootNodes
        m_frameSortCounter := (foldChunk v inc chunk).m_frameSortCounter } := by
  have h1 : ¬ now > v.m_connectionTimeoutTime := not_lt.mpr htime
  have h2 : (t.lockWeak v.m_connectedThreadContext).isNone = false := by
    cases h : t.lockWeak v.m_connectedThreadContext <;> simp_all
  simp [UpdateCallback, h1, h2]

theorem foldChunk_exampleScopes (v : vaTracerView) (inc : Bool) (hempty : v.m_rootNodes = []) :
    (foldChunk v inc (Scope.entriesList 0 exampleScopes)).m_rootNodes =
      exampleTree (bumpFrame inc v).m_frameSortCounter := by
  have hroots : (bumpFrame inc v).m_rootNodes = [] := by
    cases inc <;> simpa [bumpFrame] using hempty
  have h10 : roundDouble 10 = 10 := rfl
  have h3 : roundDouble 3 = 3 := rfl
  have h4 : roundDouble 4 = 4 := rfl
  have h2 : roundDouble 2 = 2 := rfl
  simp [foldChunk, loopInit, exampleScopes, Scope.entriesList, Scope.entries, hroots, foldSpan,
    popStacks, popCond, listAt, updateListAt, foldInto, findOrCreate, findByName, foldNode,
    Node.Reset, exampleTree, List.findIdx_cons, List.modify, h10, h3, h4, h2]
  omega

/-- A listing of the spans of properly nested scopes in which `Beginning` grows from each span
to the next is the listing in the order in which the scopes began. -/
theorem Scope.entriesList_of_increasing (forest : List Scope) (lo hi : Int)
    (hn : Scope.nestedList lo hi forest = true) (chunk : List Entry)
    (hperm : chunk.Perm (Scope.entriesList 0 forest))
    (hlt : chunk.Pairwise (fun a b => a.Beginning < b.Beginning)) :
    chunk = Scope.entriesList 0 forest := by
  have hle := (Scope.entriesList_ordered forest 0 lo hi hn).2
  have hne : chunk.Pairwise (fun a b => a.Beginning ≠ b.Beginning) :=
    hlt.imp (fun h => ne_of_lt h)
  have hne2 : (Scope.entriesList 0 forest).Pairwise (fun a b => a.Beginning ≠ b.Beginning) :=
    (hperm.pairwise_iff (fun h => Ne.symm h)).mp hne
  have hlt2 : (Scope.entriesList 0 forest).Pairwise (fun a b => a.Beginning < b.Beginning) :=
    (hle.and hne2).imp (fun h => lt_of_le_of_ne h.1 h.2)
  haveI : IsAntisymm Entry (fun a b => a.Beginning < b.Beginning) :=
    ⟨fun a b h1 h2 => absurd h1 (not_lt_of_lt h2)⟩
  exact List.eq_of_perm_of_sorted hperm hlt hlt2

/-- C1 (counterexample): two batches that list the spans of properly nested scopes in order of
`Beginning`, each with two spans beginning at the same instant. For `P[0,10) { C[0,5) }` listed
as `C, P` the span `C` is folded into a root `C`, not into a child `C` of `P`: the tree has the
two roots `C` and `P`. For the top-level scopes `S[0,0)`, `T[0,5)` listed as `T, S` the span `S`
is folded into a child `S` of `T`, not into a root. -/
theorem UpdateCallback_misplaces_on_equal_Beginning :
    ((exampleTracer.lockWeak exampleView.m_connectedThreadContext).isSome = true ∧
      (5 : Int) ≤ exampleView.m_connectionTimeoutTime ∧ exampleView.m_rootNodes = []) ∧
    (Scope.nestedList 0 10 tieScopes = true ∧
      tieChunk.Perm (Scope.entriesList 0 tieScopes) ∧
      tieChunk.Pairwise (fun a b => a.Beginning ≤ b.Beginning) ∧
      tieChunk.map (fun e => e.Name) = [['C'], ['P']] ∧
      (Scope.entriesList 0 tieScopes).map (fun e => e.Name) = [['P'], ['C']] ∧
      Scope.pathsList [] tieScopes = [[['P']], [['P'], ['C']]] ∧
      (destinations (loopInit (bumpFrame true exampleView)) tieChunk).map
          (fun p => namesAlong p
            (UpdateCallback exampleTracer 5 exampleView tieChunk true).m_rootNodes) =
        [[['C']], [['P']]] ∧
      (UpdateCallback exampleTracer 5 exampleView tieChunk true).m_rootNodes.map
          (fun n => (n.Name, n.ChildNodes.map (fun c => c.Name))) =
        [(['C'], []), (['P'], [])]) ∧
    (Scope.nestedList 0 5 siblingScopes = true ∧
      siblingChunk.Perm (Scope.entriesList 0 siblingScopes) ∧
      siblingChunk.Pairwise (fun a b => a.Beginning ≤ b.Beginning) ∧
      siblingChunk.map (fun e => e.Name) = [['T'], ['S']] ∧
      (Scope.entriesList 0 siblingScopes).map (fun e => e.Name) = [['S'], ['T']] ∧
      Scope.pathsList [] siblingScopes = [[['S']], [['T']]] ∧
      (destinations (loopInit (bumpFrame true exampleView)) siblingChunk).map
          (fun p => namesAlong p
            (UpdateCallback exampleTracer 5 exampleView siblingChunk true).m_rootNodes) =
        [[['T']], [['T'], ['S']]] ∧
      (UpdateCallback exampleTracer 5 exampleView siblingChunk true).m_rootNodes.map
          (fun n => (n.Name, n.ChildNodes.map (fun c => c.Name))) =
        [(['T'], [['S']])]) := by
  refine ⟨⟨by decide, by decide, rfl⟩, ⟨by decide, List.Perm.swap _ _ _, by decide, by decide,
    by decide, by decide, by decide, by decide⟩, ⟨by decide, List.Perm.swap _ _ _, by decide,
    by decide, by decide, by decide, by decide, by decide⟩⟩

/-- C1 (amended): on a connected, not timed-out view with an empty tree, for every batch that
lists the spans of properly nested scopes in the order in which the scopes began (`Depth` =
number of enclosing scopes, 0 at top level; such a batch is in order of `Beginning`, and it is
the only listing of these spans in order of `Beginning` when no two of them begin at the same
instant), `UpdateCallback` runs its loop over the batch, and in the tree it returns the node
each span was folded into (the node on top of `currentDstStack` after the span's iteration) is
the one whose names from a root are the names of the span's enclosing spans, outermost first,
followed by the span's own name; the batch `A[0,10) { B[1,4), C[5,9) { D[6,8) } }` gives the
single root `A` with children `B`, `C` and `D` under `C`, each with `Instances = 1` and
`TimeTotal` its own duration. -/
theorem UpdateCallback_reconstructs_call_tree (t : vaTracer) (now : Int) (v : vaTracerView)
    (inc : Bool) (hconn : (t.lockWeak v.m_connectedThreadContext).isSome = true)
    (htime : now ≤ v.m_connectionTimeoutTime) (hempty : v.m_rootNodes = []) :
    (∀ (forest : List Scope) (lo hi : Int), Scope.nestedList lo hi forest = true →
      (Scope.entriesList 0 forest).Pairwise (fun a b => a.Beginning ≤ b.Beginning) ∧
        (UpdateCallback t now v (Scope.entriesList 0 forest) inc).m_rootNodes =
          ((Scope.entriesList 0 forest).foldl foldSpan (loopInit (bumpFrame inc v))).m_rootNodes ∧
        (destinations (loopInit (bumpFrame inc v)) (Scope.entriesList 0 forest)).map
            (fun p => namesAlong p
              (UpdateCallback t now v (Scope.entriesList 0 forest) inc).m_rootNodes) =
          Scope.pathsList [] forest ∧
        ∀ chunk : List Entry, chunk.Perm (Scope.entriesList 0 forest) →
          chunk.Pairwise (fun a b => a.Beginning < b.Beginning) →
          chunk = Scope.entriesList 0 forest ∧
          (destinations (loopInit (bumpFrame inc v)) chunk).map
              (fun p => namesAlong p (UpdateCallback t now v chunk inc).m_rootNodes) =
            Scope.pathsList [] forest) ∧
    (UpdateCallback t now v (Scope.entriesList 0 exampleScopes) inc).m_rootNodes =
      exampleTree (bumpFrame inc v).m_frameSortCounter := by
  have hroots : ∀ chunk, (UpdateCallback t now v chunk inc).m_rootNodes =
      (chunk.foldl foldSpan (loopInit (bumpFrame inc v))).m_rootNodes := by
    intro chunk
    rw [UpdateCallback_rootNodes t now v _ inc hconn htime]
    rfl
  have hpaths : ∀ (forest : List Scope) (lo hi : Int), Scope.nestedList lo hi forest = true →
      (destinations (loopInit (bumpFrame inc v)) (Scope.entriesList 0 forest)).map
          (fun p => namesAlong p
            (UpdateCallback t now v (Scope.entriesList 0 forest) inc).m_rootNodes) =
        Scope.pathsList [] forest := by
    intro forest lo hi hn
    rw [hroots, destinations_names_final _ _ (loopInit_valid _)]
    exact (foldedInto_list forest 0 lo hi _ [] [] [] [] [] hn (stackInv_loopInit _ lo hi)).2
  refine ⟨fun forest lo hi hn =>
    ⟨(Scope.entriesList_ordered forest 0 lo hi hn).2, hroots _, hpaths forest lo hi hn,
      fun chunk hperm hlt => ?_⟩, ?_⟩
  · have heq := Scope.entriesList_of_increasing forest lo hi hn chunk hperm hlt
    refine ⟨heq, ?_⟩
    rw [heq]
    exact hpaths forest lo hi hn
  · rw [hroots]
    exact foldChunk_exampleScopes v inc hempty

theorem UpdateCallback_reconstructs_call_tree_witness :
    ((exampleTracer.lockWeak exampleView.m_connectedThreadContext).isSome = true ∧
      (5 : Int) ≤ exampleView.m_connectionTimeoutTime ∧ exampleView.m_rootNodes = [] ∧
      Scope.nestedList 0 10 exampleScopes = true ∧
      (Scope.entriesList 0 exampleScopes).Perm (Scope.entriesList 0 exampleScopes) ∧
      (Scope.entriesList 0 exampleScopes).Pairwise (fun a b => a.Beginning < b.Beginning)) ∧
    (destinations (loopInit (bumpFrame true exampleView)) (Scope.entriesList 0 exampleScopes)).map
        (fun p => namesAlong p
          (UpdateCallback exampleTracer 5 exampleView (Scope.entriesList 0 exampleScopes)
            true).m_rootNodes) =
      [[['A']], [['A'], ['B']], [['A'], ['C']], [['A'], ['C'], ['D']]] ∧
    (UpdateCallback exampleTracer 5 exampleView (Scope.entriesList 0 exampleScopes) true).m_rootNodes =
      exampleTree 0 :=
  ⟨⟨by decide, by decide, rfl, by decide, List.Perm.refl _, by decide⟩,
    (((UpdateCallback_reconstructs_call_tree exampleTracer 5 exampleView true (by decide)
      (by decide) rfl).1 exampleScopes 0 10 (by decide)).2.2.2
        (Scope.entriesList 0 exampleScopes) (List.Perm.refl _) (by decide)).2,
    (UpdateCallback_reconstructs_call_tree exampleTracer 5 exampleView true (by decide) (by decide)
      rfl).2⟩

/-! ## Sums over the tree -/

theorem Node.sumOver_eq (f : Node → Int) (n : Node) :
    Node.sumOver f n = f n + Node.sumOverList f n.ChildNodes := by
  cases n; rfl

theorem Node.sumOverList_append (f : Node → Int) (xs ys : List Node) :
    Node.sumOverList f (xs ++ ys) = Node.sumOverList f xs + Node.sumOverList f ys := by
  induction xs with
  | nil => simp [Node.sumOverList]
  | cons x xs ih => simp [Node.sumOverList, ih, add_assoc]

theorem Node.sumOverList_modify (f : Node → Int) (h : Node → Node) :
    ∀ (ns : List Node) (i : Nat) (n : Node), ns[i]? = some n →
      Node.sumOverList f (ns.modify h i) =
        Node.sumOverList f ns + (Node.sumOver f (h n) - Node.sumOver f n)
  | [], i, n, hn => by simp at hn
  | x :: xs, 0, n, hn => by
    simp only [List.getElem?_cons_zero, Option.some.injEq] at hn
    subst hn
    simp only [List.modify, List.modifyHead, Node.sumOverList]
    ring
  | x :: xs, i + 1, n, hn => by
    simp only [List.getElem?_cons_succ] at hn
    rw [List.modify_succ_cons]
    simp only [Node.sumOverList]
    rw [Node.sumOverList_modify f h xs i n hn]
    ring

/-- Folding a span into a vector changes the sum of a statistic by what the fold changes in the
node found or created. -/
theorem sumOverList_foldInto (f : Node → Int)
    (hfresh : ∀ name, f { Node.Reset with Name := name } = 0) (name : Str) (d : Int) (k : Nat)
    (c : Int) (ns : List Node) :
    Node.sumOverList f (foldInto name d k c ns) =
      Node.sumOverList f ns +
        (f (foldNode d k c ((ns[findByName name ns]?).getD { Node.Reset with Name := name })) -
          f ((ns[findByName name ns]?).getD { Node.Reset with Name := name })) := by
  unfold foldInto findOrCreate
  by_cases h : findByName name ns = ns.length
  · simp only [h, if_true]
    rw [Node.sumOverList_modify f _ _ _ { Node.Reset with Name := name } (by simp),
      Node.sumOverList_append]
    simp only [Node.sumOverList, Node.sumOver_eq, foldNode_ChildNodes, hfresh,
      List.getElem?_eq_none (le_refl ns.length), Option.getD_none]
    simp [Node.Reset, Node.sumOverList]
  · have hlt : findByName name ns < ns.length := lt_of_le_of_ne (findByName_le name ns) h
    simp only [h, if_false]
    rw [Node.sumOverList_modify f _ _ _ _ (List.getElem?_eq_getElem hlt)]
    simp only [Node.sumOver_eq, foldNode_ChildNodes, List.getElem?_eq_getElem hlt,
      Option.getD_some]
    ring

theorem sumOverList_updateListAt (f : Node → Int) (hch : ∀ (n : Node) (cs : List Node),
    f { n with ChildNodes := cs } = f n) (g : List Node → List Node) (δ : List Node → Int)
    (hg : ∀ ns, Node.sumOverList f (g ns) = Node.sumOverList f ns + δ ns) :
    ∀ (p : List Nat) (R : List Node), (namesAlong p R).length = p.length →
      Node.sumOverList f (updateListAt g p R) = Node.sumOverList f R + δ (listAt p R)
  | [], R, _ => hg R
  | i :: p, R, h => by
    simp only [namesAlong] at h
    cases hi : R[i]? with
    | none => simp [hi] at h
    | some n =>
      simp only [hi, List.length_cons, add_left_inj] at h
      simp only [updateListAt, listAt, hi]
      rw [Node.sumOverList_modify f _ R i n hi]
      simp only [Node.sumOver_eq, hch, sumOverList_updateListAt f hch g δ hg p n.ChildNodes h]
      ring

theorem bumpFrame_rootNodes (inc : Bool) (v : vaTracerView) :
    (bumpFrame inc v).m_rootNodes = v.m_rootNodes := by
  cases inc <;> rfl

/-- The node a span is folded into, before and after its iteration. -/
theorem foldSpan_destination (st : FoldState) (e : Entry)
    (h : (namesAlong st.currentDstStack.reverse st.m_rootNodes).length = st.currentDstStack.length) :
    nodeAt (foldSpan st e).currentDstStack.reverse (foldSpan st e).m_rootNodes =
      some (foldNode (roundDouble (e.End - e.Beginning))
        ((popStacks e st.currentSrcStack st.currentDstStack).2.length + 1)
        st.m_frameSortCounter
        ((nodeAt (foldSpan st e).currentDstStack.reverse st.m_rootNodes).getD
          { Node.Reset with Name := e.Name })) := by
  have hp := (foldSpan_valid st e h).1
  simp only [foldSpan, List.reverse_cons, nodeAt_snoc]
  rw [listAt_updateListAt _ _ _ hp, foldInto_getElem?_eq]

/-- One iteration changes the sum of a statistic over the tree by what it changes in the node
the span is folded into. -/
theorem foldSpan_sumOverList (f : Node → Int)
    (hfresh : ∀ name, f { Node.Reset with Name := name } = 0)
    (hch : ∀ (n : Node) (cs : List Node), f { n with ChildNodes := cs } = f n)
    (st : FoldState) (e : Entry)
    (h : (namesAlong st.currentDstStack.reverse st.m_rootNodes).length = st.currentDstStack.length) :
    Node.sumOverList f (foldSpan st e).m_rootNodes =
      Node.sumOverList f st.m_rootNodes +
        (f (foldNode (roundDouble (e.End - e.Beginning))
            ((popStacks e st.currentSrcStack st.currentDstStack).2.length + 1)
            st.m_frameSortCounter
            ((nodeAt (foldSpan st e).currentDstStack.reverse st.m_rootNodes).getD
              { Node.Reset with Name := e.Name })) -
          f ((nodeAt (foldSpan st e).currentDstStack.reverse st.m_rootNodes).getD
              { Node.Reset with Name := e.Name })) := by
  simp only [foldSpan, List.reverse_cons, nodeAt_snoc]
  exact sumOverList_updateListAt f hch _ _
    (fun ns => sumOverList_foldInto f hfresh _ _ _ _ ns) _ _ (foldSpan_valid st e h).1

theorem foldl_foldSpan_Instances (chunk : List Entry) : ∀ (st : FoldState),
    (namesAlong st.currentDstStack.reverse st.m_rootNodes).length = st.currentDstStack.length →
    Node.sumOverList (fun n => n.Instances) (chunk.foldl foldSpan st).m_rootNodes =
      Node.sumOverList (fun n => n.Instances) st.m_rootNodes + chunk.length := by
  induction chunk with
  | nil => intro st _; simp
  | cons e chunk ih =>
    intro st h
    rw [List.foldl_cons, ih (foldSpan st e) (foldSpan_valid st e h).2,
      foldSpan_sumOverList (fun n => n.Instances) (fun _ => rfl) (fun _ _ => rfl) st e h]
    simp only [foldNode, List.length_cons, Nat.cast_add, Nat.cast_one]
    ring

theorem totalBefore_eq (st : FoldState) (e : Entry) :
    ((nodeAt (foldSpan st e).currentDstStack.reverse st.m_rootNodes).getD
      { Node.Reset with Name := e.Name }).TimeTotal = totalBefore st e := by
  unfold totalBefore
  cases nodeAt (foldSpan st e).currentDstStack.reverse st.m_rootNodes <;> rfl

theorem foldl_foldSpan_TimeTotal (chunk : List Entry) : ∀ (st : FoldState),
    (namesAlong st.currentDstStack.reverse st.m_rootNodes).length = st.currentDstStack.length →
    addsExactly st chunk = true →
    Node.sumOverList (fun n => n.TimeTotal) (chunk.foldl foldSpan st).m_rootNodes =
      Node.sumOverList (fun n => n.TimeTotal) st.m_rootNodes +
        (chunk.map (fun e => e.End - e.Beginning)).sum := by
  induction chunk with
  | nil => intro st _ _; simp
  | cons e chunk ih =>
    intro st h hexact
    simp only [addsExactly, Bool.and_eq_true, decide_eq_true_eq] at hexact
    rw [List.foldl_cons, ih (foldSpan st e) (foldSpan_valid st e h).2 hexact.2,
      foldSpan_sumOverList (fun n => n.TimeTotal) (fun _ => rfl) (fun _ _ => rfl) st e h]
    simp only [foldNode, totalBefore_eq, hexact.1, List.map_cons, List.sum_cons]
    ring

/-- C2 (counterexample): the spans `X[0,1)` and `X[2, 2^53+2)`, of durations 1 and `2^53`, are
folded into one node, whose `Instances` is 2; its `TimeTotal` ends as `2^53` (the double
addition `1 + 2^53` rounds), so the sum of `TimeTotal` over the tree has not grown by the sum
`2^53 + 1` of the durations, and the second span has not raised `TimeTotal` by its duration. -/
theorem UpdateCallback_TimeTotal_rounds :
    (exampleTracer.lockWeak exampleView.m_connectedThreadContext).isSome = true ∧
    (5 : Int) ≤ exampleView.m_connectionTimeoutTime ∧
    roundingChunk.map (fun e => e.End - e.Beginning) = [1, 9007199254740992] ∧
    (UpdateCallback exampleTracer 5 exampleView [⟨['X'], 0, 1, 0⟩] true).m_rootNodes.map
      (fun n => (n.Name, n.Instances, n.TimeTotal)) = [(['X'], 1, 1)] ∧
    (UpdateCallback exampleTracer 5 exampleView roundingChunk true).m_rootNodes.map
      (fun n => (n.Name, n.Instances, n.TimeTotal)) = [(['X'], 2, 9007199254740992)] ∧
    ¬ (Node.sumOverList (fun n => n.TimeTotal)
        (UpdateCallback exampleTracer 5 exampleView roundingChunk true).m_rootNodes =
      Node.sumOverList (fun n => n.TimeTotal) exampleView.m_rootNodes +
        (roundingChunk.map (fun e => e.End - e.Beginning)).sum) := by
  decide

/-- C2 (amended): on a connected, not timed-out view `UpdateCallback` runs its loop over the
batch (whatever the order of its spans); the iteration of the `k`-th span leaves the node on
top of the destination stack with `Instances` one more than that node had before (0 for a node
created in this iteration) and with `TimeTotal` the double sum of what it had and the double
difference `End - Beginning`, and leaves `Instances` and `TimeTotal` of every other node
unchanged; so over the whole tree the sum of `Instances` grows by the batch length, and the sum
of `TimeTotal` grows by the sum of the durations when no iteration loses anything to
rounding. -/
theorem UpdateCallback_counts_each_span_once (t : vaTracer) (now : Int) (v : vaTracerView)
    (chunk : List Entry) (inc : Bool)
    (hconn : (t.lockWeak v.m_connectedThreadContext).isSome = true)
    (htime : now ≤ v.m_connectionTimeoutTime) :
    (UpdateCallback t now v chunk inc).m_rootNodes =
        (loopStateAt v inc chunk chunk.length).m_rootNodes ∧
    (∀ (k : Nat) (hk : k < chunk.length),
      loopStateAt v inc chunk (k + 1) = foldSpan (loopStateAt v inc chunk k) chunk[k] ∧
      ∃ n', nodeAt (loopStateAt v inc chunk (k + 1)).currentDstStack.reverse
            (loopStateAt v inc chunk (k + 1)).m_rootNodes = some n' ∧
        n'.Instances =
          ((nodeAt (loopStateAt v inc chunk (k + 1)).currentDstStack.reverse
            (loopStateAt v inc chunk k).m_rootNodes).map (fun n => n.Instances)).getD 0 + 1 ∧
        n'.TimeTotal =
          roundDouble (((nodeAt (loopStateAt v inc chunk (k + 1)).currentDstStack.reverse
            (loopStateAt v inc chunk k).m_rootNodes).map (fun n => n.TimeTotal)).getD 0 +
              roundDouble (chunk[k].End - chunk[k].Beginning)) ∧
        ∀ q : List Nat, q ≠ (loopStateAt v inc chunk (k + 1)).currentDstStack.reverse →
          (nodeAt q (loopStateAt v inc chunk (k + 1)).m_rootNodes).map
              (fun n => (n.Instances, n.TimeTotal)) =
            (nodeAt q (loopStateAt v inc chunk k).m_rootNodes).map
              (fun n => (n.Instances, n.TimeTotal))) ∧
    Node.sumOverList (fun n => n.Instances) (UpdateCallback t now v chunk inc).m_rootNodes =
      Node.sumOverList (fun n => n.Instances) v.m_rootNodes + chunk.length ∧
    (addsExactly (loopInit (bumpFrame inc v)) chunk = true →
      Node.sumOverList (fun n => n.TimeTotal) (UpdateCallback t now v chunk inc).m_rootNodes =
        Node.sumOverList (fun n => n.TimeTotal) v.m_rootNodes +
          (chunk.map (fun e => e.End - e.Beginning)).sum) := by
  have hroots : (UpdateCallback t now v chunk inc).m_rootNodes =
      (chunk.foldl foldSpan (loopInit (bumpFrame inc v))).m_rootNodes := by
    rw [UpdateCallback_rootNodes t now v _ inc hconn htime]
    rfl
  have hinit : (loopInit (bumpFrame inc v)).m_rootNodes = v.m_rootNodes := bumpFrame_rootNodes inc v
  have hsum1 := foldl_foldSpan_Instances chunk _ (loopInit_valid (bumpFrame inc v))
  rw [hinit] at hsum1
  refine ⟨by rw [hroots, loopStateAt, List.take_length], ?_, by rw [hroots]; exact hsum1, ?_⟩
  · intro k hk
    have hstep : loopStateAt v inc chunk (k + 1) =
        foldSpan (loopStateAt v inc chunk k) chunk[k] := by
      simp only [loopStateAt]
      rw [List.take_succ, List.foldl_append, List.getElem?_eq_getElem hk]
      rfl
    have hv : (namesAlong (loopStateAt v inc chunk k).currentDstStack.reverse
        (loopStateAt v inc chunk k).m_rootNodes).length =
        (loopStateAt v inc chunk k).currentDstStack.length :=
      foldl_foldSpan_valid (chunk.take k) _ (loopInit_valid (bumpFrame inc v))
    refine ⟨hstep, ?_⟩
    rw [hstep]
    refine ⟨_, foldSpan_destination _ chunk[k] hv, ?_, ?_, ?_⟩
    · cases nodeAt _ _ <;> simp [foldNode, Node.Reset]
    · cases nodeAt _ _ <;> simp [foldNode, Node.Reset]
    · intro q hq
      simp only [foldSpan] at hq ⊢
      exact nodeAt_foldSpan_other _ _ _ _ _ _ q (by simpa using hq)
  · intro hexact
    have hsum2 := foldl_foldSpan_TimeTotal chunk _ (loopInit_valid (bumpFrame inc v)) hexact
    rw [hinit] at hsum2
    rw [hroots]
    exact hsum2

theorem UpdateCallback_counts_each_span_once_witness :
    ((exampleTracer.lockWeak exampleView.m_connectedThreadContext).isSome = true ∧
      (5 : Int) ≤ exampleView.m_connectionTimeoutTime ∧
      addsExactly (loopInit (bumpFrame true exampleView)) unorderedChunk = true) ∧
    Node.sumOverList (fun n => n.Instances)
        (UpdateCallback exampleTracer 5 exampleView unorderedChunk true).m_rootNodes =
      Node.sumOverList (fun n => n.Instances) exampleView.m_rootNodes + unorderedChunk.length ∧
    Node.sumOverList (fun n => n.TimeTotal)
        (UpdateCallback exampleTracer 5 exampleView unorderedChunk true).m_rootNodes =
      Node.sumOverList (fun n => n.TimeTotal) exampleView.m_rootNodes +
        (unorderedChunk.map (fun e => e.End - e.Beginning)).sum :=
  ⟨⟨by decide, by decide, by decide⟩,
    (UpdateCallback_counts_each_span_once exampleTracer 5 exampleView unorderedChunk true
      (by decide) (by decide)).2.2.1,
    (UpdateCallback_counts_each_span_once exampleTracer 5 exampleView unorderedChunk true
      (by decide) (by decide)).2.2.2 (by decide)⟩

/-- C3, the code at the failing input: two spans named `X` with durations 0 and 5 are folded
into one node, whose `TimeTotalMin` ends as 5 although the minimum of the durations is 0 (the
zero left by the first span is taken for the unset value). -/
theorem UpdateCallback_TimeTotalMin_loses_zero_duration :
    (UpdateCallback exampleTracer 5 exampleView zeroDurationChunk true).m_rootNodes.map
        (fun n => (n.Name, n.Instances, n.TimeTotalMin, n.TimeTotalMax)) = [(['X'], 2, 5, 5)] ∧
      (zeroDurationChunk.map (fun e => e.End - e.Beginning)).min? = some 0 := by
  decide

/-- C4: `UpdateCallback` returns the view unchanged (tree, statistics, frame counter, sort
counter and all other members) when the current time is past the connection deadline or when the
view is not connected, for every batch and flag; a call at the deadline itself on a connected
view is processed like any call before it: the frame counter is raised when asked for, the loop
runs and every span of the batch is counted. -/
theorem UpdateCallback_ignored_or_processed (t : vaTracer) (now : Int) (v : vaTracerView)
    (chunk : List Entry) (inc : Bool) :
    (now > v.m_connectionTimeoutTime → UpdateCallback t now v chunk inc = v) ∧
    ((t.lockWeak v.m_connectedThreadContext) = none → UpdateCallback t now v chunk inc = v) ∧
    (now = v.m_connectionTimeoutTime → (t.lockWeak v.m_connectedThreadContext).isSome = true →
      (UpdateCallback t now v chunk inc).m_frameCountWhileConnected =
          v.m_frameCountWhileConnected + (if inc then 1 else 0) ∧
        (UpdateCallback t now v chunk inc).m_rootNodes =
          (chunk.foldl foldSpan (loopInit (bumpFrame inc v))).m_rootNodes ∧
        Node.sumOverList (fun n => n.Instances) (UpdateCallback t now v chunk inc).m_rootNodes =
          Node.sumOverList (fun n => n.Instances) v.m_rootNodes + chunk.length) := by
  refine ⟨fun h => by simp [UpdateCallback, h], fun h => ?_, fun h1 h2 => ?_⟩
  · unfold UpdateCallback
    split
    · rfl
    · simp [h]
  · have hle : now ≤ v.m_connectionTimeoutTime := le_of_eq h1
    have hsum := foldl_foldSpan_Instances chunk _ (loopInit_valid (bumpFrame inc v))
    have hinit : (loopInit (bumpFrame inc v)).m_rootNodes = v.m_rootNodes :=
      bumpFrame_rootNodes inc v
    rw [hinit] at hsum
    rw [UpdateCallback_rootNodes t now v chunk inc h2 hle]
    refine ⟨?_, rfl, hsum⟩
    cases inc <;> simp [bumpFrame]

theorem UpdateCallback_ignored_or_processed_witness :
    (UpdateCallback exampleTracer 101 exampleView unorderedChunk true = exampleView) ∧
    (UpdateCallback exampleTracer 100 exampleView unorderedChunk true).m_frameCountWhileConnected =
      exampleView.m_frameCountWhileConnected + (if true = true then 1 else 0) :=
  ⟨(UpdateCallback_ignored_or_processed exampleTracer 101 exampleView unorderedChunk true).1
      (by decide),
    ((UpdateCallback_ignored_or_processed exampleTracer 100 exampleView unorderedChunk true).2.2
      (by decide) (by decide)).1⟩
/-! ## The eviction loop of `PostUpdateRecursive` -/

theorem modify_append_cons (f : Node → Node) (x : Node) (B : List Node) :
    ∀ A : List Node, (A ++ x :: B).modify f A.length = A ++ f x :: B
  | [] => rfl
  | a :: A => by
    simp only [List.cons_append, List.length_cons, List.modify_succ_cons, modify_append_cons f x B A]

theorem set_append_cons (x y : Node) (B : List Node) :
    ∀ A : List Node, (A ++ x :: B).set A.length y = A ++ y :: B
  | [] => rfl
  | a :: A => by
    simp only [List.cons_append, List.length_cons, List.set_cons_succ, set_append_cons x y B A]

theorem getElem?_append_cons (x : Node) (A B : List Node) : (A ++ x :: B)[A.length]? = some x := by
  rw [List.getElem?_append_right (le_refl _)]
  simp

theorem filter_keep_concat (H : NodeDecl) (A : List Node) (a : Node) :
    ((A ++ [a]).map H.PostUpdateRecursive).filter
        (fun node => decide (¬ node.LastSeenAge > H.LastSeenAgeToKeepAlive)) =
      (A.map H.PostUpdateRecursive).filter
          (fun node => decide (¬ node.LastSeenAge > H.LastSeenAgeToKeepAlive)) ++
        (if (H.PostUpdateRecursive a).LastSeenAge > H.LastSeenAgeToKeepAlive then []
          else [H.PostUpdateRecursive a]) := by
  by_cases hev : (H.PostUpdateRecursive a).LastSeenAge > H.LastSeenAgeToKeepAlive
  · simp [List.filter_append, List.filter_cons, hev]
  · have hk : (H.PostUpdateRecursive a).LastSeenAge ≤ H.LastSeenAgeToKeepAlive := not_lt.mp hev
    simp [List.filter_append, List.filter_cons, hev, hk]

/-- The eviction loop visits the roots `A` still to visit once each and keeps, next to the
roots `B` already kept, those of `A` whose `LastSeenAge` after the per-node pass does not exceed
the threshold. -/
theorem postUpdateLoop_perm (H : NodeDecl) : ∀ (A B : List Node),
    (postUpdateLoop H A.length (A ++ B)).Perm
      (((A.map H.PostUpdateRecursive).filter
          (fun node => decide (¬ node.LastSeenAge > H.LastSeenAgeToKeepAlive))) ++ B) := by
  intro A
  induction A using List.reverseRecOn with
  | nil => intro B; simp [postUpdateLoop]
  | append_singleton A a ih =>
    intro B
    have hlen : (A ++ [a]).length = A.length + 1 := by simp
    have hvis : (A ++ [a] ++ B).modify H.PostUpdateRecursive A.length =
        A ++ H.PostUpdateRecursive a :: B := by
      simpa using modify_append_cons H.PostUpdateRecursive a B A
    rw [hlen, postUpdateLoop, filter_keep_concat]
    simp only [hvis, getElem?_append_cons]
    rcases List.eq_nil_or_concat B with hB | ⟨B', b, hB⟩
    · subst hB
      have hlast : (A ++ [H.PostUpdateRecursive a]).getLast? = some (H.PostUpdateRecursive a) := by
        simp
      simp only [hlast]
      by_cases hev : (H.PostUpdateRecursive a).LastSeenAge > H.LastSeenAgeToKeepAlive
      · have hd : (A ++ [H.PostUpdateRecursive a]).dropLast = A := by simp
        simp only [hev, if_true, List.length_append, List.length_singleton,
          Nat.add_sub_cancel, lt_irrefl, if_false, hd, List.append_nil]
        simpa using ih []
      · simp only [hev, if_false]
        simpa using ih [H.PostUpdateRecursive a]
    · rw [List.concat_eq_append] at hB
      subst hB
      have hlast : (A ++ H.PostUpdateRecursive a :: (B' ++ [b])).getLast? = some b := by
        rw [show A ++ H.PostUpdateRecursive a :: (B' ++ [b]) =
          (A ++ H.PostUpdateRecursive a :: B') ++ [b] by simp]
        exact List.getLast?_concat _
      simp only [hlast]
      by_cases hev : (H.PostUpdateRecursive a).LastSeenAge > H.LastSeenAgeToKeepAlive
      · have hgt : (A ++ H.PostUpdateRecursive a :: (B' ++ [b])).length - 1 > A.length := by
          simp only [List.length_append, List.length_cons, List.length_nil]
          omega
        have hd : ((A ++ H.PostUpdateRecursive a :: (B' ++ [b])).set A.length b).dropLast =
            A ++ b :: B' := by
          rw [set_append_cons]
          rw [show A ++ b :: (B' ++ [b]) = (A ++ b :: B') ++ [b] by simp]
          exact List.dropLast_concat
        simp only [hev, if_true, hgt, hd, List.append_nil]
        refine (ih (b :: B')).trans ?_
        exact List.Perm.append_left _ (List.perm_append_singleton b B').symm
      · simp only [hev, if_false]
        refine (ih (H.PostUpdateRecursive a :: (B' ++ [b]))).trans ?_
        simp

theorem sortOrderLE_total : IsTotal Node sortOrderLE :=
  ⟨fun a b => le_total a.SortOrder b.SortOrder⟩

theorem sortOrderLE_trans : IsTrans Node sortOrderLE :=
  ⟨fun _ _ _ hab hbc => le_trans hab hbc⟩

theorem PostUpdateRecursive_perm (H : NodeDecl) (roots : List Node) :
    (PostUpdateRecursive H roots).Perm
      ((roots.map H.PostUpdateRecursive).filter
        (fun node => decide (¬ node.LastSeenAge > H.LastSeenAgeToKeepAlive))) := by
  unfold PostUpdateRecursive
  refine (List.perm_insertionSort _ _).trans ?_
  simpa using postUpdateLoop_perm H roots []

theorem PostUpdateRecursive_sorted (H : NodeDecl) (roots : List Node) :
    (PostUpdateRecursive H roots).Sorted sortOrderLE := by
  unfold PostUpdateRecursive
  haveI := sortOrderLE_total
  haveI := sortOrderLE_trans
  exact List.sorted_insertionSort _ _
/-! ## Connecting and disconnecting -/

/-- C5, the code at the failing input: asked for `Main` (no wildcard marker) while the only live
Timeline is `MainThread`, `ConnectToThreadContext` attaches the view to `MainThread`. -/
theorem ConnectToThreadContext_Main_attaches_MainThread :
    ConnectToThreadContext exampleDecl mainThreadTracer 1 freshView ['M', 'a', 'i', 'n'] 10 0 =
      Except.ok
        ({ heap := [some ⟨['M', 'a', 'i', 'n', 'T', 'h', 'r', 'e', 'a', 'd'], true, some 1⟩],
           s_threadContexts := [0] },
         { freshView with
           m_nameChanged := true
           m_connectionName := ['M', 'a', 'i', 'n', 'T', 'h', 'r', 'e', 'a', 'd']
           m_connectedThreadContext := some 0
           m_connectionTimeoutTime := 10 }) := by
  rfl

theorem findContext_none (t : vaTracer) (nameToSearch : Str) : ∀ (registry : List Nat),
    (∀ h ∈ registry, ∀ context, t.lock h = some context → nameMatches nameToSearch context = false) →
    findContext t nameToSearch registry = none
  | [], _ => rfl
  | h :: rest, hno => by
    have ih := findContext_none t nameToSearch rest
      (fun h' hh' => hno h' (List.mem_cons_of_mem _ hh'))
    simp only [findContext]
    cases hl : t.lock h with
    | none => exact ih
    | some context =>
      simp only [hno h (List.mem_cons_self _ _) context hl]
      exact ih

theorem connectLookup_no_match (H : NodeDecl) (t : vaTracer) (self : Nat) (v : vaTracerView)
    (name : Str) (timeout now : Int)
    (hno : ∀ h ∈ t.s_threadContexts, ∀ context, t.lock h = some context →
      nameMatches (nameToSearch name) context = false) :
    connectLookup H t self v name timeout now = (t, v) := by
  unfold connectLookup
  split
  · rfl
  · rw [findContext_none t _ _ hno]

/-- C6 (counterexample): with an empty registry nothing matches `Other`, yet whatever the
per-node passes of vaProfiler.h do, the call on a Disconnected view holding a tree does not
return with the tree it had. -/
theorem ConnectToThreadContext_no_match_not_noop :
    ¬ ∃ H : NodeDecl, ∃ r,
      ConnectToThreadContext H emptyTracer 1 disconnectedView ['O', 't', 'h', 'e', 'r'] 10 20 =
        Except.ok r ∧ r.2.m_rootNodes = disconnectedView.m_rootNodes := by
  rintro ⟨H, r, hr, hroots⟩
  have h : ConnectToThreadContext H emptyTracer 1 disconnectedView ['O', 't', 'h', 'e', 'r'] 10 20 =
      Except.ok (emptyTracer, { disconnectedView with m_nameChanged := true, m_rootNodes := [] }) := rfl
  rw [h] at hr
  injection hr with hr
  subst hr
  exact absurd (congrArg List.length hroots) (by decide)

/-- C6 (amended): when no live Timeline of the registry has a Name starting with the searched
string (`name` less a trailing `*`), `ConnectToThreadContext` on a Disconnected view returns with
the tracer unchanged (no `AttachedViewer` changes), the view still Disconnected and the connection
name as before; the call tree is as before when `name` is the stored connection name and is
discarded when it differs. -/
theorem ConnectToThreadContext_no_match (H : NodeDecl) (t : vaTracer) (self : Nat)
    (v : vaTracerView) (name : Str) (timeout now : Int)
    (hdis : t.lockWeak v.m_connectedThreadContext = none)
    (hno : ∀ h ∈ t.s_threadContexts, ∀ context, t.lock h = some context →
      nameMatches (nameToSearch name) context = false) :
    ConnectToThreadContext H t self v name timeout now =
      Except.ok (t,
        { v with
          m_nameChanged := decide (name ≠ v.m_connectionName)
          m_rootNodes := if name = v.m_connectionName then v.m_rootNodes else [] }) := by
  unfold ConnectToThreadContext
  simp only [hdis]
  by_cases hname : name = v.m_connectionName
  · simp only [hname, ne_eq, not_true_eq_false, if_false, if_true, decide_False]
    rw [connectLookup_no_match H t self _ _ timeout now (hname ▸ hno)]
  · simp only [hname, ne_eq, not_false_eq_true, if_true, if_false, decide_True]
    rw [connectLookup_no_match H t self _ _ timeout now hno]
    rfl

theorem ConnectToThreadContext_no_match_witness :
    (mainTracer.lockWeak disconnectedView.m_connectedThreadContext = none ∧
      ∀ h ∈ mainTracer.s_threadContexts, ∀ context, mainTracer.lock h = some context →
        nameMatches (nameToSearch ['M', 'a', 'i', 'l', '*']) context = false) ∧
    ConnectToThreadContext exampleDecl mainTracer 1 disconnectedView ['M', 'a', 'i', 'l', '*'] 10 20 =
      Except.ok (mainTracer,
        { disconnectedView with
          m_nameChanged := decide (['M', 'a', 'i', 'l', '*'] ≠ disconnectedView.m_connectionName)
          m_rootNodes :=
            if ['M', 'a', 'i', 'l', '*'] = disconnectedView.m_connectionName then
              disconnectedView.m_rootNodes
            else [] }) :=
  have hno : ∀ h ∈ mainTracer.s_threadContexts, ∀ context, mainTracer.lock h = some context →
      nameMatches (nameToSearch ['M', 'a', 'i', 'l', '*']) context = false := by
    intro h hh context hl
    have h0 : h = 0 := by simpa [mainTracer] using hh
    subst h0
    have hc : context = ⟨['M', 'a', 'i', 'n'], true, none⟩ := by
      have : mainTracer.lock 0 = some ⟨['M', 'a', 'i', 'n'], true, none⟩ := rfl
      rw [this] at hl
      exact (Option.some.inj hl).symm
    subst hc
    decide
  ⟨⟨rfl, hno⟩,
    ConnectToThreadContext_no_match exampleDecl mainTracer 1 disconnectedView
      ['M', 'a', 'i', 'l', '*'] 10 20 rfl hno⟩

/-- C7 (counterexample): the view was connected last to the Timeline with handle 0, called
`Main`, which is destroyed; another Timeline called `Main` (handle 1) is registered. Asked for
`Main`, the call attaches the view to Timeline 1, and whatever the per-node passes of
vaProfiler.h do, the root list is not empty then: the tree built from Timeline 0 is kept. -/
theorem ConnectToThreadContext_same_name_keeps_tree :
    ¬ ∃ H : NodeDecl, ∀ r,
      ConnectToThreadContext H restartedTracer 1 orphanedView ['M', 'a', 'i', 'n'] 10 20 =
        Except.ok r →
      r.2.m_connectedThreadContext = some 1 → r.2.m_rootNodes = [] := by
  rintro ⟨H, h⟩
  have hr : ConnectToThreadContext H restartedTracer 1 orphanedView ['M', 'a', 'i', 'n'] 10 20 =
      Except.ok
        ({ heap := [none, some ⟨['M', 'a', 'i', 'n'], true, some 1⟩], s_threadContexts := [0, 1] },
          { orphanedView with
            m_connectedThreadContext := some 1
            m_frameCountWhileConnected := 0
            m_lastConnectedTime := 20
            m_connectionTimeoutTime := 30
            m_rootNodes := PreUpdateRecursive H orphanedView.m_rootNodes }) := rfl
  have h0 := h _ hr rfl
  exact absurd (congrArg List.length h0) (by simp [PreUpdateRecursive, orphanedView, exampleTree])

theorem connectLookup_rootNodes (H : NodeDecl) (t : vaTracer) (self : Nat) (v : vaTracerView)
    (name : Str) (timeout now : Int) :
    (connectLookup H t self v name timeout now).2.m_rootNodes = v.m_rootNodes ∨
      (connectLookup H t self v name timeout now).2.m_rootNodes =
        PreUpdateRecursive H v.m_rootNodes := by
  unfold connectLookup
  split
  · exact Or.inl rfl
  · split
    · exact Or.inl rfl
    · exact Or.inr rfl

theorem detach_connectionName (t : vaTracer) (v : vaTracerView) :
    (detach t v).2.m_connectionName = v.m_connectionName := by
  unfold detach
  split
  · rfl
  · split <;> rfl

theorem Disconnect_connectionName (H : NodeDecl) (t : vaTracer) (v : vaTracerView)
    (sync : Option vaTracerView) :
    (Disconnect H t v sync).2.m_connectionName = v.m_connectionName :=
  detach_connectionName t v

/-- C7 (amended): whenever `ConnectToThreadContext` returns from a call with a name that differs
from the stored connection name, the call tree has been discarded, so the view is attached (if
at all) with an empty tree; when the name is the stored connection name, the roots of a
Disconnected view are kept (they only go through `PreUpdateRecursive` when a Timeline is
attached), whichever Timeline the name resolves to. -/
theorem ConnectToThreadContext_discards_tree_on_new_name (H : NodeDecl) (t : vaTracer) (self : Nat)
    (v : vaTracerView) (name : Str) (timeout now : Int) (r : vaTracer × vaTracerView)
    (hr : ConnectToThreadContext H t self v name timeout now = Except.ok r) :
    (name ≠ v.m_connectionName → r.2.m_rootNodes = []) ∧
    (name = v.m_connectionName → t.lockWeak v.m_connectedThreadContext = none →
      r.2.m_rootNodes = v.m_rootNodes ∨ r.2.m_rootNodes = PreUpdateRecursive H v.m_rootNodes) := by
  unfold ConnectToThreadContext at hr
  constructor
  · intro hname
    cases hl : t.lockWeak v.m_connectedThreadContext with
    | some c =>
      have hn : name ≠ (Disconnect H t v none).2.m_connectionName := by
        rw [Disconnect_connectionName]
        exact hname
      simp only [hl, hn, ne_eq, not_false_eq_true, if_true] at hr
      cases hr
    | none =>
      simp only [hl, hname, ne_eq, not_false_eq_true, if_true] at hr
      injection hr with hr
      subst hr
      rcases connectLookup_rootNodes H t self { v with m_nameChanged := true }.Reset name
        timeout now with h | h
      · rw [h]; rfl
      · rw [h]; rfl
  · intro hname hl
    simp only [hl, hname, ne_eq, not_true_eq_false, if_false] at hr
    injection hr with hr
    subst hr
    exact connectLookup_rootNodes H t self _ _ timeout now

theorem ConnectToThreadContext_discards_tree_on_new_name_witness :
    ConnectToThreadContext exampleDecl mainTracer 1 disconnectedView ['M', 'a', '*'] 10 20 =
      Except.ok
        ({ heap := [some ⟨['M', 'a', 'i', 'n'], true, some 1⟩], s_threadContexts := [0] },
          { disconnectedView with
            m_rootNodes := []
            m_nameChanged := true
            m_connectedThreadContext := some 0
            m_lastConnectedTime := 20
            m_connectionTimeoutTime := 30 }) ∧
    ['M', 'a', '*'] ≠ disconnectedView.m_connectionName ∧
    ({ disconnectedView with
          m_rootNodes := []
          m_nameChanged := true
          m_connectedThreadContext := some 0
          m_lastConnectedTime := 20
          m_connectionTimeoutTime := 30 } : vaTracerView).m_rootNodes = [] :=
  ⟨rfl, by decide,
    (ConnectToThreadContext_discards_tree_on_new_name exampleDecl mainTracer 1 disconnectedView
      ['M', 'a', '*'] 10 20 _ rfl).1 (by decide)⟩

/-- C8, the code at the failing input: view 1 and then view 2 connect to the only Timeline
`Main`, with no disconnect in between. Both calls return normally, both views end up holding a
live connection to Timeline 0, and the Timeline's `AttachedViewer` is view 2 only. -/
theorem ConnectToThreadContext_second_view_attaches_too :
    ∃ t1 v1 t2 v2,
      ConnectToThreadContext exampleDecl mainTracer 1 freshView ['M', 'a', 'i', 'n'] 10 0 =
        Except.ok (t1, v1) ∧
      ConnectToThreadContext exampleDecl t1 2 freshView ['M', 'a', 'i', 'n'] 10 0 =
        Except.ok (t2, v2) ∧
      v1.m_connectedThreadContext = some 0 ∧ v2.m_connectedThreadContext = some 0 ∧
      (t2.lockWeak v1.m_connectedThreadContext).isSome = true ∧
      (t2.lockWeak v2.m_connectedThreadContext).isSome = true ∧
      (t1.lock 0).map (fun c => c.AttachedViewer) = some (some 1) ∧
      (t2.lock 0).map (fun c => c.AttachedViewer) = some (some 2) :=
  ⟨_, _, _, _, rfl, rfl, rfl, rfl, rfl, rfl, rfl, rfl⟩

/-- C9 (counterexample): a Disconnected view holds the roots `A` (`SortOrder` 1) and `B`
(`SortOrder` 0) in this order. Whatever the per-node passes of vaProfiler.h do, `Disconnect( )`
does not leave the root list as it was. -/
theorem Disconnect_disconnected_not_noop :
    ¬ ∃ H : NodeDecl,
      (Disconnect H emptyTracer unsortedView none).2.m_rootNodes = unsortedView.m_rootNodes := by
  rintro ⟨H, h⟩
  have hs := PostUpdateRecursive_sorted H unsortedView.m_rootNodes
  have h' : PostUpdateRecursive H unsortedView.m_rootNodes = unsortedView.m_rootNodes := h
  rw [h'] at hs
  simp [unsortedView, sortOrderLE, leaf] at hs

/-- C9 (amended): `Disconnect( )` on a Disconnected view leaves the tracer (every Timeline) and
the connection members of the view as they were and sets the frame counter to 0, but it runs
the aging pass: the new root list is `PostUpdateRecursive` of the old one, that is, sorted by
`SortOrder`, the roots whose `LastSeenAge` after their per-node pass does not exceed the
threshold, each once. -/
theorem Disconnect_disconnected_runs_aging_pass (H : NodeDecl) (t : vaTracer) (v : vaTracerView)
    (hdis : t.lockWeak v.m_connectedThreadContext = none) :
    Disconnect H t v none =
        (t, { v with
              m_rootNodes := PostUpdateRecursive H v.m_rootNodes
              m_frameCountWhileConnected := 0 }) ∧
      (PostUpdateRecursive H v.m_rootNodes).Perm
        ((v.m_rootNodes.map H.PostUpdateRecursive).filter
          (fun node => decide (¬ node.LastSeenAge > H.LastSeenAgeToKeepAlive))) ∧
      (PostUpdateRecursive H v.m_rootNodes).Sorted sortOrderLE := by
  refine ⟨?_, PostUpdateRecursive_perm H _, PostUpdateRecursive_sorted H _⟩
  have hd : detach t v = (t, v) := by
    unfold detach
    cases hc : v.m_connectedThreadContext with
    | none => rfl
    | some h =>
      have : t.lock h = none := by simpa [vaTracer.lockWeak, hc] using hdis
      simp [this]
  simp [Disconnect, hd, syncedRoots]

theorem Disconnect_disconnected_runs_aging_pass_witness :
    emptyTracer.lockWeak unsortedView.m_connectedThreadContext = none ∧
    Disconnect exampleDecl emptyTracer unsortedView none =
        (emptyTracer, { unsortedView with
              m_rootNodes := PostUpdateRecursive exampleDecl unsortedView.m_rootNodes
              m_frameCountWhileConnected := 0 }) ∧
    PostUpdateRecursive exampleDecl unsortedView.m_rootNodes = [leaf ['B'] 0 0, leaf ['A'] 1 0] :=
  ⟨rfl, (Disconnect_disconnected_runs_aging_pass exampleDecl emptyTracer unsortedView rfl).1, rfl⟩

/-- C10: for every root list and every per-node pass, the root list after
`vaTracerView::PostUpdateRecursive` holds, each once, exactly the previous roots, as left by
their per-node pass, whose `LastSeenAge` does not exceed `LastSeenAgeToKeepAlive`; this is so
already at the end of the eviction loop, which visits every root once: the swap with the last
root neither drops nor duplicates a kept root. -/
theorem PostUpdateRecursive_keeps_young_roots_once (H : NodeDecl) (roots : List Node) :
    (postUpdateLoop H roots.length roots).Perm
        ((roots.map H.PostUpdateRecursive).filter
          (fun node => decide (¬ node.LastSeenAge > H.LastSeenAgeToKeepAlive))) ∧
      (PostUpdateRecursive H roots).Perm
        ((roots.map H.PostUpdateRecursive).filter
          (fun node => decide (¬ node.LastSeenAge > H.LastSeenAgeToKeepAlive))) :=
  ⟨by simpa using postUpdateLoop_perm H roots [], PostUpdateRecursive_perm H roots⟩

/-! ## The text of the report -/

theorem intercalate_cons_cons (sep x y : Str) (l : List Str) :
    sep.intercalate (x :: y :: l) = x ++ sep ++ sep.intercalate (y :: l) := by
  simp [List.intercalate, List.intersperse]

theorem intercalate_singleton (sep x : Str) : sep.intercalate [x] = x := by
  simp [List.intercalate, List.intersperse]

theorem intercalate_append (sep : Str) : ∀ (xs ys : List Str), xs ≠ [] → ys ≠ [] →
    sep.intercalate (xs ++ ys) = sep.intercalate xs ++ sep ++ sep.intercalate ys
  | [], _, h, _ => absurd rfl h
  | [x], y :: ys, _, _ => by
    simp [intercalate_cons_cons, intercalate_singleton]
  | x :: x' :: xs, ys, _, hy => by
    have ih := intercalate_append sep (x' :: xs) ys (by simp) hy
    simp only [List.cons_append] at ih ⊢
    rw [intercalate_cons_cons, ih, intercalate_cons_cons]
    simp [List.append_assoc]

/-- The inner loop writes the records of the thread, one comma between two of them. -/
theorem dumpEntries_eq (showNumber : Int → Str) (now : Int) (name : Str) :
    ∀ (entries : List Entry) (os : Str),
      dumpEntries showNumber now name os entries =
        os ++ [','].intercalate (entries.map (fun e => entryText showNumber now name e ++ ['}']))
  | [], os => by simp [dumpEntries, List.intercalate]
  | [e], os => by simp [dumpEntries, intercalate_singleton]
  | e :: e' :: rest, os => by
    rw [dumpEntries, dumpEntries_eq showNumber now name (e' :: rest)]
    simp only [List.map_cons, intercalate_cons_cons]
    have : "\x7d,".toList = ['}', ','] := rfl
    simp [this, List.append_assoc]

/-- The outer loop keeps the stream equal to the records written so far, one comma between two of
them, and the flag equal to `some record has been written`. -/
theorem foldl_dumpThread (showNumber : Int → Str) (now : Int) :
    ∀ (threads : List ThreadData) (done : List Str),
      threads.foldl (dumpThread showNumber now)
          (['['] ++ [','].intercalate done, !done.isEmpty) =
        (['['] ++ [','].intercalate (done ++ reportRecords showNumber now threads),
          !(done ++ reportRecords showNumber now threads).isEmpty)
  | [], done => by simp [reportRecords]
  | d :: threads, done => by
    have ih := foldl_dumpThread showNumber now threads
      (done ++ d.Timeline.map (fun e => entryText showNumber now d.Name e ++ ['}']))
    have hrec : reportRecords showNumber now (d :: threads) =
        d.Timeline.map (fun e => entryText showNumber now d.Name e ++ ['}']) ++
          reportRecords showNumber now threads := by
      simp [reportRecords]
    rw [List.foldl_cons, hrec, ← List.append_assoc, ← ih]
    congr 1
    simp only [dumpThread, dumpEntries_eq]
    cases hT : d.Timeline with
    | nil => simp [List.intercalate]
    | cons e es =>
      cases hd : done with
      | nil => simp [List.intercalate]
      | cons r rs =>
        have := intercalate_append [','] (r :: rs)
          ((e :: es).map (fun e => entryText showNumber now d.Name e ++ ['}'])) (by simp) (by simp)
        simp only [Bool.and_eq_true, List.isEmpty_cons, Bool.not_false, List.length_cons,
          decide_eq_true_eq, true_and, gt_iff_lt, Nat.zero_lt_succ, if_true, List.map_cons] at this ⊢
        rw [this]
        simp [List.append_assoc]

theorem dumpReport_eq (showNumber : Int → Str) (now : Int) (threadsData : List ThreadData) :
    dumpReport showNumber now threadsData =
      ['['] ++ [','].intercalate (reportRecords showNumber now threadsData) ++ [']', '\n'] := by
  have h := foldl_dumpThread showNumber now threadsData []
  have h0 : [','].intercalate ([] : List Str) = [] := rfl
  simp only [h0, List.append_nil, List.isEmpty_nil, Bool.not_true, List.nil_append] at h
  simp only [dumpReport, h]
  rfl


/-- C16: for every list of thread groups (empty and non-empty ones in any positions) the text
of the dump step is `[`, then the records of all entries in order with exactly one comma between
two consecutive records (none before the first, none after the last, also across groups and
across empty groups between them), then `]` and a newline; a record is
`{"cat":"va","name":"<span name>","ph":"X","pid":1,"tid":"<thread name>","ts":<ts>,"dur":<dur>}`,
and `CreateChromeTracingReport` returns this text for the sorted and pruned groups. -/
theorem dumpReport_text (showNumber : Int → Str) (now : Int) :
    (∀ threadsData : List ThreadData,
      dumpReport showNumber now threadsData =
        ['['] ++ [','].intercalate (reportRecords showNumber now threadsData) ++ [']', '\n']) ∧
    (∀ (threadName : Str) (e : Entry),
      entryText showNumber now threadName e ++ ['}'] =
        "\x7b\"cat\":\"va\",\"name\":\"".toList ++ e.Name ++
          "\",\"ph\":\"X\",\"pid\":1,\"tid\":\"".toList ++ threadName ++
          "\",\"ts\":".toList ++ showNumber (entryTs now e) ++
          ",\"dur\":".toList ++ showNumber (entryDur e) ++ "\x7d".toList) ∧
    (∀ (Capture : Nat → List Entry) (t : vaTracer) (duration : Int),
      (CreateChromeTracingReport showNumber Capture t now duration).map (fun r => r.1) =
        (collectThreads Capture t).map
          (fun r => dumpReport showNumber now (sortAndPrune (now - duration) r.1))) := by
  refine ⟨fun threadsData => ?_, fun threadName e => ?_, fun Capture t duration => ?_⟩
  · exact dumpReport_eq showNumber now threadsData
  · simp only [entryText]
    have h1 : "\x7b\"cat\":\"va\",\"name\":\"".toList =
        "\x7b\"cat\":\"va\",".toList ++ "\"name\":\"".toList := rfl
    have h2 : "\",\"ph\":\"X\",\"pid\":1,\"tid\":\"".toList =
        "\",".toList ++ "\"ph\":\"X\",".toList ++ "\"pid\":1,".toList ++ "\"tid\":\"".toList := rfl
    have h3 : "\",\"ts\":".toList = "\",".toList ++ "\"ts\":".toList := rfl
    have h4 : ",\"dur\":".toList = [','] ++ "\"dur\":".toList := rfl
    have h5 : "\x7d".toList = ['}'] := rfl
    rw [h1, h2, h3, h4, h5]
    simp only [List.append_assoc]
  · simp only [CreateChromeTracingReport, Option.map_map]
    rfl

/-! ## Pruning and sorting the threads -/

theorem pruneOld_of_ge (oldest : Int) : ∀ (log : List Entry),
    (∀ e ∈ log, oldest ≤ e.Beginning) → pruneOld oldest log = log
  | [], _ => rfl
  | e :: rest, h => by
    have := h e (List.mem_cons_self _ _)
    simp [pruneOld, not_lt.mpr this]

theorem pruneOld_sorted (oldest : Int) : ∀ (log : List Entry),
    log.Pairwise (fun a b => a.Beginning ≤ b.Beginning) →
    pruneOld oldest log = log.filter (fun e => decide (e.Beginning ≥ oldest))
  | [], _ => rfl
  | e :: rest, h => by
    rw [List.pairwise_cons] at h
    by_cases he : e.Beginning < oldest
    · simp only [pruneOld, he, if_true]
      rw [pruneOld_sorted oldest rest h.2]
      simp [List.filter_cons, not_le.mpr he]
    · have hge : oldest ≤ e.Beginning := not_lt.mp he
      have hall : ∀ x ∈ e :: rest, oldest ≤ x.Beginning := by
        intro x hx
        rcases List.mem_cons.mp hx with rfl | hx
        · exact hge
        · exact le_trans hge (h.1 x hx)
      rw [pruneOld_of_ge oldest _ hall]
      refine (List.filter_eq_self.mpr ?_).symm
      intro x hx
      simpa using hall x hx

theorem pruneOld_suffix (oldest : Int) : ∀ (log : List Entry), pruneOld oldest log <:+ log
  | [] => List.suffix_refl _
  | e :: rest => by
    simp only [pruneOld]
    split
    · exact (pruneOld_suffix oldest rest).trans (List.suffix_cons e rest)
    · exact List.suffix_refl _

theorem reportRecords_sortAndPrune (showNumber : Int → Str) (now oldest : Int)
    (threadsData : List ThreadData) :
    reportRecords showNumber now (sortAndPrune oldest threadsData) =
      (sortThreads threadsData).flatMap
        (fun d => (pruneOld oldest d.Timeline).map
          (fun e => entryText showNumber now d.Name e ++ ['}'])) := by
  simp [reportRecords, sortAndPrune, List.flatMap_map]

/-- C12: for a Timeline log with non-decreasing `Beginning` the prune loop leaves exactly the
spans with `Beginning >= now - duration` (the bound included) in their order, so the records that
the report holds for the Timeline are the records of exactly these spans; with `Beginning`
values `t-20, t-5, t-1`, `now = t` and `duration = 10`, the last two are left. -/
theorem pruneOld_keeps_window (now duration : Int) :
    (∀ log : List Entry, log.Pairwise (fun a b => a.Beginning ≤ b.Beginning) →
      pruneOld (now - duration) log =
          log.filter (fun e => decide (e.Beginning ≥ now - duration)) ∧
        ∀ (showNumber : Int → Str) (name : Str),
          reportRecords showNumber now (sortAndPrune (now - duration) [⟨name, log⟩]) =
            (log.filter (fun e => decide (e.Beginning ≥ now - duration))).map
              (fun e => entryText showNumber now name e ++ ['}'])) ∧
    (∀ (a b c : Str) (ea eb ec : Int) (da db dc : Int),
      pruneOld (now - 10) [⟨a, now - 20, ea, da⟩, ⟨b, now - 5, eb, db⟩, ⟨c, now - 1, ec, dc⟩] =
        [⟨b, now - 5, eb, db⟩, ⟨c, now - 1, ec, dc⟩]) ∧
    (∀ (a b : Str) (ea eb : Int) (da db : Int),
      pruneOld (now - duration) [⟨a, now - duration - 1, ea, da⟩, ⟨b, now - duration, eb, db⟩] =
        [⟨b, now - duration, eb, db⟩]) := by
  refine ⟨fun log hs => ⟨pruneOld_sorted _ log hs, fun showNumber name => ?_⟩, ?_, ?_⟩
  · rw [reportRecords_sortAndPrune]
    simp [sortThreads, pruneOld_sorted _ log hs]
  · intro a b c ea eb ec da db dc
    simp [pruneOld]
  · intro a b ea eb da db
    simp [pruneOld]

theorem pruneOld_keeps_window_witness :
    ([⟨['a'], 80, 81, 0⟩, ⟨['b'], 95, 96, 0⟩, ⟨['c'], 99, 100, 0⟩] : List Entry).Pairwise
        (fun a b => a.Beginning ≤ b.Beginning) ∧
      pruneOld (100 - 10) [⟨['a'], 80, 81, 0⟩, ⟨['b'], 95, 96, 0⟩, ⟨['c'], 99, 100, 0⟩] =
        ([⟨['a'], 80, 81, 0⟩, ⟨['b'], 95, 96, 0⟩, ⟨['c'], 99, 100, 0⟩] : List Entry).filter
          (fun e => decide (e.Beginning ≥ 100 - 10)) :=
  ⟨by decide,
    ((pruneOld_keeps_window 100 10).1 [⟨['a'], 80, 81, 0⟩, ⟨['b'], 95, 96, 0⟩, ⟨['c'], 99, 100, 0⟩]
      (by decide)).1⟩

theorem threadNameLE_total : IsTotal ThreadData threadNameLE :=
  ⟨fun a b => le_total a.Name b.Name⟩

theorem threadNameLE_trans : IsTrans ThreadData threadNameLE :=
  ⟨fun _ _ _ hab hbc => le_trans hab hbc⟩

/-- The sort keeps the threads of one name in their order. -/
theorem sortThreads_stable (threadsData : List ThreadData) (name : Str) :
    (sortThreads threadsData).filter (fun d => decide (d.Name = name)) =
      threadsData.filter (fun d => decide (d.Name = name)) := by
  have hpw : (threadsData.filter (fun d => decide (d.Name = name))).Pairwise threadNameLE := by
    rw [List.pairwise_iff_forall_sublist]
    intro a b hab
    have ha : a ∈ threadsData.filter (fun d => decide (d.Name = name)) :=
      hab.subset (List.mem_cons_self _ _)
    have hb : b ∈ threadsData.filter (fun d => decide (d.Name = name)) :=
      hab.subset (List.mem_cons_of_mem _ (List.mem_cons_self _ _))
    simp only [List.mem_filter, decide_eq_true_eq] at ha hb
    simp [threadNameLE, ha.2, hb.2]
  have hsub : (threadsData.filter (fun d => decide (d.Name = name))).Sublist
      (sortThreads threadsData) :=
    List.sublist_insertionSort hpw (List.filter_sublist _)
  have hsub2 : (threadsData.filter (fun d => decide (d.Name = name))).Sublist
      ((sortThreads threadsData).filter (fun d => decide (d.Name = name))) := by
    have := hsub.filter (fun d => decide (d.Name = name))
    simpa using this
  have hlen : ((sortThreads threadsData).filter (fun d => decide (d.Name = name))).length =
      (threadsData.filter (fun d => decide (d.Name = name))).length :=
    ((List.perm_insertionSort threadNameLE threadsData).filter _).length_eq
  exact (hsub2.eq_of_length hlen.symm).symm

/-- C13: the text of the report is `[`, the records, one comma between two of them, `]` and a
newline, where the records are those of the first thread group of the sorted list, then those of
the second one, and so on (the records of one Timeline are contiguous); the sorted list holds
the collected groups, each once, in ascending order of name, the groups of one name in the order
in which they were collected (registry order), so the sequence of `tid` values is
non-decreasing; and the entries left in a group by the pruning are a suffix of its Timeline, in
their order. -/
theorem report_groups_ordered (showNumber : Int → Str) (now oldest : Int)
    (threadsData : List ThreadData) :
    dumpReport showNumber now (sortAndPrune oldest threadsData) =
        ['['] ++ [','].intercalate
          ((sortThreads threadsData).flatMap
            (fun d => (pruneOld oldest d.Timeline).map
              (fun e => entryText showNumber now d.Name e ++ ['}']))) ++ [']', '\n'] ∧
    (sortThreads threadsData).Perm threadsData ∧
    (sortThreads threadsData).Pairwise (fun a b => a.Name ≤ b.Name) ∧
    (∀ name : Str, (sortThreads threadsData).filter (fun d => decide (d.Name = name)) =
      threadsData.filter (fun d => decide (d.Name = name))) ∧
    ((sortAndPrune oldest threadsData).flatMap
      (fun d => d.Timeline.map (fun _ => d.Name))).Pairwise (fun a b => a ≤ b) ∧
    (∀ log : List Entry, pruneOld oldest log <:+ log) := by
  have hsorted : (sortThreads threadsData).Pairwise (fun a b => a.Name ≤ b.Name) := by
    haveI := threadNameLE_total
    haveI := threadNameLE_trans
    exact List.sorted_insertionSort threadNameLE threadsData
  refine ⟨?_, List.perm_insertionSort _ _, hsorted, sortThreads_stable threadsData, ?_,
    pruneOld_suffix oldest⟩
  · rw [dumpReport_eq, reportRecords_sortAndPrune]
  · simp only [sortAndPrune, List.flatMap_map]
    generalize sortThreads threadsData = l at hsorted
    induction l with
    | nil => simp
    | cons d l ih =>
      rw [List.pairwise_cons] at hsorted
      simp only [List.flatMap_cons, List.pairwise_append]
      refine ⟨?_, ih hsorted.2, ?_⟩
      · rw [List.pairwise_map]
        exact List.pairwise_of_forall (fun _ _ => le_refl _)
      intro a ha b hb
      simp only [List.mem_map, List.mem_flatMap] at ha hb
      obtain ⟨_, _, rfl⟩ := ha
      obtain ⟨d', hd', _, _, rfl⟩ := hb
      exact hsorted.1 d' hd'

/-- C14, the code at two failing inputs: with the registry `[dead, live]` the walk erases the dead
entry and never looks at the live Timeline `Main` behind it (no name is listed, no thread is
collected, although `Main` is alive and stays registered); with the registry `[live, dead]` the
iterator ends up beyond `end( )` after the erase and the next iteration reads outside the vector. -/
theorem registry_walk_skips_or_overruns :
    ListAllThreadNames { restartedTracer with s_threadContexts := [0, 1] } =
        some ([], { restartedTracer with s_threadContexts := [1] }) ∧
      (collectThreads (fun _ => []) { restartedTracer with s_threadContexts := [0, 1] }).map
        (fun r => r.1) = some [] ∧
      ListAllThreadNames { restartedTracer with s_threadContexts := [1, 0] } = none ∧
      collectThreads (fun _ => []) { restartedTracer with s_threadContexts := [1, 0] } = none := by
  decide

/-- C15 (counterexample): the same span (`Beginning` 5, `End` 7) exported at `now = 100` and at
`now = 200` gets two different `ts` values. -/
theorem entryTs_depends_on_now :
    ¬ (entryTs 100 ⟨['x'], 5, 7, 0⟩ = entryTs 200 ⟨['x'], 5, 7, 0⟩) := by
  decide

/-- C15 (amended): the `ts` of an exported span is its `Beginning` measured from the time of
the export, in microseconds: the double product by 1000000 of the double difference
`Beginning - now`, with `now` read when the export runs; it is 0 exactly when the export is made
at `now = Beginning` and negative exactly when the span began before the export, so it is not
the same for all times of export; `dur` is the double product by 1000000 of the double
difference `End - Beginning`, whatever `now` is; these are the two values printed in the
record. -/
theorem entry_ts_dur (showNumber : Int → Str) (now : Int) (threadName : Str) (e : Entry) :
    entryTs now e = roundDouble (roundDouble (e.Beginning - now) * 1000000) ∧
    entryDur e = roundDouble (roundDouble (e.End - e.Beginning) * 1000000) ∧
    (entryTs now e = 0 ↔ now = e.Beginning) ∧
    (entryTs now e < 0 ↔ e.Beginning < now) ∧
    entryText showNumber now threadName e ++ ['}'] =
      "\x7b\"cat\":\"va\",\"name\":\"".toList ++ e.Name ++
        "\",\"ph\":\"X\",\"pid\":1,\"tid\":\"".toList ++ threadName ++
        "\",\"ts\":".toList ++
        showNumber (roundDouble (roundDouble (e.Beginning - now) * 1000000)) ++
        ",\"dur\":".toList ++
        showNumber (roundDouble (roundDouble (e.End - e.Beginning) * 1000000)) ++
        "\x7d".toList := by
  refine ⟨rfl, rfl, ?_, ?_, ?_⟩
  · simp only [entryTs]
    rw [(roundDouble_sign _).1]
    constructor
    · intro h
      have h0 : roundDouble (e.Beginning - now) = 0 := by
        rcases mul_eq_zero.mp h with h0 | h0
        · exact h0
        · omega
      have := (roundDouble_sign _).1.mp h0
      omega
    · rintro rfl
      have h0 : roundDouble (e.Beginning - e.Beginning) = 0 :=
        (roundDouble_sign _).1.mpr (by omega)
      rw [h0]
      rfl
  · simp only [entryTs]
    rw [(roundDouble_sign _).2]
    constructor
    · intro h
      have h0 : roundDouble (e.Beginning - now) < 0 := by omega
      have := (roundDouble_sign _).2.mp h0
      omega
    · intro h
      have h0 : roundDouble (e.Beginning - now) < 0 := (roundDouble_sign _).2.mpr (by omega)
      omega
  · simp only [entryText, entryTs, entryDur]
    have h1 : "\x7b\"cat\":\"va\",\"name\":\"".toList =
        "\x7b\"cat\":\"va\",".toList ++ "\"name\":\"".toList := rfl
    have h2 : "\",\"ph\":\"X\",\"pid\":1,\"tid\":\"".toList =
        "\",".toList ++ "\"ph\":\"X\",".toList ++ "\"pid\":1,".toList ++ "\"tid\":\"".toList := rfl
    have h3 : "\",\"ts\":".toList = "\",".toList ++ "\"ts\":".toList := rfl
    have h4 : ",\"dur\":".toList = [','] ++ "\"dur\":".toList := rfl
    have h5 : "\x7d".toList = ['}'] := rfl
    rw [h1, h2, h3, h4, h5]
    simp only [List.append_assoc]

/-! ## Reading the names back from the report -/

/-- C17 (counterexample): the span `a` on the Timeline `b","ph":"X","pid":1,"tid":"c` and the span
`a","ph":"X","pid":1,"tid":"b` on the Timeline `c` have the same numeric fields and different
names, and for no number format and no `now` do their reports differ. -/
theorem dumpReport_not_injective :
    (∀ now : Int, (reportFields now quotedThread).map (fun f => f.2.2) =
      (reportFields now quotedSpan).map (fun f => f.2.2)) ∧
    (∀ now : Int, (reportFields now quotedThread).map (fun f => (f.1, f.2.1)) ≠
      (reportFields now quotedSpan).map (fun f => (f.1, f.2.1))) ∧
    ¬ ∃ (showNumber : Int → Str) (now : Int),
      dumpReport showNumber now quotedThread ≠ dumpReport showNumber now quotedSpan := by
  refine ⟨fun _ => rfl, fun _ h => ?_, ?_⟩
  · have h' : [((['a'] : Str), "b\",\"ph\":\"X\",\"pid\":1,\"tid\":\"c".toList)] =
        [("a\",\"ph\":\"X\",\"pid\":1,\"tid\":\"b".toList, (['c'] : Str))] := h
    exact absurd h' (by decide)
  rintro ⟨showNumber, now, h⟩
  exact h rfl

theorem quote_split : ∀ (a b x y : Str), '"' ∉ a → '"' ∉ b → a ++ '"' :: x = b ++ '"' :: y →
    a = b ∧ x = y
  | [], [], x, y, _, _, h => by simpa using h
  | [], c :: b, x, y, _, hb, h => by
    simp only [List.nil_append, List.cons_append, List.cons.injEq] at h
    exact absurd (h.1 ▸ List.mem_cons_self _ _ : '"' ∈ c :: b) hb
  | c :: a, [], x, y, ha, _, h => by
    simp only [List.nil_append, List.cons_append, List.cons.injEq] at h
    exact absurd (h.1 ▸ List.mem_cons_self _ _ : '"' ∈ c :: a) ha
  | c :: a, c' :: b, x, y, ha, hb, h => by
    simp only [List.cons_append, List.cons.injEq] at h
    have := quote_split a b x y (fun hm => ha (List.mem_cons_of_mem _ hm))
      (fun hm => hb (List.mem_cons_of_mem _ hm)) h.2
    simp [h.1, this.1, this.2]

theorem entryText_fields (showNumber : Int → Str) (now : Int) (name : Str) (e : Entry) :
    entryText showNumber now name e ++ ['}'] =
        "\x7b\"cat\":\"va\",\"name\":\"".toList ++
          (e.Name ++ '"' :: (",\"ph\":\"X\",\"pid\":1,\"tid\":\"".toList ++
            (name ++ '"' :: (",\"ts\":".toList ++ (showNumber (entryTs now e) ++
              (",\"dur\":".toList ++ (showNumber (entryDur e) ++ ['}']))))))) := by
  simp only [entryText]
  have h1 : "\x7b\"cat\":\"va\",\"name\":\"".toList =
      "\x7b\"cat\":\"va\",".toList ++ "\"name\":\"".toList := rfl
  have h3 : ∀ x : Str, '"' :: (",\"ts\":".toList ++ x) = "\",".toList ++ ("\"ts\":".toList ++ x) :=
    fun _ => rfl
  have h4 : ∀ x : Str, ",\"dur\":".toList ++ x = [','] ++ ("\"dur\":".toList ++ x) := fun _ => rfl
  have h2' : ∀ x : Str, '"' :: (",\"ph\":\"X\",\"pid\":1,\"tid\":\"".toList ++ x) =
      "\",".toList ++ ("\"ph\":\"X\",".toList ++ ("\"pid\":1,".toList ++ ("\"tid\":\"".toList ++ x))) :=
    fun _ => rfl
  rw [h1, h2', h3, h4]
  simp only [List.append_assoc]

/-- The records of the report from the fields. -/
theorem reportRecords_fields (showNumber : Int → Str) (now : Int) (threadsData : List ThreadData) :
    reportRecords showNumber now threadsData =
      (reportFields now threadsData).map (fun f =>
        "\x7b\"cat\":\"va\",\"name\":\"".toList ++
          (f.1 ++ '"' :: (",\"ph\":\"X\",\"pid\":1,\"tid\":\"".toList ++
            (f.2.1 ++ '"' :: (",\"ts\":".toList ++ (showNumber f.2.2.1 ++
              (",\"dur\":".toList ++ (showNumber f.2.2.2 ++ ['}'])))))))) := by
  simp only [reportRecords, reportFields, List.map_flatMap, List.map_map, Function.comp_def,
    entryText_fields]

theorem fields_injective (P M Q : Str) (N : Int × Int → Str) (tail : Str) :
    ∀ (l1 l2 : List (Str × Str × Int × Int)),
      l1.map (fun f => f.2.2) = l2.map (fun f => f.2.2) →
      (∀ f ∈ l1, '"' ∉ f.1 ∧ '"' ∉ f.2.1) → (∀ f ∈ l2, '"' ∉ f.1 ∧ '"' ∉ f.2.1) →
      [','].intercalate (l1.map (fun f => P ++ (f.1 ++ '"' :: (M ++ (f.2.1 ++ '"' :: (Q ++ N f.2.2)))))) ++ tail =
        [','].intercalate (l2.map (fun f => P ++ (f.1 ++ '"' :: (M ++ (f.2.1 ++ '"' :: (Q ++ N f.2.2)))))) ++ tail →
      l1 = l2
  | [], [], _, _, _, _ => rfl
  | [], _ :: _, hn, _, _, _ => by simp at hn
  | _ :: _, [], hn, _, _, _ => by simp at hn
  | f1 :: r1, f2 :: r2, hn, h1, h2, h => by
    simp only [List.map_cons, List.cons.injEq] at hn
    obtain ⟨hnum, hrest⟩ := hn
    have q1 := h1 f1 (List.mem_cons_self _ _)
    have q2 := h2 f2 (List.mem_cons_self _ _)
    have step : ∀ (x y : Str),
        P ++ (f1.1 ++ '"' :: (M ++ (f1.2.1 ++ '"' :: (Q ++ N f1.2.2)))) ++ x =
          P ++ (f2.1 ++ '"' :: (M ++ (f2.2.1 ++ '"' :: (Q ++ N f2.2.2)))) ++ y →
        f1 = f2 ∧ x = y := by
      intro x y hxy
      simp only [List.append_assoc, List.cons_append] at hxy
      have ha := quote_split _ _ _ _ q1.1 q2.1 (List.append_cancel_left hxy)
      have hb := quote_split _ _ _ _ q1.2 q2.2 (List.append_cancel_left ha.2)
      rw [hnum] at hb
      have hc := List.append_cancel_left (List.append_cancel_left hb.2)
      exact ⟨Prod.ext ha.1 (Prod.ext hb.1 hnum), hc⟩
    cases r1 with
    | nil =>
      cases r2 with
      | nil =>
        simp only [List.map_cons, List.map_nil, intercalate_singleton] at h
        rw [(step _ _ h).1]
      | cons _ _ => simp at hrest
    | cons g1 s1 =>
      cases r2 with
      | nil => simp at hrest
      | cons g2 s2 =>
        simp only [List.map_cons, intercalate_cons_cons, List.append_assoc] at h
        have hs := step _ _ (by simpa only [List.append_assoc] using h)
        have hh := List.append_cancel_left hs.2
        have ih := fields_injective P M Q N tail (g1 :: s1) (g2 :: s2) hrest
          (fun f hf => h1 f (List.mem_cons_of_mem _ hf))
          (fun f hf => h2 f (List.mem_cons_of_mem _ hf))
          (by simpa only [List.map_cons] using hh)
        rw [hs.1, ih]

/-- C17 (amended): for two lists of thread groups whose records agree on the numeric fields
and whose span names and Timeline names contain no `"`, equal report texts mean equal records:
a different span name or Timeline name in some record gives a different text. -/
theorem dumpReport_injective_without_quotes (showNumber : Int → Str) (now : Int)
    (g1 g2 : List ThreadData)
    (hnum : (reportFields now g1).map (fun f => f.2.2) = (reportFields now g2).map (fun f => f.2.2))
    (hq1 : ∀ f ∈ reportFields now g1, '"' ∉ f.1 ∧ '"' ∉ f.2.1)
    (hq2 : ∀ f ∈ reportFields now g2, '"' ∉ f.1 ∧ '"' ∉ f.2.1)
    (htext : dumpReport showNumber now g1 = dumpReport showNumber now g2) :
    reportFields now g1 = reportFields now g2 := by
  rw [dumpReport_eq, dumpReport_eq, reportRecords_fields, reportRecords_fields] at htext
  simp only [List.append_assoc] at htext
  have h := List.append_cancel_left htext
  exact fields_injective _ _ _
    (fun n => showNumber n.1 ++ (",\"dur\":".toList ++ (showNumber n.2 ++ ['}']))) _ _ _ hnum hq1 hq2 h

theorem dumpReport_injective_without_quotes_witness :
    ((reportFields 0 [⟨['A'], []⟩, ⟨['B'], [⟨['x'], 1, 2, 0⟩]⟩]).map (fun f => f.2.2) =
        (reportFields 0 [⟨['B'], [⟨['x'], 1, 2, 0⟩]⟩]).map (fun f => f.2.2) ∧
      (∀ f ∈ reportFields 0 [⟨['A'], []⟩, ⟨['B'], [⟨['x'], 1, 2, 0⟩]⟩], '"' ∉ f.1 ∧ '"' ∉ f.2.1) ∧
      (∀ f ∈ reportFields 0 [⟨['B'], [⟨['x'], 1, 2, 0⟩]⟩], '"' ∉ f.1 ∧ '"' ∉ f.2.1) ∧
      dumpReport (fun _ => ['0']) 0 [⟨['A'], []⟩, ⟨['B'], [⟨['x'], 1, 2, 0⟩]⟩] =
        dumpReport (fun _ => ['0']) 0 [⟨['B'], [⟨['x'], 1, 2, 0⟩]⟩]) ∧
    reportFields 0 [⟨['A'], []⟩, ⟨['B'], [⟨['x'], 1, 2, 0⟩]⟩] =
      reportFields 0 [⟨['B'], [⟨['x'], 1, 2, 0⟩]⟩] :=
  ⟨⟨rfl, by decide, by decide, rfl⟩,
    dumpReport_injective_without_quotes (fun _ => ['0']) 0 [⟨['A'], []⟩, ⟨['B'], [⟨['x'], 1, 2, 0⟩]⟩]
      [⟨['B'], [⟨['x'], 1, 2, 0⟩]⟩] rfl (by decide) (by decide) rfl⟩

/-! ## The effect of connecting and of disconnecting -/

theorem lock_set_self (t : vaTracer) (h : Nat) (c c' : ThreadContext) (hl : t.lock h = some c) :
    ({ t with heap := t.heap.set h (some c') } : vaTracer).lock h = some c' := by
  unfold vaTracer.lock at hl ⊢
  have hlt : h < t.heap.length := by
    by_contra hge
    rw [List.getElem?_eq_none (not_lt.mp hge)] at hl
    cases hl
  simp [List.getElem?_set, hlt]

theorem lock_set_other (t : vaTracer) (h h' : Nat) (x : Option ThreadContext) (hne : h' ≠ h) :
    ({ t with heap := t.heap.set h x } : vaTracer).lock h' = t.lock h' := by
  unfold vaTracer.lock
  simp [List.getElem?_set, Ne.symm hne]

/-- C20: `Disconnect` on a view Connected to the Timeline `h` leaves the view Disconnected
(its weak pointer is reset), the Timeline's `AttachedViewer` empty, the frame counter 0, the
registry as it was and every other Timeline unchanged, for every sync target. -/
theorem Disconnect_detaches (H : NodeDecl) (t : vaTracer) (v : vaTracerView)
    (sync : Option vaTracerView) (h : Nat) (context : ThreadContext)
    (hc : v.m_connectedThreadContext = some h) (hl : t.lock h = some context) :
    (Disconnect H t v sync).2.m_connectedThreadContext = none ∧
    (Disconnect H t v sync).1.lockWeak (Disconnect H t v sync).2.m_connectedThreadContext = none ∧
    (Disconnect H t v sync).1.lock h = some { context with AttachedViewer := none } ∧
    (Disconnect H t v sync).2.m_frameCountWhileConnected = 0 ∧
    (Disconnect H t v sync).1.s_threadContexts = t.s_threadContexts ∧
    ∀ h', h' ≠ h → (Disconnect H t v sync).1.lock h' = t.lock h' := by
  have hd : detach t v =
      ({ t with heap := t.heap.set h (some { context with AttachedViewer := none }) },
        { v with m_connectedThreadContext := none }) := by
    simp [detach, hc, hl]
  have hD : Disconnect H t v sync =
      ({ t with heap := t.heap.set h (some { context with AttachedViewer := none }) },
        { v with
          m_connectedThreadContext := none
          m_frameCountWhileConnected := 0
          m_rootNodes := PostUpdateRecursive H
            (syncedRoots H { v with m_connectedThreadContext := none } sync) }) := by
    simp only [Disconnect, hd]
  rw [hD]
  exact ⟨rfl, rfl, lock_set_self t h context _ hl, rfl, rfl,
    fun h' hne => lock_set_other t h h' _ hne⟩

theorem Disconnect_detaches_witness :
    (exampleView.m_connectedThreadContext = some 0 ∧
      exampleTracer.lock 0 = some ⟨['M', 'a', 'i', 'n'], true, some 0⟩) ∧
    (Disconnect exampleDecl exampleTracer exampleView none).2.m_connectedThreadContext = none ∧
    (Disconnect exampleDecl exampleTracer exampleView none).1.lock 0 =
      some { (⟨['M', 'a', 'i', 'n'], true, some 0⟩ : ThreadContext) with AttachedViewer := none } :=
  ⟨⟨rfl, rfl⟩,
    (Disconnect_detaches exampleDecl exampleTracer exampleView none 0 _ rfl rfl).1,
    (Disconnect_detaches exampleDecl exampleTracer exampleView none 0 _ rfl rfl).2.2.1⟩

/-! ## Touched nodes survive the aging pass -/

theorem touchedAlong_prefix : ∀ (p q : List Nat) (R : List Node),
    touchedAlong (p ++ q) R → touchedAlong p R
  | [], _, _, _ => trivial
  | i :: p, q, R, h => by
    simp only [List.cons_append, touchedAlong] at h ⊢
    cases hi : R[i]? with
    | none => simp [hi] at h
    | some n =>
      simp only [hi] at h ⊢
      exact ⟨h.1, touchedAlong_prefix p q n.ChildNodes h.2⟩

theorem touchedAlong_valid : ∀ (p : List Nat) (R : List Node),
    touchedAlong p R → (namesAlong p R).length = p.length
  | [], _, _ => rfl
  | i :: p, R, h => by
    simp only [touchedAlong, namesAlong] at h ⊢
    cases hi : R[i]? with
    | none => simp [hi] at h
    | some n =>
      simp only [hi] at h ⊢
      simp [touchedAlong_valid p n.ChildNodes h.2]

theorem touchedAlong_snoc_updateListAt (g : List Node → List Node) (i : Nat) (m : Node)
    (hm0 : m.LastSeenAge = 0) :
    ∀ (p : List Nat) (R : List Node), touchedAlong p R →
      (g (listAt p R))[i]? = some m → touchedAlong (p ++ [i]) (updateListAt g p R)
  | [], R, _, hm => by
    simp only [listAt] at hm
    simp [touchedAlong, updateListAt, hm, hm0]
  | j :: p, R, h, hm => by
    simp only [touchedAlong, listAt] at h hm
    simp only [List.cons_append, touchedAlong, updateListAt, List.getElem?_modify]
    cases hj : R[j]? with
    | none => simp [hj] at h
    | some n =>
      simp only [hj] at h hm
      simp only [if_true, Option.map_some', Function.comp]
      exact ⟨h.1, touchedAlong_snoc_updateListAt g i m hm0 p n.ChildNodes h.2 hm⟩

theorem touchedAlong_foldInto_stable (name : Str) (d : Int) (k : Nat) (c : Int) :
    ∀ (p : List Nat) (R : List Node) (q : List Nat), touchedAlong q R →
      touchedAlong q (updateListAt (foldInto name d k c) p R)
  | _, _, [], _ => trivial
  | [], R, j :: q, hq => by
    simp only [touchedAlong] at hq ⊢
    simp only [updateListAt]
    cases hj : R[j]? with
    | none => simp [hj] at hq
    | some n =>
      simp only [hj] at hq
      by_cases hji : j = findByName name R
      · subst hji
        rw [foldInto_getElem?_eq, hj]
        exact ⟨rfl, hq.2⟩
      · rw [foldInto_getElem?_ne name d k c R j hji, hj]
        exact hq
  | i :: p, R, j :: q, hq => by
    simp only [touchedAlong] at hq ⊢
    simp only [updateListAt, List.getElem?_modify]
    cases hj : R[j]? with
    | none => simp [hj] at hq
    | some n =>
      simp only [hj] at hq
      by_cases hij : i = j
      · simp only [hij, if_true, Option.map_some']
        exact ⟨hq.1, touchedAlong_foldInto_stable name d k c p n.ChildNodes q hq.2⟩
      · simp only [hij, if_false, Option.map_some']
        exact hq

theorem foldSpan_touched (st : FoldState) (e : Entry)
    (h : touchedAlong st.currentDstStack.reverse st.m_rootNodes) :
    touchedAlong (foldSpan st e).currentDstStack.reverse (foldSpan st e).m_rootNodes := by
  obtain ⟨t, ht⟩ := popStacks_suffix e st.currentSrcStack st.currentDstStack
  have hp : touchedAlong (popStacks e st.currentSrcStack st.currentDstStack).2.reverse
      st.m_rootNodes := by
    apply touchedAlong_prefix _ t.reverse
    rw [← List.reverse_append, ht]
    exact h
  simp only [foldSpan, List.reverse_cons]
  exact touchedAlong_snoc_updateListAt _ _ _ rfl _ _ hp (foldInto_getElem?_eq _ _ _ _ _)

theorem touchedAlong_foldl_stable (chunk : List Entry) : ∀ (st : FoldState) (q : List Nat),
    touchedAlong q st.m_rootNodes → touchedAlong q (chunk.foldl foldSpan st).m_rootNodes := by
  induction chunk with
  | nil => exact fun _ _ h => h
  | cons e chunk ih =>
    intro st q hq
    exact ih (foldSpan st e) q (touchedAlong_foldInto_stable _ _ _ _ _ _ q hq)

theorem destinations_touched (chunk : List Entry) : ∀ (st : FoldState),
    touchedAlong st.currentDstStack.reverse st.m_rootNodes →
    ∀ p ∈ destinations st chunk, p ≠ [] ∧ touchedAlong p (chunk.foldl foldSpan st).m_rootNodes := by
  induction chunk with
  | nil => intro st _ p hp; simp [destinations] at hp
  | cons e chunk ih =>
    intro st hst p hp
    have h1 := foldSpan_touched st e hst
    simp only [destinations, List.mem_cons] at hp
    rcases hp with rfl | hp
    · refine ⟨?_, touchedAlong_foldl_stable chunk _ _ h1⟩
      simp [foldSpan]
    · exact ih (foldSpan st e) h1 p hp

theorem hasPath_cons (name : Str) (rest : List Str) (nodes : List Node) :
    hasPath (name :: rest) nodes = true ↔
      ∃ n ∈ nodes, n.Name = name ∧ hasPath rest n.ChildNodes = true := by
  simp [hasPath, List.any_eq_true]

theorem hasTouchedPath_cons (name : Str) (rest : List Str) (nodes : List Node) :
    hasTouchedPath (name :: rest) nodes = true ↔
      ∃ n ∈ nodes, n.Name = name ∧ n.LastSeenAge = 0 ∧
        hasTouchedPath rest n.ChildNodes = true := by
  simp [hasTouchedPath, List.any_eq_true, and_assoc]

theorem hasTouchedPath_of_touchedAlong : ∀ (p : List Nat) (R : List Node),
    touchedAlong p R → hasTouchedPath (namesAlong p R) R = true
  | [], _, _ => rfl
  | i :: p, R, h => by
    simp only [touchedAlong, namesAlong] at h ⊢
    cases hi : R[i]? with
    | none => simp [hi] at h
    | some n =>
      simp only [hi] at h ⊢
      rw [hasTouchedPath_cons]
      exact ⟨n, List.getElem?_mem hi, rfl, h.1, hasTouchedPath_of_touchedAlong p n.ChildNodes h.2⟩

/-- The sync block keeps a chain of touched nodes. -/
theorem hasTouchedPath_sync (H : NodeDecl) (hS : SyncPass H) : ∀ (names : List Str)
    (ns ns' : List Node),
    (∀ n ∈ ns, n ∈ ns' ∨ ∃ s : Node, H.SyncUIRecursive n s ∈ ns') →
    hasTouchedPath names ns = true → hasTouchedPath names ns' = true
  | [], _, _, _, _ => rfl
  | name :: rest, ns, ns', hk, h => by
    rw [hasTouchedPath_cons] at h ⊢
    obtain ⟨n, hn, hname, hage, hrest⟩ := h
    rcases hk n hn with hmem | ⟨s, hmem⟩
    · exact ⟨n, hmem, hname, hage, hrest⟩
    · refine ⟨_, hmem, ?_, ?_, ?_⟩
      · rw [hS.Name_kept, hname]
      · rw [hS.LastSeenAge_kept, hage]
      · exact hasTouchedPath_sync H hS rest n.ChildNodes _ (hS.children_kept n s) hrest

/-- The aging pass keeps a chain of touched nodes in the tree. -/
theorem hasPath_aging (H : NodeDecl) (hA : AgingPass H) : ∀ (names : List Str)
    (ns ns' : List Node),
    (∀ n ∈ ns, (H.PostUpdateRecursive n).LastSeenAge ≤ H.LastSeenAgeToKeepAlive →
      H.PostUpdateRecursive n ∈ ns') →
    hasTouchedPath names ns = true → hasPath names ns' = true
  | [], _, _, _, _ => rfl
  | name :: rest, ns, ns', hk, h => by
    rw [hasTouchedPath_cons] at h
    rw [hasPath_cons]
    obtain ⟨n, hn, hname, hage, hrest⟩ := h
    refine ⟨_, hk n hn (hA.touched_kept n hage), ?_, ?_⟩
    · rw [hA.Name_kept, hname]
    · exact hasPath_aging H hA rest n.ChildNodes _ (hA.children_kept n) hrest

theorem mem_modify (f : Node → Node) : ∀ (l : List Node) (i : Nat) (n : Node), n ∈ l →
    n ∈ l.modify f i ∨ f n ∈ l.modify f i
  | [], _, _, h => by simp at h
  | a :: l, 0, n, h => by
    simp only [List.modify_zero_cons, List.mem_cons] at h ⊢
    rcases h with rfl | h
    · exact Or.inr (Or.inl rfl)
    · exact Or.inl (Or.inr h)
  | a :: l, i + 1, n, h => by
    simp only [List.modify_succ_cons, List.mem_cons] at h ⊢
    rcases h with rfl | h
    · exact Or.inl (Or.inl rfl)
    · rcases mem_modify f l i n h with h' | h'
      · exact Or.inl (Or.inr h')
      · exact Or.inr (Or.inr h')

theorem hasTouchedPath_syncRoot (H : NodeDecl) (hS : SyncPass H) (names : List Str)
    (roots : List Node) (src : Node) (h : hasTouchedPath names roots = true) :
    hasTouchedPath names (syncRoot H roots src) = true := by
  refine hasTouchedPath_sync H hS names roots _ ?_ h
  intro n hn
  unfold syncRoot
  split
  · exact Or.inl (List.mem_append_left _ hn)
  · rcases mem_modify (fun node => H.SyncUIRecursive node src) roots _ n hn with h' | h'
    · exact Or.inl h'
    · exact Or.inr ⟨src, h'⟩

theorem hasTouchedPath_syncedRoots (H : NodeDecl) (hS : SyncPass H) (names : List Str)
    (v : vaTracerView) (sync : Option vaTracerView)
    (h : hasTouchedPath names v.m_rootNodes = true) :
    hasTouchedPath names (syncedRoots H v sync) = true := by
  cases sync with
  | none => exact h
  | some s =>
    simp only [syncedRoots]
    split
    · have key : ∀ (srcs : List Node) (roots : List Node),
          hasTouchedPath names roots = true →
          hasTouchedPath names (srcs.foldl (syncRoot H) roots) = true := by
        intro srcs
        induction srcs with
        | nil => exact fun _ h => h
        | cons src srcs ih =>
          exact fun roots h => ih _ (hasTouchedPath_syncRoot H hS names roots src h)
      exact key _ _ h
    · exact h

theorem detach_rootNodes (t : vaTracer) (v : vaTracerView) :
    (detach t v).2.m_rootNodes = v.m_rootNodes := by
  unfold detach
  split
  · rfl
  · split <;> rfl

/-- A chain of touched nodes is still in the tree after `Disconnect`. -/
theorem hasPath_Disconnect (H : NodeDecl) (hA : AgingPass H) (hS : SyncPass H) (t : vaTracer)
    (v : vaTracerView) (sync : Option vaTracerView) (names : List Str)
    (h : hasTouchedPath names v.m_rootNodes = true) :
    hasPath names (Disconnect H t v sync).2.m_rootNodes = true := by
  have h1 : hasTouchedPath names (syncedRoots H (detach t v).2 sync) = true :=
    hasTouchedPath_syncedRoots H hS names _ sync (by rw [detach_rootNodes]; exact h)
  refine hasPath_aging H hA names _ _ ?_ h1
  intro n hn hage
  rw [show (Disconnect H t v sync).2.m_rootNodes =
    PostUpdateRecursive H (syncedRoots H (detach t v).2 sync) from rfl]
  rw [(PostUpdateRecursive_perm H _).mem_iff, List.mem_filter]
  exact ⟨List.mem_map_of_mem _ hn, by simpa using hage⟩

theorem touchedAlong_UpdateCallback (t : vaTracer) (now : Int) (v : vaTracerView)
    (chunk : List Entry) (inc : Bool) (q : List Nat) (h : touchedAlong q v.m_rootNodes) :
    touchedAlong q (UpdateCallback t now v chunk inc).m_rootNodes ∧
      namesAlong q (UpdateCallback t now v chunk inc).m_rootNodes = namesAlong q v.m_rootNodes := by
  unfold UpdateCallback
  split
  · exact ⟨h, rfl⟩
  · split
    · exact ⟨h, rfl⟩
    · have hr : (loopInit (bumpFrame inc v)).m_rootNodes = v.m_rootNodes :=
        bumpFrame_rootNodes inc v
      refine ⟨?_, ?_⟩
      · exact touchedAlong_foldl_stable chunk _ q (by rw [hr]; exact h)
      · have := namesAlong_foldl_stable chunk (loopInit (bumpFrame inc v)) q
          (by rw [hr]; exact touchedAlong_valid q _ h)
        rw [hr] at this
        exact this

theorem PostUpdateRecursiveList_eq_map (keepAlive : Int) : ∀ (cs : List Node),
    Node.PostUpdateRecursiveList keepAlive cs = cs.map (Node.PostUpdateRecursive keepAlive)
  | [] => by simp [Node.PostUpdateRecursiveList]
  | c :: cs => by
    simp [Node.PostUpdateRecursiveList, PostUpdateRecursiveList_eq_map keepAlive cs]

theorem agingDecl_AgingPass : AgingPass agingDecl where
  Name_kept := by
    rintro ⟨name, so, rd, tt, tmax, tmin, inst, cs, op, sel, age⟩
    simp [agingDecl, Node.PostUpdateRecursive]
  touched_kept := by
    rintro ⟨name, so, rd, tt, tmax, tmin, inst, cs, op, sel, age⟩ h
    simp only at h
    simp [agingDecl, Node.PostUpdateRecursive, h]
  children_kept := by
    rintro ⟨name, so, rd, tt, tmax, tmin, inst, cs, op, sel, age⟩ c hc hage
    simp only [agingDecl] at hage ⊢
    simp only [Node.PostUpdateRecursive, PostUpdateRecursiveList_eq_map]
    rw [(List.perm_insertionSort _ _).mem_iff, List.mem_filter]
    exact ⟨List.mem_map_of_mem _ hc, by simpa using hage⟩

theorem agingDecl_SyncPass : SyncPass agingDecl where
  Name_kept := fun _ _ => rfl
  LastSeenAge_kept := fun _ _ => rfl
  children_kept := fun _ _ _ hc => Or.inl hc

/-- C11: let `UpdateCallback` process a batch on a connected, not timed-out view, whatever the
tree of the view was before (so also after any number of earlier aging passes), and let any
further `UpdateCallback` calls follow. For every span of the batch, the chain of names from a
root down to the node the span was folded into is non-empty and, after the `Disconnect` that
follows (whose aging pass may evict nodes), the tree still holds a chain of nodes with these
names: the node is still present under the same parent. The per-node passes of vaProfiler.h
are taken as described in the specification (`AgingPass`, `SyncPass`). -/
theorem touched_node_survives_Disconnect (H : NodeDecl) (hA : AgingPass H) (hS : SyncPass H)
    (t : vaTracer) (now : Int) (v : vaTracerView) (chunk : List Entry) (inc : Bool)
    (hconn : (t.lockWeak v.m_connectedThreadContext).isSome = true)
    (htime : now ≤ v.m_connectionTimeoutTime)
    (later : List (vaTracer × Int × List Entry × Bool)) (t' : vaTracer)
    (sync : Option vaTracerView) :
    ∀ names ∈ foldedInto (loopInit (bumpFrame inc v)) chunk,
      names ≠ [] ∧
      hasPath names (Disconnect H t'
        (later.foldl (fun w c => UpdateCallback c.1 c.2.1 w c.2.2.1 c.2.2.2)
          (UpdateCallback t now v chunk inc)) sync).2.m_rootNodes = true := by
  intro names hnames
  rw [← destinations_names_final chunk _ (loopInit_valid (bumpFrame inc v)), List.mem_map] at hnames
  obtain ⟨p, hp, hpn⟩ := hnames
  obtain ⟨hne, htouched⟩ := destinations_touched chunk (loopInit (bumpFrame inc v)) trivial p hp
  have hroots : (UpdateCallback t now v chunk inc).m_rootNodes =
      (chunk.foldl foldSpan (loopInit (bumpFrame inc v))).m_rootNodes := by
    rw [UpdateCallback_rootNodes t now v _ inc hconn htime]
    rfl
  rw [← hroots] at htouched hpn
  have hlen : names.length = p.length := by
    rw [← hpn]
    exact touchedAlong_valid p _ htouched
  refine ⟨?_, ?_⟩
  · intro h0
    rw [h0] at hlen
    exact hne (List.length_eq_zero.mp hlen.symm)
  · have key : ∀ (calls : List (vaTracer × Int × List Entry × Bool)) (w : vaTracerView),
        touchedAlong p w.m_rootNodes → namesAlong p w.m_rootNodes = names →
        hasTouchedPath names
          (calls.foldl (fun w c => UpdateCallback c.1 c.2.1 w c.2.2.1 c.2.2.2) w).m_rootNodes =
            true := by
      intro calls
      induction calls with
      | nil =>
        intro w hw hn
        rw [← hn]
        exact hasTouchedPath_of_touchedAlong p _ hw
      | cons c calls ih =>
        intro w hw hn
        have h1 := touchedAlong_UpdateCallback c.1 c.2.1 w c.2.2.1 c.2.2.2 p hw
        exact ih _ h1.1 (by rw [h1.2]; exact hn)
    exact hasPath_Disconnect H hA hS t' _ sync names (key later _ htouched hpn)

theorem touched_node_survives_Disconnect_witness :
    (AgingPass agingDecl ∧ SyncPass agingDecl ∧
      (exampleTracer.lockWeak agedView.m_connectedThreadContext).isSome = true ∧
      (5 : Int) ≤ agedView.m_connectionTimeoutTime ∧
      [['A'], ['B']] ∈ foldedInto (loopInit (bumpFrame true agedView))
        [⟨['A'], 0, 10, 0⟩, ⟨['B'], 1, 4, 1⟩]) ∧
    hasPath [['A'], ['B']] (Disconnect agingDecl exampleTracer
      (([] : List (vaTracer × Int × List Entry × Bool)).foldl
        (fun w c => UpdateCallback c.1 c.2.1 w c.2.2.1 c.2.2.2)
        (UpdateCallback exampleTracer 5 agedView [⟨['A'], 0, 10, 0⟩, ⟨['B'], 1, 4, 1⟩] true))
      none).2.m_rootNodes = true :=
  ⟨⟨agingDecl_AgingPass, agingDecl_SyncPass, by decide, by decide, by decide⟩,
    (touched_node_survives_Disconnect agingDecl agingDecl_AgingPass agingDecl_SyncPass
      exampleTracer 5 agedView [⟨['A'], 0, 10, 0⟩, ⟨['B'], 1, 4, 1⟩] true (by decide) (by decide)
      [] exampleTracer none [['A'], ['B']] (by decide)).2⟩

/-! ## The display view of `TickImGui` is never connected -/

theorem expired_lockWeak (t : vaTracer) (v : vaTracerView) (h : v.expired t) :
    t.lockWeak v.m_connectedThreadContext = none := by
  cases hc : v.m_connectedThreadContext with
  | none => rfl
  | some k => simp [vaTracer.lockWeak, vaTracer.lock, h k hc]

theorem expired_refValid (t : vaTracer) (v : vaTracerView) (h : v.expired t) : v.refValid t := by
  intro k hk
  have := h k hk
  by_contra hge
  rw [List.getElem?_eq_none (not_lt.mp hge)] at this
  cases this

theorem lock_none_of_lt (t : vaTracer) (k : Nat) (hlt : k < t.heap.length) (hl : t.lock k = none) :
    t.heap[k]? = some none := by
  unfold vaTracer.lock at hl
  rw [List.getElem?_eq_getElem hlt] at hl ⊢
  cases hk : t.heap[k] with
  | none => rfl
  | some c => simp [hk] at hl

theorem lock_some_lt (t : vaTracer) (k : Nat) (c : ThreadContext) (hl : t.lock k = some c) :
    k < t.heap.length ∧ t.heap[k]? = some (some c) := by
  unfold vaTracer.lock at hl
  have hlt : k < t.heap.length := by
    by_contra hge
    rw [List.getElem?_eq_none (not_lt.mp hge)] at hl
    cases hl
  refine ⟨hlt, ?_⟩
  rw [List.getElem?_eq_getElem hlt] at hl ⊢
  simpa using hl

theorem set_live_keeps_destroyed (t : vaTracer) (k : Nat) (c c' : ThreadContext)
    (hl : t.lock k = some c) (j : Nat) (hj : t.heap[j]? = some none) :
    (t.heap.set k (some c'))[j]? = some none := by
  have hk := (lock_some_lt t k c hl).2
  have hne : k ≠ j := by
    rintro rfl
    rw [hk] at hj
    cases hj
  simp [List.getElem?_set, hne, hj]

theorem detach_facts (t : vaTracer) (v : vaTracerView) (hv : v.refValid t) :
    (detach t v).1.heap.length = t.heap.length ∧
    (∀ j : Nat, t.heap[j]? = some none → (detach t v).1.heap[j]? = some none) ∧
    (∀ h : Nat, (detach t v).2.m_connectedThreadContext = some h →
      (detach t v).1.heap[h]? = some none) := by
  cases hc : v.m_connectedThreadContext with
  | none =>
    have hd : detach t v = (t, v) := by simp only [detach, hc]
    rw [hd]
    refine ⟨rfl, fun _ hj => hj, ?_⟩
    intro h hh
    simp only [hc] at hh
    cases hh
  | some k =>
    cases hl : t.lock k with
    | none =>
      have hd : detach t v = (t, v) := by simp only [detach, hc, hl]
      rw [hd]
      refine ⟨rfl, fun _ hj => hj, ?_⟩
      intro h hh
      simp only [hc, Option.some.injEq] at hh
      subst hh
      exact lock_none_of_lt t k (hv k hc) hl
    | some c =>
      have hd : detach t v =
          ({ t with heap := t.heap.set k (some { c with AttachedViewer := none }) },
            { v with m_connectedThreadContext := none }) := by
        simp only [detach, hc, hl]
      rw [hd]
      refine ⟨by simp, fun j hj => set_live_keeps_destroyed t k c _ hl j hj, ?_⟩
      intro h hh
      cases hh

theorem Disconnect_facts (H : NodeDecl) (t : vaTracer) (v : vaTracerView)
    (sync : Option vaTracerView) (hv : v.refValid t) :
    (Disconnect H t v sync).1.heap.length = t.heap.length ∧
    (∀ j : Nat, t.heap[j]? = some none → (Disconnect H t v sync).1.heap[j]? = some none) ∧
    (Disconnect H t v sync).2.expired (Disconnect H t v sync).1 :=
  detach_facts t v hv

theorem findContext_lock (t : vaTracer) (nameToSearch : Str) : ∀ (registry : List Nat)
    (h : Nat) (c : ThreadContext), findContext t nameToSearch registry = some (h, c) →
    t.lock h = some c
  | [], _, _, hf => by simp [findContext] at hf
  | h0 :: rest, h, c, hf => by
    simp only [findContext] at hf
    cases hl : t.lock h0 with
    | none =>
      simp only [hl] at hf
      exact findContext_lock t nameToSearch rest h c hf
    | some c0 =>
      simp only [hl] at hf
      by_cases hm : nameMatches nameToSearch c0 = true
      · simp only [hm, if_true, Option.some.injEq, Prod.mk.injEq] at hf
        rw [← hf.1, ← hf.2]
        exact hl
      · simp only [hm] at hf
        exact findContext_lock t nameToSearch rest h c hf

theorem connectLookup_facts (H : NodeDecl) (t : vaTracer) (self : Nat) (w : vaTracerView)
    (name : Str) (timeout now : Int) (hw : w.refValid t) :
    (connectLookup H t self w name timeout now).1.heap.length = t.heap.length ∧
    (∀ j : Nat, t.heap[j]? = some none →
      (connectLookup H t self w name timeout now).1.heap[j]? = some none) ∧
    (connectLookup H t self w name timeout now).2.refValid
      (connectLookup H t self w name timeout now).1 := by
  unfold connectLookup
  split
  · exact ⟨rfl, fun _ hj => hj, hw⟩
  · cases hf : findContext t (nameToSearch name) t.s_threadContexts with
    | none => exact ⟨rfl, fun _ hj => hj, hw⟩
    | some r =>
      obtain ⟨h, c⟩ := r
      have hl := findContext_lock t _ _ h c hf
      refine ⟨by simp, fun j hj => set_live_keeps_destroyed t h c _ hl j hj, ?_⟩
      intro k hk
      simp only [Option.some.injEq] at hk
      subst hk
      simpa using (lock_some_lt t h c hl).1

theorem ConnectToThreadContext_disconnected (H : NodeDecl) (t : vaTracer) (self : Nat)
    (v : vaTracerView) (name : Str) (timeout now : Int)
    (hdis : t.lockWeak v.m_connectedThreadContext = none) :
    ∃ w : vaTracerView, w.m_connectedThreadContext = v.m_connectedThreadContext ∧
      ConnectToThreadContext H t self v name timeout now =
        Except.ok (connectLookup H t self w name timeout now) := by
  unfold ConnectToThreadContext
  simp only [hdis]
  split
  · exact ⟨{ v with m_nameChanged := true }.Reset, rfl, rfl⟩
  · exact ⟨{ v with m_nameChanged := false }, rfl, rfl⟩

theorem walkRegistry_heap (t : vaTracer) (names : List Str) (t' : vaTracer)
    (h : ListAllThreadNames t = some (names, t')) : t'.heap = t.heap := by
  unfold ListAllThreadNames at h
  cases hw : walkRegistry t t.s_threadContexts [] [] with
  | none => simp [hw] at h
  | some r =>
    simp only [hw, Option.map_some', Option.some.injEq, Prod.mk.injEq] at h
    rw [← h.2]

theorem PairInv_of_same (s s' : UIState) (hheap : s'.tracer.heap = s.tracer.heap)
    (hc : s'.m_UI_TracerViewActiveCollect = s.m_UI_TracerViewActiveCollect)
    (hd : s'.m_UI_TracerViewDisplay = s.m_UI_TracerViewDisplay) (h : PairInv s) : PairInv s' := by
  refine ⟨fun view hv k hk => ?_, fun view hv k hk => ?_⟩
  · rw [hheap]
    exact h.collect view (hc ▸ hv) k hk
  · rw [hheap]
    exact h.display view (hd ▸ hv) k hk

theorem PairInv_dumpButton (s s' : UIState) (i : TickInput) (h : PairInv s)
    (hr : dumpButton s i = Except.ok s') : PairInv s' := by
  unfold dumpButton at hr
  split at hr
  · split at hr
    · cases hr
    · cases hr
      exact PairInv_of_same s _ rfl rfl rfl h
  · cases hr
    exact h

theorem PairInv_firstTimeInitialize (D : UIDecl) (s : UIState) (i : TickInput) (h : PairInv s) :
    PairInv (firstTimeInitialize D s i) := by
  unfold firstTimeInitialize
  split
  · refine ⟨fun view hv k hk => ?_, fun view hv k hk => ?_⟩
    · simp only [Option.some.injEq] at hv
      subst hv
      cases hk
    · simp only [Option.some.injEq] at hv
      subst hv
      cases hk
  · exact h

theorem PairInv_refreshThreadNames (s s' : UIState) (h : PairInv s)
    (hr : refreshThreadNames s = Except.ok s') : PairInv s' := by
  unfold refreshThreadNames at hr
  split at hr
  · cases hl : ListAllThreadNames s.tracer with
    | none => simp [hl] at hr
    | some r =>
      obtain ⟨names, t'⟩ := r
      simp only [hl, Except.ok.injEq] at hr
      subst hr
      exact PairInv_of_same s _ (walkRegistry_heap s.tracer names t' hl) rfl rfl h
  · cases hr
    exact h

theorem swapAndConnect_inv (H : NodeDecl) (D : UIDecl) (s : UIState) (i : TickInput)
    (h : PairInv s) :
    swapAndConnect H D s i ≠ Except.error TickFault.systemError ∧
    ∀ (s' : UIState) (b : Bool), swapAndConnect H D s i = Except.ok (s', b) → PairInv s' := by
  unfold swapAndConnect
  by_cases htime : s.m_UI_ProfilingTimeToNextUpdate - i.deltaTime < 0
  swap
  · simp only [htime, if_false]
    refine ⟨by simp, fun s' b hr => ?_⟩
    simp only [Except.ok.injEq, Prod.mk.injEq] at hr
    rw [← hr.1]
    exact PairInv_of_same s _ rfl rfl rfl h
  simp only [htime, if_true]
  cases hc : s.m_UI_TracerViewActiveCollect with
  | none => exact ⟨by simp, fun s' b hr => by simp at hr⟩
  | some collect =>
    cases hd : s.m_UI_TracerViewDisplay with
    | none => exact ⟨by simp, fun s' b hr => by simp at hr⟩
    | some display =>
      simp only []
      obtain ⟨hlen, hdead, hexp⟩ :=
        Disconnect_facts H s.tracer collect.2 (some display.2) (h.collect collect hc)
      have hdisp : display.2.expired (Disconnect H s.tracer collect.2 (some display.2)).1 :=
        fun k hk => hdead k (h.display display hd k hk)
      have hswapped : PairInv
          { s with
            tracer := (Disconnect H s.tracer collect.2 (some display.2)).1
            m_UI_ProfilingTimeToNextUpdate :=
              max 0 (s.m_UI_ProfilingTimeToNextUpdate - i.deltaTime + D.c_UI_ProfilingUpdateFrequency)
            m_UI_TracerViewActiveCollect := some display
            m_UI_TracerViewDisplay :=
              some (collect.1, (Disconnect H s.tracer collect.2 (some display.2)).2) } := by
        refine ⟨fun view hv => ?_, fun view hv => ?_⟩
        · simp only [Option.some.injEq] at hv
          subst hv
          exact expired_refValid _ _ hdisp
        · simp only [Option.some.injEq] at hv
          subst hv
          exact hexp
      by_cases hnames : s.m_UI_ProfilingThreadNames.length = 0
      · simp only [hnames, ne_eq, not_true_eq_false, if_false]
        refine ⟨by simp, fun s' b hr => ?_⟩
        simp only [Except.ok.injEq, Prod.mk.injEq] at hr
        rw [← hr.1]
        exact hswapped
      · simp only [hnames, ne_eq, not_false_eq_true, if_true]
        split
        · exact ⟨by simp, fun s' b hr => by simp at hr⟩
        · split
          · exact ⟨by simp, fun s' b hr => by simp at hr⟩
          · rename_i name hname
            obtain ⟨w, hwc, hw⟩ := ConnectToThreadContext_disconnected H
              (Disconnect H s.tracer collect.2 (some display.2)).1 display.1 display.2 name
              (D.c_UI_ProfilingUpdateFrequency * 3 / 2) i.now (expired_lockWeak _ _ hdisp)
            have hwv : w.refValid (Disconnect H s.tracer collect.2 (some display.2)).1 := by
              intro k hk
              rw [hwc] at hk
              exact expired_refValid _ _ hdisp k hk
            obtain ⟨_, hdead', hvalid'⟩ := connectLookup_facts H
              (Disconnect H s.tracer collect.2 (some display.2)).1 display.1 w name
              (D.c_UI_ProfilingUpdateFrequency * 3 / 2) i.now hwv
            rw [hw]
            refine ⟨by simp, fun s' b hr => ?_⟩
            simp only [Except.ok.injEq, Prod.mk.injEq] at hr
            rw [← hr.1]
            refine ⟨fun view hv => ?_, fun view hv => ?_⟩
            · simp only [Option.some.injEq] at hv
              subst hv
              exact hvalid'
            · simp only [Option.some.injEq] at hv
              subst hv
              exact fun k hk => hdead' k (hexp k hk)

theorem displayUI_inv (D : UIDecl) (s : UIState) (i : TickInput) (h : PairInv s) :
    displayUI D s i ≠ Except.error TickFault.systemError ∧
    ∀ (s' : UIState) (displayError : Bool), displayUI D s i = Except.ok (s', displayError) →
      displayError = false ∧ PairInv s' := by
  unfold displayUI
  by_cases hnames : s.m_UI_ProfilingThreadNames.length = 0
  · simp only [hnames, ne_eq, not_true_eq_false, if_false]
    refine ⟨by simp, fun s' b hr => ?_⟩
    simp only [Except.ok.injEq, Prod.mk.injEq] at hr
    rw [← hr.1, ← hr.2]
    exact ⟨rfl, h⟩
  · simp only [hnames, ne_eq, not_false_eq_true, if_true]
    cases hd : s.m_UI_TracerViewDisplay with
    | none => exact ⟨by simp, fun s' b hr => by simp at hr⟩
    | some display =>
      have hexp := h.display display hd
      have htick : display.2.TickImGui s.tracer i.clicks =
          some { display.2 with m_rootNodes := i.clicks display.2.m_rootNodes } := by
        simp [vaTracerView.TickImGui, expired_lockWeak _ _ hexp]
      simp only [htick]
      refine ⟨by simp, fun s' b hr => ?_⟩
      simp only [Except.ok.injEq, Prod.mk.injEq] at hr
      rw [← hr.1, ← hr.2]
      refine ⟨rfl, fun view hv => ?_, fun view hv => ?_⟩
      · exact h.collect view hv
      · simp only [Option.some.injEq] at hv
        subst hv
        exact hexp

theorem TickImGui_inv (H : NodeDecl) (D : UIDecl) (s : UIState) (i : TickInput) (h : PairInv s) :
    vaTracer.TickImGui H D s i ≠ Except.error TickFault.systemError ∧
    ∀ (s' : UIState) (displayError : Bool),
      vaTracer.TickImGui H D s i = Except.ok (s', displayError) →
      displayError = false ∧ PairInv s' := by
  unfold vaTracer.TickImGui
  split
  · refine ⟨by simp, fun s' b hr => ?_⟩
    simp only [Except.ok.injEq, Prod.mk.injEq] at hr
    rw [← hr.1, ← hr.2]
    exact ⟨rfl, h⟩
  · cases h1 : dumpButton s i with
    | error fault =>
      have : fault = TickFault.undefinedBehaviour := by
        unfold dumpButton at h1
        split at h1
        · split at h1
          · cases h1; rfl
          · cases h1
        · cases h1
      subst this
      exact ⟨by simp, fun s' b hr => by simp at hr⟩
    | ok dumped =>
      have hi1 := PairInv_firstTimeInitialize D dumped i (PairInv_dumpButton s dumped i h h1)
      simp only []
      cases h2 : refreshThreadNames (firstTimeInitialize D dumped i) with
      | error fault =>
        have : fault = TickFault.undefinedBehaviour := by
          unfold refreshThreadNames at h2
          split at h2
          · split at h2
            · cases h2; rfl
            · cases h2
          · cases h2
        subst this
        exact ⟨by simp, fun s' b hr => by simp at hr⟩
      | ok refreshed =>
        have hi2 := PairInv_refreshThreadNames _ refreshed hi1 h2
        obtain ⟨hne3, hi3⟩ := swapAndConnect_inv H D refreshed i hi2
        simp only []
        cases h3 : swapAndConnect H D refreshed i with
        | error fault =>
          refine ⟨?_, fun s' b hr => by simp at hr⟩
          simp only [ne_eq, Except.error.injEq]
          rintro rfl
          exact hne3 h3
        | ok r3 =>
          obtain ⟨swapped, updateTriggered⟩ := r3
          have hi3' := hi3 swapped updateTriggered h3
          obtain ⟨hne4, hi4⟩ := displayUI_inv D swapped i hi3'
          simp only []
          cases h4 : displayUI D swapped i with
          | error fault =>
            refine ⟨?_, fun s' b hr => by simp at hr⟩
            simp only [ne_eq, Except.error.injEq]
            rintro rfl
            exact hne4 h4
          | ok r4 =>
            obtain ⟨shown, displayError⟩ := r4
            obtain ⟨herr, hi5⟩ := hi4 shown displayError h4
            refine ⟨by simp, fun s' b hr => ?_⟩
            simp only [Except.ok.injEq, Prod.mk.injEq] at hr
            rw [← hr.1, ← hr.2]
            refine ⟨herr, ?_⟩
            split
            · exact PairInv_of_same shown _ rfl rfl rfl hi5
            · exact hi5

theorem PairInv_EnvStep (s s' : UIState) (h : PairInv s) (he : EnvStep s s') : PairInv s' := by
  refine ⟨fun view hv k hk => ?_, fun view hv k hk => ?_⟩
  · have hm := he.collect_ref
    rw [hv] at hm
    cases hc : s.m_UI_TracerViewActiveCollect with
    | none => simp [hc] at hm
    | some view0 =>
      simp only [hc, Option.map_some', Option.some.injEq] at hm
      exact lt_of_lt_of_le (h.collect view0 hc k (by rw [← hm]; exact hk)) he.heap_grows
  · have hm := he.display_ref
    rw [hv] at hm
    cases hd : s.m_UI_TracerViewDisplay with
    | none => simp [hd] at hm
    | some view0 =>
      simp only [hd, Option.map_some', Option.some.injEq] at hm
      exact he.destroyed_stays k (h.display view0 hd k (by rw [← hm]; exact hk))

theorem PairInv_Reachable (H : NodeDecl) (D : UIDecl) (s : UIState) (hs : Reachable H D s) :
    PairInv s := by
  induction hs with
  | initial t =>
    exact ⟨fun view hv => by simp [UIState.initial] at hv,
      fun view hv => by simp [UIState.initial] at hv⟩
  | tick s s' i displayError _ hr ih => exact ((TickImGui_inv H D s i ih).2 s' displayError hr).2
  | between s s' _ he ih => exact PairInv_EnvStep s s' ih he

/-- C18: in every state reached from the initial statics by calls of `vaTracer::TickImGui`
(any inputs) and by what other threads do to the Timelines in between, the display view is
Disconnected; and a call of `TickImGui` from such a state never ends in the exception of
`ConnectToThreadContext` and, when it returns, `vaTracerView::TickImGui` has not taken its error
branch: the display view was Disconnected when its tree was traversed. -/
theorem TickImGui_display_view_disconnected (H : NodeDecl) (D : UIDecl) (s : UIState)
    (hs : Reachable H D s) :
    (∀ view, s.m_UI_TracerViewDisplay = some view →
      s.tracer.lockWeak view.2.m_connectedThreadContext = none) ∧
    ∀ i : TickInput,
      vaTracer.TickImGui H D s i ≠ Except.error TickFault.systemError ∧
      ∀ (s' : UIState) (displayError : Bool),
        vaTracer.TickImGui H D s i = Except.ok (s', displayError) → displayError = false := by
  have hinv := PairInv_Reachable H D s hs
  refine ⟨fun view hv => expired_lockWeak _ _ (hinv.display view hv), fun i => ?_⟩
  obtain ⟨hne, hok⟩ := TickImGui_inv H D s i hinv
  exact ⟨hne, fun s' displayError hr => (hok s' displayError hr).1⟩

theorem TickImGui_display_view_disconnected_witness :
    Reachable exampleDecl exampleUIDecl afterFirstTick ∧
    (∀ view, afterFirstTick.m_UI_TracerViewDisplay = some view →
      afterFirstTick.tracer.lockWeak view.2.m_connectedThreadContext = none) ∧
    ∀ i : TickInput,
      vaTracer.TickImGui exampleDecl exampleUIDecl afterFirstTick i ≠
        Except.error TickFault.systemError ∧
      ∀ (s' : UIState) (displayError : Bool),
        vaTracer.TickImGui exampleDecl exampleUIDecl afterFirstTick i =
          Except.ok (s', displayError) → displayError = false :=
  ⟨Reachable.tick (UIState.initial mainTracer) afterFirstTick exampleInput false
      (Reachable.initial mainTracer) rfl,
    TickImGui_display_view_disconnected exampleDecl exampleUIDecl afterFirstTick
      (Reachable.tick (UIState.initial mainTracer) afterFirstTick exampleInput false
        (Reachable.initial mainTracer) rfl)⟩

/-! ## TickFrame -/

/-- C21: `TickFrame` at time `now` raises the frame counter by one and sets the sort counter to
0 when the view is connected to a live Timeline with `AutomaticFrameIncrement` set and `now` is
not past the deadline (`now <= m_connectionTimeoutTime`); in every other case it returns the
view as it was; the frame counter goes up exactly in the first case; the tree is never
changed. -/
theorem TickFrame_counts_frames (t : vaTracer) (now : Int) (v : vaTracerView) :
    ((∃ c, t.lockWeak v.m_connectedThreadContext = some c ∧ c.AutomaticFrameIncrement = true ∧
        now ≤ v.m_connectionTimeoutTime) →
      TickFrame t now v =
        { v with
          m_frameCountWhileConnected := v.m_frameCountWhileConnected + 1
          m_frameSortCounter := 0 }) ∧
    ((¬ ∃ c, t.lockWeak v.m_connectedThreadContext = some c ∧ c.AutomaticFrameIncrement = true ∧
        now ≤ v.m_connectionTimeoutTime) →
      TickFrame t now v = v) ∧
    ((TickFrame t now v).m_frameCountWhileConnected = v.m_frameCountWhileConnected + 1 ↔
      ∃ c, t.lockWeak v.m_connectedThreadContext = some c ∧ c.AutomaticFrameIncrement = true ∧
        now ≤ v.m_connectionTimeoutTime) ∧
    (TickFrame t now v).m_rootNodes = v.m_rootNodes := by
  have hyes : (∃ c, t.lockWeak v.m_connectedThreadContext = some c ∧
      c.AutomaticFrameIncrement = true ∧ now ≤ v.m_connectionTimeoutTime) →
      TickFrame t now v =
        { v with
          m_frameCountWhileConnected := v.m_frameCountWhileConnected + 1
          m_frameSortCounter := 0 } := by
    rintro ⟨c, hc, ha, hn⟩
    simp only [TickFrame, hc, ha, hn, if_true]
  have hno : (¬ ∃ c, t.lockWeak v.m_connectedThreadContext = some c ∧
      c.AutomaticFrameIncrement = true ∧ now ≤ v.m_connectionTimeoutTime) →
      TickFrame t now v = v := by
    intro h
    unfold TickFrame
    cases hc : t.lockWeak v.m_connectedThreadContext with
    | none => rfl
    | some c =>
      simp only []
      by_cases ha : c.AutomaticFrameIncrement = true
      · by_cases hn : now ≤ v.m_connectionTimeoutTime
        · exact absurd ⟨c, hc, ha, hn⟩ h
        · simp only [ha, hn, if_true, if_false]
      · simp only [ha]
        rfl
  refine ⟨hyes, hno, ?_, ?_⟩
  · constructor
    · intro h
      by_contra hcon
      rw [hno hcon] at h
      omega
    · intro h
      rw [hyes h]
  · by_cases h : ∃ c, t.lockWeak v.m_connectedThreadContext = some c ∧
        c.AutomaticFrameIncrement = true ∧ now ≤ v.m_connectionTimeoutTime
    · rw [hyes h]
    · rw [hno h]

theorem TickFrame_counts_frames_witness :
    (∃ c, exampleTracer.lockWeak exampleView.m_connectedThreadContext = some c ∧
      c.AutomaticFrameIncrement = true ∧ (5 : Int) ≤ exampleView.m_connectionTimeoutTime) ∧
    TickFrame exampleTracer 5 exampleView =
      { exampleView with
        m_frameCountWhileConnected := exampleView.m_frameCountWhileConnected + 1
        m_frameSortCounter := 0 } ∧
    (¬ ∃ c, exampleTracer.lockWeak exampleView.m_connectedThreadContext = some c ∧
      c.AutomaticFrameIncrement = true ∧ (101 : Int) ≤ exampleView.m_connectionTimeoutTime) ∧
    TickFrame exampleTracer 101 exampleView = exampleView :=
  ⟨⟨_, rfl, rfl, by decide⟩,
    (TickFrame_counts_frames exampleTracer 5 exampleView).1 ⟨_, rfl, rfl, by decide⟩,
    by rintro ⟨c, _, _, h⟩; exact absurd h (by decide),
    (TickFrame_counts_frames exampleTracer 101 exampleView).2.1
      (by rintro ⟨c, _, _, h⟩; exact absurd h (by decide))⟩

/-! ## The root list after the aging pass is sorted -/

/-- C27: for every root list, whatever the `SortOrder` and `LastSeenAge` values of the roots and
whatever the per-node pass does, the root list `vaTracerView::PostUpdateRecursive` leaves is in
non-decreasing order of `SortOrder`; so is the root list after `Disconnect`, which ends with
this pass. -/
theorem PostUpdateRecursive_roots_sorted (H : NodeDecl) (roots : List Node) :
    (PostUpdateRecursive H roots).Pairwise (fun a b => a.SortOrder ≤ b.SortOrder) ∧
    ∀ (t : vaTracer) (v : vaTracerView) (sync : Option vaTracerView),
      (Disconnect H t v sync).2.m_rootNodes.Pairwise (fun a b => a.SortOrder ≤ b.SortOrder) :=
  ⟨PostUpdateRecursive_sorted H roots, fun _ _ _ => PostUpdateRecursive_sorted H _⟩

/-! ## Wildcard names, connected views, repeated names -/

theorem nameMatches_iff_startsWith (p : Str) (c : ThreadContext) :
    nameMatches p c = true ↔ p <+: c.Name := by
  simp only [nameMatches, Bool.and_eq_true, decide_eq_true_eq, beq_iff_eq]
  constructor
  · rintro ⟨_, h⟩
    rw [h]
    exact List.take_prefix _ _
  · intro h
    refine ⟨h.length_le, ?_⟩
    obtain ⟨s, hs⟩ := h
    rw [← hs]
    simp

theorem nameToSearch_wildcard (p : Str) : nameToSearch (p ++ ['*']) = p := by
  simp [nameToSearch]

theorem findContext_first (t : vaTracer) (p : Str) (h : Nat) (post : List Nat)
    (c : ThreadContext) (hlive : t.lock h = some c) (hmatch : p <+: c.Name) :
    ∀ (pre : List Nat), (∀ k ∈ pre, ∀ ck, t.lock k = some ck → ¬ p <+: ck.Name) →
      findContext t p (pre ++ h :: post) = some (h, c)
  | [], _ => by
    simp [findContext, hlive, (nameMatches_iff_startsWith p c).mpr hmatch]
  | k :: pre, hpre => by
    have ih := findContext_first t p h post c hlive hmatch pre
      (fun k' hk' => hpre k' (List.mem_cons_of_mem _ hk'))
    simp only [List.cons_append, findContext]
    cases hk : t.lock k with
    | none => simpa using ih
    | some ck =>
      have hno : ¬ nameMatches p ck = true := fun hm =>
        hpre k (List.mem_cons_self _ _) ck hk ((nameMatches_iff_startsWith p ck).mp hm)
      simpa [hno] using ih

/-- C26: asked for `p*` on a Disconnected view, `ConnectToThreadContext` attaches the view to
the Timeline `h` of the registry that is live and whose `Name` starts with `p`, when no entry
before `h` in the registry is a live Timeline whose `Name` starts with `p`: entries before it
that are dead or do not match are passed over, entries after it are not looked at, whatever
they are. With `p` empty every live Timeline matches, so the first live one is taken. -/
theorem ConnectToThreadContext_wildcard_first_match (H : NodeDecl) (t : vaTracer) (self : Nat)
    (v : vaTracerView) (p : Str) (timeout now : Int) (pre : List Nat) (h : Nat) (post : List Nat)
    (c : ThreadContext)
    (hdis : t.lockWeak v.m_connectedThreadContext = none)
    (hreg : t.s_threadContexts = pre ++ h :: post)
    (hpre : ∀ k ∈ pre, ∀ ck, t.lock k = some ck → ¬ p <+: ck.Name)
    (hlive : t.lock h = some c) (hmatch : p <+: c.Name) :
    ∃ (t' : vaTracer) (v' : vaTracerView),
      ConnectToThreadContext H t self v (p ++ ['*']) timeout now = Except.ok (t', v') ∧
      v'.m_connectedThreadContext = some h ∧
      v'.m_connectionName = c.Name ∧
      t'.lock h = some { c with AttachedViewer := some self } ∧
      ∀ h', h' ≠ h → t'.lock h' = t.lock h' := by
  have hf := findContext_first t p h post c hlive hmatch pre hpre
  rw [← hreg] at hf
  have hlookup : ∀ w : vaTracerView, connectLookup H t self w (p ++ ['*']) timeout now =
      ({ t with heap := t.heap.set h (some { c with AttachedViewer := some self }) },
        { w with
          m_connectionName := c.Name
          m_connectedThreadContext := some h
          m_frameCountWhileConnected := 0
          m_lastConnectedTime := now
          m_connectionTimeoutTime := now + timeout
          m_rootNodes := PreUpdateRecursive H w.m_rootNodes }) := by
    intro w
    simp only [connectLookup, nameToSearch_wildcard, hf]
    simp
  obtain ⟨w, _, hw⟩ := ConnectToThreadContext_disconnected H t self v (p ++ ['*']) timeout now hdis
  rw [hlookup w] at hw
  exact ⟨_, _, hw, rfl, rfl, lock_set_self t h c _ hlive,
    fun h' hne => lock_set_other t h h' _ hne⟩

theorem ConnectToThreadContext_wildcard_first_match_witness :
    (restartedTracer.lockWeak freshView.m_connectedThreadContext = none ∧
      restartedTracer.s_threadContexts = [0] ++ 1 :: [] ∧
      (∀ k ∈ [0], ∀ ck, restartedTracer.lock k = some ck → ¬ ['M', 'a'] <+: ck.Name) ∧
      restartedTracer.lock 1 = some ⟨['M', 'a', 'i', 'n'], true, none⟩ ∧
      ['M', 'a'] <+: (⟨['M', 'a', 'i', 'n'], true, none⟩ : ThreadContext).Name) ∧
    ∃ (t' : vaTracer) (v' : vaTracerView),
      ConnectToThreadContext exampleDecl restartedTracer 7 freshView (['M', 'a'] ++ ['*']) 10 20 =
        Except.ok (t', v') ∧
      v'.m_connectedThreadContext = some 1 ∧
      v'.m_connectionName = (⟨['M', 'a', 'i', 'n'], true, none⟩ : ThreadContext).Name ∧
      t'.lock 1 = some { (⟨['M', 'a', 'i', 'n'], true, none⟩ : ThreadContext) with
        AttachedViewer := some 7 } ∧
      ∀ h', h' ≠ 1 → t'.lock h' = restartedTracer.lock h' :=
  ⟨⟨rfl, rfl, (by
      intro k hk ck hck
      simp only [List.mem_singleton] at hk
      subst hk
      cases hck), rfl, ⟨['i', 'n'], rfl⟩⟩,
    ConnectToThreadContext_wildcard_first_match exampleDecl restartedTracer 7 freshView ['M', 'a']
      10 20 [0] 1 [] ⟨['M', 'a', 'i', 'n'], true, none⟩ rfl rfl (by
        intro k hk ck hck
        simp only [List.mem_singleton] at hk
        subst hk
        cases hck) rfl ⟨['i', 'n'], rfl⟩⟩

/-- C28, the code at the failing input: the view is connected to the Timeline `Main` under the
name `Main` and `ConnectToThreadContext` is called with the name `Other`. Whatever the per-node
passes of vaProfiler.h do, the call ends in the exception of the second `lock.unlock( )`: the
view has been disconnected (the Timeline's `AttachedViewer` is cleared), `m_nameChanged` is set
and no new connection is made. With the name `Main` itself the call returns. -/
theorem ConnectToThreadContext_connected_new_name_throws :
    (∀ H : NodeDecl, ∃ t' v',
      ConnectToThreadContext H exampleTracer 0 exampleView ['O', 't', 'h', 'e', 'r'] 10 5 =
        Except.error (t', v') ∧
      t'.lock 0 = some ⟨['M', 'a', 'i', 'n'], true, none⟩ ∧
      v'.m_connectedThreadContext = none ∧ v'.m_nameChanged = true) ∧
    (∀ H : NodeDecl, ∃ t' v',
      ConnectToThreadContext H exampleTracer 0 exampleView ['M', 'a', 'i', 'n'] 10 5 =
        Except.ok (t', v') ∧
      t'.lock 0 = some ⟨['M', 'a', 'i', 'n'], true, some 0⟩ ∧
      v'.m_connectedThreadContext = some 0) :=
  ⟨fun _ => ⟨_, _, rfl, rfl, rfl, rfl⟩, fun _ => ⟨_, _, rfl, rfl, rfl⟩⟩

/-- C29, the code at the failing input: the only Timeline is `MainThread`. A new view connects
with the name `Main*`, receives a batch with the span `A`, is disconnected, and connects with
`Main*` again, to the same Timeline. The stored connection name is `MainThread`, not `Main*`,
so the second call takes the name for changed, whatever the per-node passes of vaProfiler.h
do: `m_nameChanged` is set, the root list is empty after the call (with per-node passes that
leave the nodes alone, the root `A` was there before it), and the `Disconnect` that follows
takes nothing from its sync target. -/
theorem ConnectToThreadContext_wildcard_again_resets :
    (∀ H : NodeDecl, ∃ t1 v1 t3 v3,
      ConnectToThreadContext H mainThreadTracer 1 freshView ['M', 'a', 'i', 'n', '*'] 10 0 =
        Except.ok (t1, v1) ∧
      v1.m_connectedThreadContext = some 0 ∧
      v1.m_connectionName = ['M', 'a', 'i', 'n', 'T', 'h', 'r', 'e', 'a', 'd'] ∧
      ConnectToThreadContext H
          (Disconnect H t1 (UpdateCallback t1 1 v1 [⟨['A'], 0, 10, 0⟩] true) none).1 1
          (Disconnect H t1 (UpdateCallback t1 1 v1 [⟨['A'], 0, 10, 0⟩] true) none).2
          ['M', 'a', 'i', 'n', '*'] 10 20 =
        Except.ok (t3, v3) ∧
      v3.m_connectedThreadContext = some 0 ∧
      v3.m_nameChanged = true ∧
      v3.m_rootNodes = [] ∧
      ∀ syncReportUI : vaTracerView,
        (Disconnect H t3 v3 (some syncReportUI)).2.m_rootNodes = []) ∧
    ∃ t1 v1,
      ConnectToThreadContext exampleDecl mainThreadTracer 1 freshView ['M', 'a', 'i', 'n', '*']
        10 0 = Except.ok (t1, v1) ∧
      (Disconnect exampleDecl t1 (UpdateCallback t1 1 v1 [⟨['A'], 0, 10, 0⟩] true)
        none).2.m_rootNodes.map (fun n => n.Name) = [['A']] :=
  ⟨fun _ => ⟨_, _, _, _, rfl, rfl, rfl, rfl, rfl, rfl, rfl, fun _ => rfl⟩, ⟨_, _, rfl, rfl⟩⟩

/-! ## CleanupPath -/

/-- C24, the code at the failing inputs: `/usr/lib` and `\dir\file`, which start with a single
separator, come back starting with two backslashes, as the network path `//server/share` does;
in general no result with `useBackslash` starts with exactly one backslash: its first character
is not a backslash, or its second one is a backslash too. Inside the path the separators are
turned and collapsed as described (`a//b/c` gives `a\b\c`). -/
theorem CleanupPath_doubles_single_leading_separator (ToLower : Str → Str) :
    CleanupPath ToLower "/usr/lib".toList false true = "\\\\usr\\lib".toList ∧
    CleanupPath ToLower "\\dir\\file".toList false true = "\\\\dir\\file".toList ∧
    CleanupPath ToLower "//server/share".toList false true = "\\\\server\\share".toList ∧
    CleanupPath ToLower "a//b/c".toList false true = "a\\b\\c".toList ∧
    ∀ (inputPath : Str) (convertToLowercase : Bool),
      (CleanupPath ToLower inputPath convertToLowercase true).head? ≠ some '\\' ∨
      (CleanupPath ToLower inputPath convertToLowercase true)[1]? = some '\\' := by
  refine ⟨rfl, rfl, rfl, rfl, ?_⟩
  intro inputPath convertToLowercase
  unfold CleanupPath
  simp only [Bool.not_true, Bool.false_eq_true, if_false]
  generalize replaceLoop ['\\', '\\'] ['\\'] _ _ = collapsed
  split
  · rename_i hc
    right
    cases collapsed with
    | nil => simp at hc
    | cons x rest => simpa using hc.2
  · rename_i hc
    left
    intro h
    apply hc
    refine ⟨?_, h⟩
    cases collapsed with
    | nil => simp at h
    | cons x rest => simp

/-! ## Sibling names stay unique -/

theorem uniqueNamesList_iff : ∀ (cs : List Node),
    Node.uniqueNamesList cs = true ↔ ∀ c ∈ cs, c.uniqueNames = true
  | [] => by simp [Node.uniqueNamesList]
  | c :: cs => by simp [Node.uniqueNamesList, uniqueNamesList_iff cs]

theorem uniqueNames_iff (n : Node) :
    n.uniqueNames = true ↔ siblingNamesUnique n.ChildNodes = true := by
  cases n
  simp [Node.uniqueNames, siblingNamesUnique]

theorem siblingNamesUnique_iff (roots : List Node) :
    siblingNamesUnique roots = true ↔
      (roots.map (fun c => c.Name)).Nodup ∧ ∀ c ∈ roots, c.uniqueNames = true := by
  simp [siblingNamesUnique, uniqueNamesList_iff]

theorem map_Name_modify (f : Node → Node) (hname : ∀ n, (f n).Name = n.Name) :
    ∀ (l : List Node) (i : Nat),
      (l.modify f i).map (fun c => c.Name) = l.map (fun c => c.Name)
  | [], _ => by simp
  | a :: l, 0 => by simp [hname]
  | a :: l, i + 1 => by simp [map_Name_modify f hname l i]

theorem siblingNamesUnique_modify (f : Node → Node) (hname : ∀ n, (f n).Name = n.Name)
    (roots : List Node) (i : Nat)
    (hf : ∀ n, roots[i]? = some n → n.uniqueNames = true → (f n).uniqueNames = true)
    (h : siblingNamesUnique roots = true) : siblingNamesUnique (roots.modify f i) = true := by
  rw [siblingNamesUnique_iff] at h ⊢
  refine ⟨by rw [map_Name_modify f hname]; exact h.1, ?_⟩
  intro c hc
  obtain ⟨j, hj⟩ := List.getElem?_of_mem hc
  rw [List.getElem?_modify] at hj
  cases hr : roots[j]? with
  | none => simp [hr] at hj
  | some n =>
    have hn := h.2 n (List.getElem?_mem hr)
    by_cases hij : i = j
    · subst hij
      simp only [hr, if_true, Option.map_eq_map, Option.map_some', Option.some.injEq] at hj
      rw [← hj]
      exact hf n hr hn
    · simp only [hr, hij, if_false, Option.map_eq_map, Option.map_some', Option.some.injEq] at hj
      rw [← hj]
      exact hn

theorem findIdx_eq_length_not_mem (name : Str) (ns : List Node)
    (h : findByName name ns = ns.length) : name ∉ ns.map (fun c => c.Name) := by
  intro hmem
  obtain ⟨n, hn, hname⟩ := List.mem_map.mp hmem
  have hlt : findByName name ns < ns.length :=
    List.findIdx_lt_length_of_exists ⟨n, hn, by simp [hname]⟩
  omega

theorem siblingNamesUnique_foldInto (name : Str) (d : Int) (k : Nat) (c : Int) (ns : List Node)
    (h : siblingNamesUnique ns = true) : siblingNamesUnique (foldInto name d k c ns) = true := by
  unfold foldInto
  apply siblingNamesUnique_modify _ (fun n => foldNode_Name d k c n)
  · intro n _ hn
    rw [uniqueNames_iff] at hn ⊢
    exact hn
  · unfold findOrCreate
    split
    · rename_i hfind
      rw [siblingNamesUnique_iff] at h ⊢
      refine ⟨?_, ?_⟩
      · rw [List.map_append, List.map_singleton]
        exact List.Nodup.append h.1 (List.nodup_singleton _)
          (by
            simpa [List.disjoint_singleton] using findIdx_eq_length_not_mem name ns hfind)
      · intro c' hc'
        rcases List.mem_append.mp hc' with hc' | hc'
        · exact h.2 c' hc'
        · simp only [List.mem_singleton] at hc'
          subst hc'
          rfl
    · exact h

theorem siblingNamesUnique_updateListAt (name : Str) (d : Int) (k : Nat) (c : Int) :
    ∀ (p : List Nat) (R : List Node), siblingNamesUnique R = true →
      siblingNamesUnique (updateListAt (foldInto name d k c) p R) = true
  | [], R, h => siblingNamesUnique_foldInto name d k c R h
  | i :: p, R, h => by
    simp only [updateListAt]
    refine siblingNamesUnique_modify
      (fun n => { n with ChildNodes := updateListAt (foldInto name d k c) p n.ChildNodes })
      (fun _ => rfl) R i ?_ h
    intro n _ hn
    rw [uniqueNames_iff] at hn ⊢
    exact siblingNamesUnique_updateListAt name d k c p n.ChildNodes hn

theorem siblingNamesUnique_foldl (chunk : List Entry) : ∀ (st : FoldState),
    siblingNamesUnique st.m_rootNodes = true →
    siblingNamesUnique (chunk.foldl foldSpan st).m_rootNodes = true := by
  induction chunk with
  | nil => exact fun _ h => h
  | cons e chunk ih =>
    intro st h
    exact ih (foldSpan st e) (siblingNamesUnique_updateListAt _ _ _ _ _ _ h)

theorem siblingNamesUnique_syncRoot (H : NodeDecl)
    (hname : ∀ n src : Node, (H.SyncUIRecursive n src).Name = n.Name)
    (hsync : ∀ n src : Node, n.uniqueNames = true → (H.SyncUIRecursive n src).uniqueNames = true)
    (roots : List Node) (src : Node) (h : siblingNamesUnique roots = true) :
    siblingNamesUnique (syncRoot H roots src) = true := by
  unfold syncRoot
  split
  · rename_i hfind
    have hnot : src.Name ∉ roots.map (fun c => c.Name) := by
      intro hmem
      obtain ⟨n, hn, hnm⟩ := List.mem_map.mp hmem
      have hlt : roots.findIdx (fun node => node.Name == src.Name) < roots.length :=
        List.findIdx_lt_length_of_exists ⟨n, hn, by simp [hnm]⟩
      omega
    rw [siblingNamesUnique_iff] at h ⊢
    refine ⟨?_, ?_⟩
    · rw [List.map_append, List.map_singleton, hname]
      exact List.Nodup.append h.1 (List.nodup_singleton _)
        (by simpa [List.disjoint_singleton] using hnot)
    · intro c' hc'
      rcases List.mem_append.mp hc' with hc' | hc'
      · exact h.2 c' hc'
      · simp only [List.mem_singleton] at hc'
        subst hc'
        exact hsync _ _ rfl
  · exact siblingNamesUnique_modify _ (fun n => hname n src) roots _
      (fun n _ hn => hsync n src hn) h

/-- C25: when every sibling list of the view's tree has pairwise distinct names, so it is after
`UpdateCallback` on any batch (processed or ignored), since a node is created only where
`find_if` found none of that name. The root merge of `Disconnect` keeps it too, for every sync
target, also one that lists a name twice (the placeholder pushed for the first is found for
the second), as far as `Node::SyncUIRecursive` of vaProfiler.h keeps the name of the node it is
called on and names distinct below it. -/
theorem sibling_names_stay_unique (t : vaTracer) (now : Int) (v : vaTracerView)
    (h : siblingNamesUnique v.m_rootNodes = true) :
    (∀ (chunk : List Entry) (inc : Bool),
      siblingNamesUnique (UpdateCallback t now v chunk inc).m_rootNodes = true) ∧
    ∀ (H : NodeDecl) (syncReportUI : Option vaTracerView),
      (∀ n src : Node, (H.SyncUIRecursive n src).Name = n.Name) →
      (∀ n src : Node, n.uniqueNames = true → (H.SyncUIRecursive n src).uniqueNames = true) →
      siblingNamesUnique (syncedRoots H (detach t v).2 syncReportUI) = true := by
  refine ⟨fun chunk inc => ?_, fun H syncReportUI hname hsync => ?_⟩
  · unfold UpdateCallback
    split
    · exact h
    · split
      · exact h
      · exact siblingNamesUnique_foldl chunk _ (by rw [loopInit, bumpFrame_rootNodes]; exact h)
  · have h' : siblingNamesUnique (detach t v).2.m_rootNodes = true := by
      rw [detach_rootNodes]
      exact h
    cases syncReportUI with
    | none => exact h'
    | some s =>
      simp only [syncedRoots]
      split
      · have key : ∀ (srcs : List Node) (roots : List Node),
            siblingNamesUnique roots = true →
            siblingNamesUnique (srcs.foldl (syncRoot H) roots) = true := by
          intro srcs
          induction srcs with
          | nil => exact fun _ h => h
          | cons src srcs ih =>
            exact fun roots h => ih _ (siblingNamesUnique_syncRoot H hname hsync roots src h)
        exact key _ _ h'
      · exact h'

theorem sibling_names_stay_unique_witness :
    siblingNamesUnique agedView.m_rootNodes = true ∧
    siblingNamesUnique
      (UpdateCallback exampleTracer 5 agedView unorderedChunk true).m_rootNodes = true ∧
    siblingNamesUnique
      (syncedRoots exampleDecl (detach exampleTracer agedView).2 (some twiceView)) = true ∧
    (syncedRoots exampleDecl (detach exampleTracer agedView).2 (some twiceView)).map
      (fun c => c.Name) = [['A'], ['Z'], ['X']] :=
  ⟨by decide,
    (sibling_names_stay_unique exampleTracer 5 agedView (by decide)).1 unorderedChunk true,
    (sibling_names_stay_unique exampleTracer 5 agedView (by decide)).2 exampleDecl (some twiceView)
      (fun _ _ => rfl) (fun _ _ h => h),
    by decide⟩

/-! ## The root merge of `Disconnect` -/

theorem syncRoot_names (H : NodeDecl)
    (hname : ∀ n src : Node, (H.SyncUIRecursive n src).Name = n.Name)
    (roots : List Node) (src : Node) :
    src.Name ∈ (syncRoot H roots src).map (fun c => c.Name) ∧
    ∀ name ∈ roots.map (fun c => c.Name), name ∈ (syncRoot H roots src).map (fun c => c.Name) := by
  unfold syncRoot
  split
  · refine ⟨?_, fun name hn => ?_⟩
    · simp [hname]
    · rw [List.map_append]
      exact List.mem_append_left _ hn
  · rename_i hfind
    have hlt : roots.findIdx (fun node => node.Name == src.Name) < roots.length :=
      lt_of_le_of_ne (List.findIdx_le_length _) hfind
    have hp : ((roots[roots.findIdx (fun node => node.Name == src.Name)]).Name == src.Name) = true :=
      List.findIdx_getElem (p := fun node : Node => node.Name == src.Name) (w := hlt)
    rw [map_Name_modify _ (fun n => hname n src)]
    refine ⟨?_, fun name hn => hn⟩
    rw [← eq_of_beq hp]
    exact List.mem_map_of_mem _ (List.getElem_mem _)

theorem foldl_syncRoot_names (H : NodeDecl)
    (hname : ∀ n src : Node, (H.SyncUIRecursive n src).Name = n.Name) :
    ∀ (srcs roots : List Node),
      (∀ name ∈ roots.map (fun c => c.Name),
        name ∈ (srcs.foldl (syncRoot H) roots).map (fun c => c.Name)) ∧
      ∀ name ∈ srcs.map (fun c => c.Name),
        name ∈ (srcs.foldl (syncRoot H) roots).map (fun c => c.Name)
  | [], roots => ⟨fun _ h => h, fun _ h => by simp at h⟩
  | src :: srcs, roots => by
    have ih := foldl_syncRoot_names H hname srcs (syncRoot H roots src)
    have h1 := syncRoot_names H hname roots src
    refine ⟨fun name hn => ih.1 name (h1.2 name hn), fun name hn => ?_⟩
    simp only [List.map_cons, List.mem_cons] at hn
    rcases hn with rfl | hn
    · exact ih.1 _ h1.1
    · exact ih.2 name hn

theorem detach_nameChanged (t : vaTracer) (v : vaTracerView) :
    (detach t v).2.m_nameChanged = v.m_nameChanged := by
  unfold detach
  split
  · rfl
  · split <;> rfl

/-- C23 (counterexample): the view's only root `X` was not seen in the last pass, the sync
target holds a root `X`, the connection name is unchanged. For every declaration of the
per-node passes under which the synced root `X` leaves the aging pass with a `LastSeenAge` above
the threshold (as with the aging pass of the specification and threshold 1), the root list
after `Disconnect( syncTarget )` does not hold the name `X` of the sync target. -/
theorem Disconnect_sync_root_evicted :
    (staleView.m_nameChanged = false ∧
      (agingDecl.PostUpdateRecursive
        (agingDecl.SyncUIRecursive (leaf ['X'] 0 1) (leaf ['X'] 0 0))).LastSeenAge >
          agingDecl.LastSeenAgeToKeepAlive) ∧
    ¬ ∃ H : NodeDecl,
      (H.PostUpdateRecursive (H.SyncUIRecursive (leaf ['X'] 0 1) (leaf ['X'] 0 0))).LastSeenAge >
          H.LastSeenAgeToKeepAlive ∧
        ∀ name ∈ seenView.m_rootNodes.map (fun c => c.Name),
          name ∈ (Disconnect H exampleTracer staleView (some seenView)).2.m_rootNodes.map
            (fun c => c.Name) := by
  refine ⟨⟨rfl, by decide⟩, ?_⟩
  rintro ⟨H, hage, hall⟩
  have hroots : (Disconnect H exampleTracer staleView (some seenView)).2.m_rootNodes =
      PostUpdateRecursive H [H.SyncUIRecursive (leaf ['X'] 0 1) (leaf ['X'] 0 0)] := rfl
  have hperm := PostUpdateRecursive_perm H [H.SyncUIRecursive (leaf ['X'] 0 1) (leaf ['X'] 0 0)]
  have hnil : PostUpdateRecursive H [H.SyncUIRecursive (leaf ['X'] 0 1) (leaf ['X'] 0 0)] = [] := by
    apply List.Perm.eq_nil
    simpa [hage] using hperm
  have := hall ['X'] (by simp [seenView, leaf])
  rw [hroots, hnil] at this
  simp at this

/-- C23 (amended): for a view whose connection name has not changed and every sync target,
when `Node::SyncUIRecursive` keeps the name of the node it is called on, every root name of
the sync target is the name of a root of the view after the root merge of `Disconnect`; the
aging pass that ends `Disconnect` then keeps exactly the merged roots whose `LastSeenAge`, as
the per-node pass leaves it, does not exceed the threshold. -/
theorem Disconnect_sync_merges_root_names (H : NodeDecl) (t : vaTracer) (v : vaTracerView)
    (syncReportUI : vaTracerView)
    (hname : ∀ n src : Node, (H.SyncUIRecursive n src).Name = n.Name)
    (hnc : v.m_nameChanged = false) :
    (∀ name ∈ syncReportUI.m_rootNodes.map (fun c => c.Name),
      name ∈ (syncedRoots H (detach t v).2 (some syncReportUI)).map (fun c => c.Name)) ∧
    (∀ name ∈ v.m_rootNodes.map (fun c => c.Name),
      name ∈ (syncedRoots H (detach t v).2 (some syncReportUI)).map (fun c => c.Name)) ∧
    ∀ r : Node, r ∈ (Disconnect H t v (some syncReportUI)).2.m_rootNodes ↔
      ∃ m ∈ syncedRoots H (detach t v).2 (some syncReportUI),
        r = H.PostUpdateRecursive m ∧ r.LastSeenAge ≤ H.LastSeenAgeToKeepAlive := by
  have hs : syncedRoots H (detach t v).2 (some syncReportUI) =
      syncReportUI.m_rootNodes.foldl (syncRoot H) v.m_rootNodes := by
    simp [syncedRoots, detach_nameChanged, hnc, detach_rootNodes]
  have hf := foldl_syncRoot_names H hname syncReportUI.m_rootNodes v.m_rootNodes
  refine ⟨by rw [hs]; exact hf.2, by rw [hs]; exact hf.1, fun r => ?_⟩
  rw [show (Disconnect H t v (some syncReportUI)).2.m_rootNodes =
    PostUpdateRecursive H (syncedRoots H (detach t v).2 (some syncReportUI)) from rfl]
  rw [(PostUpdateRecursive_perm H _).mem_iff, List.mem_filter, List.mem_map]
  constructor
  · rintro ⟨⟨m, hm, rfl⟩, hk⟩
    exact ⟨m, hm, rfl, by simpa using hk⟩
  · rintro ⟨m, hm, rfl, hk⟩
    exact ⟨⟨m, hm, rfl⟩, by simpa using hk⟩

theorem Disconnect_sync_merges_root_names_witness :
    ((∀ n src : Node, (agingDecl.SyncUIRecursive n src).Name = n.Name) ∧
      agedView.m_nameChanged = false) ∧
    (∀ name ∈ twiceView.m_rootNodes.map (fun c => c.Name),
      name ∈ (syncedRoots agingDecl (detach exampleTracer agedView).2 (some twiceView)).map
        (fun c => c.Name)) ∧
    (syncedRoots agingDecl (detach exampleTracer agedView).2 (some twiceView)).map
      (fun c => c.Name) = [['A'], ['Z'], ['X']] ∧
    (Disconnect agingDecl exampleTracer agedView (some twiceView)).2.m_rootNodes.map
      (fun c => c.Name) = [['X']] :=
  ⟨⟨fun _ _ => rfl, rfl⟩,
    (Disconnect_sync_merges_root_names agingDecl exampleTracer agedView twiceView
      (fun _ _ => rfl) rfl).1,
    by decide, by decide⟩

/-! ## Fields of the nodes a batch touches -/

/-- A span leaves every field of every node but its destination as it was (the children
apart). -/
theorem nodeAt_foldSpan_other_field {α : Type} (f : Node → α)
    (hf : ∀ (n : Node) (cs : List Node), f { n with ChildNodes := cs } = f n)
    (name : Str) (d : Int) (k : Nat) (c : Int) :
    ∀ (p : List Nat) (R : List Node) (q : List Nat),
      q ≠ p ++ [findByName name (listAt p R)] →
      (nodeAt q (updateListAt (foldInto name d k c) p R)).map f = (nodeAt q R).map f
  | [], R, [], _ => rfl
  | [], R, [j], hq => by
    have hj : j ≠ findByName name R := by simpa [listAt] using hq
    simp only [updateListAt, nodeAt, foldInto_getElem?_ne name d k c R j hj]
  | [], R, j :: k' :: q, _ => by
    simp only [updateListAt, nodeAt]
    by_cases hj : j = findByName name R
    · subst hj
      rw [foldInto_getElem?_eq]
      cases h : R[findByName name R]? with
      | none => simp [foldNode_ChildNodes, Node.Reset, nodeAt_nil]
      | some n => simp [foldNode_ChildNodes]
    · rw [foldInto_getElem?_ne name d k c R j hj]
  | i :: p, R, [], _ => rfl
  | i :: p, R, [j], _ => by
    simp only [updateListAt, nodeAt, List.getElem?_modify]
    cases R[j]? with
    | none => rfl
    | some n => by_cases hij : i = j <;> simp [hij, hf]
  | i :: p, R, j :: k' :: q, hq => by
    simp only [updateListAt, nodeAt, List.getElem?_modify]
    by_cases hij : i = j
    · subst hij
      cases hi : R[i]? with
      | none => simp
      | some n =>
        have hq' : k' :: q ≠ p ++ [findByName name (listAt p n.ChildNodes)] := by
          intro hc
          apply hq
          simp [listAt, hi, hc]
        simpa using nodeAt_foldSpan_other_field f hf name d k c p n.ChildNodes (k' :: q) hq'
    · cases R[j]? with
      | none => simp
      | some n => simp [hij]

theorem foldSpan_other_field {α : Type} (f : Node → α)
    (hf : ∀ (n : Node) (cs : List Node), f { n with ChildNodes := cs } = f n)
    (st : FoldState) (e : Entry) (q : List Nat)
    (hq : q ≠ (foldSpan st e).currentDstStack.reverse) :
    (nodeAt q (foldSpan st e).m_rootNodes).map f = (nodeAt q st.m_rootNodes).map f := by
  simp only [foldSpan] at hq ⊢
  exact nodeAt_foldSpan_other_field f hf _ _ _ _ _ _ q (by simpa using hq)

theorem foldl_frameSortCounter (chunk : List Entry) : ∀ (st : FoldState),
    (chunk.foldl foldSpan st).m_frameSortCounter = st.m_frameSortCounter + chunk.length := by
  induction chunk with
  | nil => intro st; simp
  | cons e chunk ih =>
    intro st
    rw [List.foldl_cons, ih]
    simp only [foldSpan, List.length_cons, Nat.cast_add, Nat.cast_one]
    ring

theorem popStacks_length (e : Entry) : ∀ (src : List Entry) (dst : List Nat),
    src.length = dst.length →
    (popStacks e src dst).1.length = (popStacks e src dst).2.length
  | [], dst, h => by simpa [popStacks] using h
  | top :: src, dst, h => by
    simp only [popStacks]
    split
    · apply popStacks_length e src dst.tail
      cases dst with
      | nil => simp at h
      | cons x dst => simpa using h
    · exact h

theorem foldl_stacks_length (chunk : List Entry) : ∀ (st : FoldState),
    st.currentSrcStack.length = st.currentDstStack.length →
    (chunk.foldl foldSpan st).currentSrcStack.length =
      (chunk.foldl foldSpan st).currentDstStack.length := by
  induction chunk with
  | nil => exact fun _ h => h
  | cons e chunk ih =>
    intro st h
    apply ih
    simp only [foldSpan, List.length_cons, add_left_inj]
    exact popStacks_length e _ _ h

/-- The node a span is folded into has the length of its path, less one, as `RecursionDepth`,
and keeps it whatever is folded later. -/
theorem foldl_depth_kept (p : List Nat) (chunk : List Entry) : ∀ (st : FoldState),
    (namesAlong st.currentDstStack.reverse st.m_rootNodes).length = st.currentDstStack.length →
    (nodeAt p st.m_rootNodes).map (fun n => n.RecursionDepth) = some ((p.length : Int) - 1) →
    (nodeAt p (chunk.foldl foldSpan st).m_rootNodes).map (fun n => n.RecursionDepth) =
      some ((p.length : Int) - 1) := by
  induction chunk with
  | nil => exact fun _ _ h => h
  | cons e chunk ih =>
    intro st hv h
    apply ih (foldSpan st e) (foldSpan_valid st e hv).2
    by_cases hp : p = (foldSpan st e).currentDstStack.reverse
    · rw [hp, foldSpan_destination st e hv]
      simp [foldNode, foldSpan]
    · rw [foldSpan_other_field (fun n => n.RecursionDepth) (fun _ _ => rfl) st e p hp]
      exact h

theorem destinations_depth (chunk : List Entry) : ∀ (st : FoldState),
    (namesAlong st.currentDstStack.reverse st.m_rootNodes).length = st.currentDstStack.length →
    (destinations st chunk).map
        (fun p => (nodeAt p (chunk.foldl foldSpan st).m_rootNodes).map (fun n => n.RecursionDepth)) =
      (destinations st chunk).map (fun p => some ((p.length : Int) - 1)) := by
  induction chunk with
  | nil => intro st _; rfl
  | cons e chunk ih =>
    intro st hv
    have hv1 := (foldSpan_valid st e hv).2
    simp only [destinations, List.map_cons, List.foldl_cons, ih (foldSpan st e) hv1,
      List.cons.injEq, and_true]
    apply foldl_depth_kept _ chunk (foldSpan st e) hv1
    rw [foldSpan_destination st e hv]
    simp [foldNode, foldSpan]

mutual
theorem Scope.paths_length : ∀ (s : Scope) (d : Int) (pre : List Str), (pre.length : Int) = d →
    (Scope.paths pre s).map (fun names => (names.length : Int) - 1) =
      (Scope.entries d s).map (fun e => e.Depth)
  | ⟨name, b, e, cs⟩, d, pre, h => by
    simp only [Scope.paths, Scope.entries, List.map_cons, List.length_append,
      List.length_singleton, Nat.cast_add, Nat.cast_one, add_sub_cancel_right, h,
      List.cons.injEq, true_and]
    exact Scope.pathsList_length cs (d + 1) (pre ++ [name]) (by simp [h])
theorem Scope.pathsList_length : ∀ (cs : List Scope) (d : Int) (pre : List Str),
    (pre.length : Int) = d →
    (Scope.pathsList pre cs).map (fun names => (names.length : Int) - 1) =
      (Scope.entriesList d cs).map (fun e => e.Depth)
  | [], _, _, _ => rfl
  | s :: rest, d, pre, h => by
    simp only [Scope.pathsList, Scope.entriesList, List.map_append,
      Scope.paths_length s d pre h, Scope.pathsList_length rest d pre h]
end

theorem destinations_lengths (chunk : List Entry) : ∀ (st : FoldState),
    (namesAlong st.currentDstStack.reverse st.m_rootNodes).length = st.currentDstStack.length →
    (foldedInto st chunk).map (fun names => (names.length : Int) - 1) =
      (destinations st chunk).map (fun p => (p.length : Int) - 1) := by
  induction chunk with
  | nil => intro st _; rfl
  | cons e chunk ih =>
    intro st hv
    have hv1 := (foldSpan_valid st e hv).2
    simp only [foldedInto, destinations, List.map_cons, ih (foldSpan st e) hv1, hv1,
      List.length_reverse]

/-- C30 (counterexample): two batches that list the spans of properly nested scopes in order
of `Beginning`, each with two spans beginning at the same instant. For the top-level scopes
`S[0,0)`, `T[0,5)` listed as `T, S` the node the span `S` (of `Depth` 0) is folded into has
`RecursionDepth` 1; for `P[0,10) { C[0,5) }` listed as `C, P` the node the span `C` (of `Depth`
1) is folded into has `RecursionDepth` 0. -/
theorem UpdateCallback_RecursionDepth_on_equal_Beginning :
    ((exampleTracer.lockWeak exampleView.m_connectedThreadContext).isSome = true ∧
      (5 : Int) ≤ exampleView.m_connectionTimeoutTime) ∧
    (Scope.nestedList 0 5 siblingScopes = true ∧
      siblingChunk.Perm (Scope.entriesList 0 siblingScopes) ∧
      siblingChunk.Pairwise (fun a b => a.Beginning ≤ b.Beginning) ∧
      siblingChunk.map (fun e => (e.Name, e.Depth)) = [(['T'], 0), (['S'], 0)] ∧
      (destinations (loopInit (bumpFrame true exampleView)) siblingChunk).map
          (fun p => (nodeAt p
            (UpdateCallback exampleTracer 5 exampleView siblingChunk true).m_rootNodes).map
              (fun n => (n.Name, n.RecursionDepth))) =
        [some (['T'], 0), some (['S'], 1)]) ∧
    (Scope.nestedList 0 10 tieScopes = true ∧
      tieChunk.Perm (Scope.entriesList 0 tieScopes) ∧
      tieChunk.Pairwise (fun a b => a.Beginning ≤ b.Beginning) ∧
      tieChunk.map (fun e => (e.Name, e.Depth)) = [(['C'], 1), (['P'], 0)] ∧
      (destinations (loopInit (bumpFrame true exampleView)) tieChunk).map
          (fun p => (nodeAt p
            (UpdateCallback exampleTracer 5 exampleView tieChunk true).m_rootNodes).map
              (fun n => (n.Name, n.RecursionDepth))) =
        [some (['C'], 0), some (['P'], 0)]) := by
  refine ⟨by decide, ⟨by decide, List.Perm.swap _ _ _, by decide, by decide, by decide⟩,
    ⟨by decide, List.Perm.swap _ _ _, by decide, by decide, by decide⟩⟩

/-- C30 (amended): on a connected, not timed-out view, for every batch that lists the spans of
properly nested scopes in the order in which the scopes began (the only listing of these spans
in order of `Beginning` when no two of them begin at the same instant), with `Depth` the number
of enclosing scopes (0 at top level), the node each span was folded into has, in the tree
`UpdateCallback` returns, a `RecursionDepth` equal to the span's `Depth`; and for every batch
whatever the source stack and the destination stack have the same size at the entry of every
iteration and at the end. -/
theorem UpdateCallback_RecursionDepth_is_Depth (t : vaTracer) (now : Int) (v : vaTracerView)
    (inc : Bool) (hconn : (t.lockWeak v.m_connectedThreadContext).isSome = true)
    (htime : now ≤ v.m_connectionTimeoutTime) :
    (∀ (forest : List Scope) (lo hi : Int), Scope.nestedList lo hi forest = true →
      (destinations (loopInit (bumpFrame inc v)) (Scope.entriesList 0 forest)).map
          (fun p => (nodeAt p
            (UpdateCallback t now v (Scope.entriesList 0 forest) inc).m_rootNodes).map
              (fun n => n.RecursionDepth)) =
        (Scope.entriesList 0 forest).map (fun e => some e.Depth) ∧
      ∀ chunk : List Entry, chunk.Perm (Scope.entriesList 0 forest) →
        chunk.Pairwise (fun a b => a.Beginning < b.Beginning) →
        chunk = Scope.entriesList 0 forest ∧
        (destinations (loopInit (bumpFrame inc v)) chunk).map
            (fun p => (nodeAt p (UpdateCallback t now v chunk inc).m_rootNodes).map
              (fun n => n.RecursionDepth)) =
          chunk.map (fun e => some e.Depth)) ∧
    ∀ (chunk : List Entry) (k : Nat),
      (loopStateAt v inc chunk k).currentSrcStack.length =
        (loopStateAt v inc chunk k).currentDstStack.length := by
  have hdepth : ∀ (forest : List Scope) (lo hi : Int), Scope.nestedList lo hi forest = true →
      (destinations (loopInit (bumpFrame inc v)) (Scope.entriesList 0 forest)).map
          (fun p => (nodeAt p
            (UpdateCallback t now v (Scope.entriesList 0 forest) inc).m_rootNodes).map
              (fun n => n.RecursionDepth)) =
        (Scope.entriesList 0 forest).map (fun e => some e.Depth) := by
    intro forest lo hi hn
    have hroots : (UpdateCallback t now v (Scope.entriesList 0 forest) inc).m_rootNodes =
        ((Scope.entriesList 0 forest).foldl foldSpan (loopInit (bumpFrame inc v))).m_rootNodes := by
      rw [UpdateCallback_rootNodes t now v _ inc hconn htime]
      rfl
    have hv := loopInit_valid (bumpFrame inc v)
    rw [hroots, destinations_depth _ _ hv]
    have h1 := destinations_lengths (Scope.entriesList 0 forest) _ hv
    have h2 := (foldedInto_list forest 0 lo hi (loopInit (bumpFrame inc v)) [] [] [] [] [] hn
      (stackInv_loopInit _ lo hi)).2
    have h3 := Scope.pathsList_length forest 0 [] rfl
    rw [h2, h3] at h1
    have := congrArg (List.map some) h1
    simpa [List.map_map, Function.comp_def] using this.symm
  refine ⟨fun forest lo hi hn => ⟨hdepth forest lo hi hn, fun chunk hperm hlt => ?_⟩,
    fun chunk k => foldl_stacks_length _ _ rfl⟩
  have heq := Scope.entriesList_of_increasing forest lo hi hn chunk hperm hlt
  refine ⟨heq, ?_⟩
  rw [heq]
  exact hdepth forest lo hi hn

theorem UpdateCallback_RecursionDepth_is_Depth_witness :
    ((exampleTracer.lockWeak exampleView.m_connectedThreadContext).isSome = true ∧
      (5 : Int) ≤ exampleView.m_connectionTimeoutTime ∧
      Scope.nestedList 0 10 exampleScopes = true ∧
      (Scope.entriesList 0 exampleScopes).Perm (Scope.entriesList 0 exampleScopes) ∧
      (Scope.entriesList 0 exampleScopes).Pairwise (fun a b => a.Beginning < b.Beginning)) ∧
    (destinations (loopInit (bumpFrame true exampleView)) (Scope.entriesList 0 exampleScopes)).map
        (fun p => (nodeAt p
          (UpdateCallback exampleTracer 5 exampleView (Scope.entriesList 0 exampleScopes)
            true).m_rootNodes).map (fun n => n.RecursionDepth)) =
      (Scope.entriesList 0 exampleScopes).map (fun e => some e.Depth) :=
  ⟨⟨by decide, by decide, by decide, List.Perm.refl _, by decide⟩,
    (((UpdateCallback_RecursionDepth_is_Depth exampleTracer 5 exampleView true (by decide)
      (by decide)).1 exampleScopes 0 10 (by decide)).2
        (Scope.entriesList 0 exampleScopes) (List.Perm.refl _) (by decide)).2⟩

/-! ## The loops of `CleanupPath` run to their end -/

theorem find_getElem (c : Char) : ∀ (ret : Str) (pos : Nat), find [c] ret = some pos →
    ret[pos]? = some c
  | [], pos, h => by simp [find] at h
  | x :: rest, pos, h => by
    simp only [find] at h
    by_cases hx : [c].isPrefixOf (x :: rest) = true
    · simp only [hx, if_true, Option.some.injEq] at h
      subst h
      simp only [List.isPrefixOf, Bool.and_true, beq_iff_eq] at hx
      simp [hx]
    · simp only [hx, Bool.false_eq_true, if_false, Option.map_eq_some'] at h
      obtain ⟨pos', hpos', rfl⟩ := h
      simpa using find_getElem c rest pos' hpos'

theorem find_none_of_not_mem (c : Char) : ∀ (ret : Str), c ∉ ret → find [c] ret = none
  | [], _ => by simp [find]
  | x :: rest, h => by
    simp only [List.mem_cons, not_or] at h
    have hx : [c].isPrefixOf (x :: rest) = false := by
      simp only [List.isPrefixOf, Bool.and_true, beq_eq_false_iff_ne, ne_eq]
      exact h.1
    simp [find, hx, find_none_of_not_mem c rest h.2]

theorem count_replace (c c' : Char) (hne : c' ≠ c) (ret : Str) (pos : Nat)
    (h : ret[pos]? = some c) : (replace ret pos 1 [c']).count c + 1 = ret.count c := by
  have hlt : pos < ret.length := by
    by_contra hge
    rw [List.getElem?_eq_none (not_lt.mp hge)] at h
    cases h
  have hsplit : ret = ret.take pos ++ c :: ret.drop (pos + 1) := by
    rw [List.getElem?_eq_getElem hlt] at h
    simp only [Option.some.injEq] at h
    rw [← h, List.getElem_cons_drop, List.take_append_drop]
  have hc : ([c'] : Str).count c = 0 :=
    List.count_eq_zero.mpr (by simp only [List.mem_singleton]; exact fun h => hne h.symm)
  conv_rhs => rw [hsplit]
  simp only [replace, List.count_append, List.count_cons_self, hc]
  omega

/-- The loops that turn one character into another: when the fuel is at least the number of
occurrences, none is left. -/
theorem replaceLoop_char_finishes (c c' : Char) (hne : c' ≠ c) : ∀ (fuel : Nat) (ret : Str),
    ret.count c ≤ fuel → find [c] (replaceLoop [c] [c'] fuel ret) = none
  | 0, ret, h => by
    simp only [replaceLoop]
    exact find_none_of_not_mem c ret (List.count_eq_zero.mp (Nat.le_zero.mp h))
  | fuel + 1, ret, h => by
    simp only [replaceLoop]
    cases hf : find [c] ret with
    | none => simpa using hf
    | some pos =>
      simp only [List.length_singleton]
      apply replaceLoop_char_finishes c c' hne fuel
      have := count_replace c c' hne ret pos (find_getElem c ret pos hf)
      omega

theorem find_bound (needle : Str) : ∀ (ret : Str) (pos : Nat), find needle ret = some pos →
    pos + needle.length ≤ ret.length
  | [], pos, h => by
    simp only [find] at h
    split at h
    · rename_i hn
      simp only [Option.some.injEq] at h
      subst h
      simp [List.isEmpty_iff.mp hn]
    · cases h
  | x :: rest, pos, h => by
    simp only [find] at h
    by_cases hx : needle.isPrefixOf (x :: rest) = true
    · simp only [hx, if_true, Option.some.injEq] at h
      subst h
      simpa using (List.isPrefixOf_iff_prefix.mp hx).length_le
    · simp only [hx, Bool.false_eq_true, if_false, Option.map_eq_some'] at h
      obtain ⟨pos', hpos', rfl⟩ := h
      have := find_bound needle rest pos' hpos'
      simp only [List.length_cons]
      omega

/-- The loop that collapses doubled backslashes: when the fuel is at least the length of the
string, no doubled backslash is left. -/
theorem replaceLoop_collapse_finishes : ∀ (fuel : Nat) (ret : Str), ret.length ≤ fuel →
    find ['\\', '\\'] (replaceLoop ['\\', '\\'] ['\\'] fuel ret) = none
  | 0, ret, h => by
    simp only [replaceLoop]
    have : ret = [] := List.length_eq_zero.mp (Nat.le_zero.mp h)
    subst this
    rfl
  | fuel + 1, ret, h => by
    simp only [replaceLoop]
    cases hf : find ['\\', '\\'] ret with
    | none => simpa using hf
    | some pos =>
      simp only []
      apply replaceLoop_collapse_finishes fuel
      have hb := find_bound _ ret pos hf
      simp only [List.length_cons, List.length_singleton, List.length_nil] at hb
      simp only [replace, List.length_append, List.length_take, List.length_drop,
        List.length_cons, List.length_singleton, List.length_nil]
      omega

/-- In `CleanupPath` each loop has fuel enough: after the first no `/` is left, after the
second no doubled backslash. -/
theorem CleanupPath_loops_finish (ret : Str) :
    find ['/'] (replaceLoop ['/'] ['\\'] ret.length ret) = none ∧
    find ['\\'] (replaceLoop ['\\'] ['/'] ret.length ret) = none ∧
    find ['\\', '\\'] (replaceLoop ['\\', '\\'] ['\\'] ret.length ret) = none :=
  ⟨replaceLoop_char_finishes '/' '\\' (by decide) _ ret (List.count_le_length _ _),
    replaceLoop_char_finishes '\\' '/' (by decide) _ ret (List.count_le_length _ _),
    replaceLoop_collapse_finishes _ ret le_rfl⟩

end Vanilla
